import Mathlib

/-!
Verification development for the `website-crawler` repository.

The Python sources under `app/` are shallowly embedded below.  Python
strings are modelled as `List Char` (Python `str` is a sequence of unicode
code points; lone surrogates, which cannot occur in any URL the crawler
produces, are not representable).  The pieces of `urllib.parse` that
`app/frontier.py` calls (`urlparse`, `parse_qs`, `urlencode`, `quote_plus`,
`unquote`) are embedded from CPython's `Lib/urllib/parse.py` at the level of
detail the frontier exercises; `hashlib.sha256` is modelled as an injective
key (the identity on the hashed string), and `heapq` is embedded
operation-for-operation from CPython's `Lib/heapq.py`.
-/

namespace Crawler

/-- Python `str` modelled as a list of unicode code points. -/
abbrev PyStr := List Char

/-- Code points for which Python's `str.isspace` is true (the set stripped by
`str.strip()` with no arguments). -/
def pySpaceCodes : List Nat :=
  [0x9, 0xa, 0xb, 0xc, 0xd, 0x1c, 0x1d, 0x1e, 0x1f, 0x20, 0x85, 0xa0, 0x1680,
   0x2000, 0x2001, 0x2002, 0x2003, 0x2004, 0x2005, 0x2006, 0x2007, 0x2008,
   0x2009, 0x200a, 0x2028, 0x2029, 0x202f, 0x205f, 0x3000]

def isPySpace (c : Char) : Bool := pySpaceCodes.contains c.toNat

/-- Python `str.strip()` with no arguments. -/
def pyStrip (s : PyStr) : PyStr :=
  ((s.dropWhile isPySpace).reverse.dropWhile isPySpace).reverse

/-- `_WHATWG_C0_CONTROL_OR_SPACE` from `urllib.parse`: code points `0x00`-`0x20`. -/
def isC0OrSpace (c : Char) : Bool := c.toNat ≤ 0x20

/-- `urlsplit` only lstrips the URL (CPython keeps trailing spaces). -/
def lstripC0 (s : PyStr) : PyStr := s.dropWhile isC0OrSpace

/-- `_UNSAFE_URL_BYTES_TO_REMOVE = ["\t", "\r", "\n"]`, removed everywhere. -/
def isTabCrLf (c : Char) : Bool := c = '\t' || c = '\r' || c = '\n'

def removeTabCrLf (s : PyStr) : PyStr := s.filter (fun c => !(isTabCrLf c))

def isAsciiUpperCh (c : Char) : Bool := 'A' ≤ c && c ≤ 'Z'
def isAsciiLowerCh (c : Char) : Bool := 'a' ≤ c && c ≤ 'z'
def isAsciiAlphaCh (c : Char) : Bool := isAsciiUpperCh c || isAsciiLowerCh c
def isAsciiDigitCh (c : Char) : Bool := '0' ≤ c && c ≤ '9'

/-- Python `str.lower()`, modelled on the ASCII range (the URLs treated by the
frontier's tests and callers are ASCII; unicode case mapping is not modelled). -/
def pyLowerChar (c : Char) : Char :=
  if isAsciiUpperCh c then Char.ofNat (c.toNat + 32) else c

def pyLower (s : PyStr) : PyStr := s.map pyLowerChar

/-- `scheme_chars` from `urllib.parse`. -/
def isSchemeChar (c : Char) : Bool :=
  isAsciiAlphaCh c || isAsciiDigitCh c || c = '+' || c = '-' || c = '.'

/-- Split at the first character satisfying `p`: `some (before, after)` with the
matching character dropped, or `none` when no character matches. -/
def splitFirst (p : Char → Bool) : PyStr → Option (PyStr × PyStr)
  | [] => none
  | c :: rest =>
    if p c then some ([], rest)
    else match splitFirst p rest with
      | none => none
      | some (a, b) => some (c :: a, b)

/-- `s.split(sep)` for a one-character separator, on a nonempty string
(Python returns `[s]` when the separator is absent). -/
def pySplitChar (sep : Char) : PyStr → List PyStr
  | [] => [[]]
  | c :: rest =>
    if c = sep then [] :: pySplitChar sep rest
    else match pySplitChar sep rest with
      | [] => [[c]]
      | a :: t => (c :: a) :: t

/-! ## UTF-8 (used by `quote`/`unquote` in `urllib.parse`) -/

/-- UTF-8 bytes of one scalar value. -/
def utf8EncodeChar (c : Char) : List Nat :=
  let n := c.toNat
  if n < 0x80 then [n]
  else if n < 0x800 then [0xC0 + n / 64, 0x80 + n % 64]
  else if n < 0x10000 then
    [0xE0 + n / 4096, 0x80 + (n / 64) % 64, 0x80 + n % 64]
  else
    [0xF0 + n / 262144, 0x80 + (n / 4096) % 64, 0x80 + (n / 64) % 64,
     0x80 + n % 64]

def utf8Encode (s : PyStr) : List Nat := s.flatMap utf8EncodeChar

def isUtf8Cont (b : Nat) : Bool := 0x80 ≤ b && b ≤ 0xBF

/-- U+FFFD, the replacement character produced by `errors='replace'`. -/
def replChar : Char := Char.ofNat 0xFFFD

/-- UTF-8 decoding with replacement (`bytes.decode('utf-8', 'replace')`),
written with explicit fuel so that it is structural; each step consumes at
least one byte, so `fuel = length` is always enough.  (On invalid sequences
the exact number of U+FFFD emitted is a modelling approximation; valid
sequences decode exactly.) -/
def utf8DecodeGo : Nat → List Nat → PyStr
  | 0, _ => []
  | _ + 1, [] => []
  | fuel + 1, b :: rest =>
    if b < 0x80 then Char.ofNat b :: utf8DecodeGo fuel rest
    else if 0xC2 ≤ b && b ≤ 0xDF then
      match rest with
      | b2 :: rest2 =>
        if isUtf8Cont b2 then
          Char.ofNat ((b - 0xC0) * 64 + (b2 - 0x80)) :: utf8DecodeGo fuel rest2
        else replChar :: utf8DecodeGo fuel rest
      | [] => [replChar]
    else if 0xE0 ≤ b && b ≤ 0xEF then
      match rest with
      | b2 :: rest2 =>
        if (if b = 0xE0 then 0xA0 ≤ b2 && b2 ≤ 0xBF
            else if b = 0xED then 0x80 ≤ b2 && b2 ≤ 0x9F
            else isUtf8Cont b2) then
          match rest2 with
          | b3 :: rest3 =>
            if isUtf8Cont b3 then
              Char.ofNat ((b - 0xE0) * 4096 + (b2 - 0x80) * 64 + (b3 - 0x80)) ::
                utf8DecodeGo fuel rest3
            else replChar :: utf8DecodeGo fuel rest2
          | [] => [replChar]
        else replChar :: utf8DecodeGo fuel rest
      | [] => [replChar]
    else if 0xF0 ≤ b && b ≤ 0xF4 then
      match rest with
      | b2 :: rest2 =>
        if (if b = 0xF0 then 0x90 ≤ b2 && b2 ≤ 0xBF
            else if b = 0xF4 then 0x80 ≤ b2 && b2 ≤ 0x8F
            else isUtf8Cont b2) then
          match rest2 with
          | b3 :: rest3 =>
            if isUtf8Cont b3 then
              match rest3 with
              | b4 :: rest4 =>
                if isUtf8Cont b4 then
                  Char.ofNat ((b - 0xF0) * 262144 + (b2 - 0x80) * 4096 +
                      (b3 - 0x80) * 64 + (b4 - 0x80)) :: utf8DecodeGo fuel rest4
                else replChar :: utf8DecodeGo fuel rest3
              | [] => [replChar]
            else replChar :: utf8DecodeGo fuel rest2
          | [] => [replChar]
        else replChar :: utf8DecodeGo fuel rest
      | [] => [replChar]
    else replChar :: utf8DecodeGo fuel rest

def utf8DecodeReplace (bs : List Nat) : PyStr := utf8DecodeGo bs.length bs

/-! ## `quote_plus` / `unquote` -/

/-- `_ALWAYS_SAFE`: ASCII letters, digits, and `_.-~` (`safe=''` at the
frontier's call sites, so nothing else is safe). -/
def isSafeByte (b : Nat) : Bool :=
  (0x41 ≤ b && b ≤ 0x5A) || (0x61 ≤ b && b ≤ 0x7A) ||
  (0x30 ≤ b && b ≤ 0x39) || b = 0x5F || b = 0x2E || b = 0x2D || b = 0x7E

def hexDigitUpper (n : Nat) : Char :=
  if n < 10 then Char.ofNat (0x30 + n) else Char.ofNat (0x41 + (n - 10))

/-- One byte of `quote_plus` output: space becomes `+`, safe bytes pass
through, everything else becomes `%XX` with uppercase hex. -/
def quotePlusByte (b : Nat) : PyStr :=
  if b = 32 then ['+']
  else if isSafeByte b then [Char.ofNat b]
  else ['%', hexDigitUpper (b / 16), hexDigitUpper (b % 16)]

/-- `urllib.parse.quote_plus(s, safe='')`. -/
def quotePlus (s : PyStr) : PyStr := (utf8Encode s).flatMap quotePlusByte

/-- Value of a hex digit (`_hexdig` accepts both cases). -/
def hexVal? (c : Char) : Option Nat :=
  if isAsciiDigitCh c then some (c.toNat - 0x30)
  else if 'a' ≤ c && c ≤ 'f' then some (c.toNat - 0x61 + 10)
  else if 'A' ≤ c && c ≤ 'F' then some (c.toNat - 0x41 + 10)
  else none

/-- The percent-decoding walk of `unquote` (with `errors='replace'`): ASCII
characters accumulate as bytes, `%XX` with two hex digits accumulates the
byte, anything else flushes the byte buffer through UTF-8 decoding.  A `%`
not followed by two hex digits stays literal (`_hextobyte` lookup fails).
Fuel-structural; each step consumes at least one character. -/
def unquoteGo : Nat → List Nat → PyStr → PyStr
  | 0, acc, rest => utf8DecodeReplace acc.reverse ++ rest
  | _ + 1, acc, [] => utf8DecodeReplace acc.reverse
  | fuel + 1, acc, c :: rest =>
    if c = '%' then
      match rest with
      | h1 :: h2 :: rest2 =>
        match hexVal? h1, hexVal? h2 with
        | some v1, some v2 => unquoteGo fuel ((v1 * 16 + v2) :: acc) rest2
        | _, _ => unquoteGo fuel (c.toNat :: acc) rest
      | _ => unquoteGo fuel (c.toNat :: acc) rest
    else if c.toNat < 0x80 then unquoteGo fuel (c.toNat :: acc) rest
    else utf8DecodeReplace acc.reverse ++ c :: unquoteGo fuel [] rest

/-- `urllib.parse.unquote(s)` (default `utf-8`/`replace`). -/
def pyUnquote (s : PyStr) : PyStr := unquoteGo s.length [] s

/-- `unquote_plus` as inlined in `parse_qsl`: `s.replace('+', ' ')` then
`unquote`. -/
def unquotePlus (s : PyStr) : PyStr :=
  pyUnquote (s.map (fun c => if c = '+' then ' ' else c))

/-! ## `urlparse` -/

/-- The six components of `urllib.parse.ParseResult`. -/
structure PyParse where
  scheme : PyStr
  netloc : PyStr
  path : PyStr
  params : PyStr
  query : PyStr
  fragment : PyStr
deriving Repr, DecidableEq

/-- `uses_params` from `urllib.parse`. -/
def usesParams : List PyStr :=
  [[], ['f','t','p'], ['h','d','l'], ['p','r','o','s','p','e','r','o'],
   ['h','t','t','p'], ['i','m','a','p'], ['h','t','t','p','s'],
   ['s','h','t','t','p'], ['r','t','s','p'], ['r','t','s','p','s'],
   ['r','t','s','p','u'], ['s','i','p'], ['s','i','p','s'],
   ['m','m','s'], ['s','f','t','p'], ['t','e','l']]

/-- `uses_netloc` membership test for http/https (the only schemes that reach
`urlunsplit` in `normalize_url`); both are in `uses_netloc`. -/
def usesNetloc : List PyStr :=
  [[], ['f','t','p'], ['h','t','t','p'], ['h','t','t','p','s'],
   ['m','m','s'], ['s','f','t','p'], ['w','s'], ['w','s','s']]

/-- The scheme-splitting step of `urlsplit`: the text before the first `:`
must start with an ASCII letter and consist of `scheme_chars`; the scheme is
lowercased by `urlsplit` itself. -/
def splitScheme (url : PyStr) : PyStr × PyStr :=
  match splitFirst (· = ':') url with
  | none => ([], url)
  | some (before, after) =>
    match before with
    | [] => ([], url)
    | c0 :: _ =>
      if isAsciiAlphaCh c0 && before.all isSchemeChar then
        (pyLower before, after)
      else ([], url)

def isNetlocDelim (c : Char) : Bool := c = '/' || c = '?' || c = '#'

/-- `_splitnetloc(url, 2)`: the netloc runs to the first `/`, `?` or `#`. -/
def splitNetloc (s : PyStr) : PyStr × PyStr :=
  (s.takeWhile (fun c => !(isNetlocDelim c)), s.dropWhile (fun c => !(isNetlocDelim c)))

/-- `_splitparams`: split the params off the last path segment at its first
`;` (only called when `;` occurs in the path). -/
def splitParamsPy (url : PyStr) : PyStr × PyStr :=
  if url.contains '/' then
    let revSeg := url.reverse.takeWhile (· ≠ '/')
    let seg := revSeg.reverse
    let pre := url.take (url.length - seg.length)
    match splitFirst (· = ';') seg with
    | none => (url, [])
    | some (a, b) => (pre ++ a, b)
  else
    match splitFirst (· = ';') url with
    | none => (url, [])
    | some (a, b) => (a, b)

/-- `urllib.parse.urlparse` (with `allow_fragments=True`), returning `none`
where CPython raises `ValueError` for mismatched netloc brackets.  (The
IPv6-literal content check and the NFKC netloc check, which also raise on
some exotic inputs, are not modelled; they never accept-then-alter.) -/
def pyUrlparse? (url0 : PyStr) : Option PyParse :=
  let url1 := removeTabCrLf (lstripC0 url0)
  let (scheme, rest1) := splitScheme url1
  let (netloc, rest2) :=
    if rest1.take 2 = ['/', '/'] then splitNetloc (rest1.drop 2)
    else ([], rest1)
  if (netloc.contains '[' && !(netloc.contains ']')) ||
     (netloc.contains ']' && !(netloc.contains '[')) then none
  else
    let (rest3, fragment) :=
      match splitFirst (· = '#') rest2 with
      | none => (rest2, [])
      | some (a, b) => (a, b)
    let (path0, query) :=
      match splitFirst (· = '?') rest3 with
      | none => (rest3, [])
      | some (a, b) => (a, b)
    let (path, params) :=
      if usesParams.contains scheme && path0.contains ';' then
        splitParamsPy path0
      else (path0, [])
    some ⟨scheme, netloc, path, params, query, fragment⟩

/-- `urlunsplit` for the shapes `normalize_url` produces (scheme and netloc
nonempty, no fragment argument beyond what is passed). -/
def urlunsplitPy (scheme netloc url query fragment : PyStr) : PyStr :=
  let url :=
    if netloc ≠ [] ∨ (scheme ≠ [] ∧ usesNetloc.contains scheme ∧ url.take 2 ≠ ['/', '/']) then
      let url' := if url ≠ [] ∧ url.take 1 ≠ ['/'] then '/' :: url else url
      '/' :: '/' :: (netloc ++ url')
    else url
  let url := if scheme ≠ [] then scheme ++ ':' :: url else url
  let url := if query ≠ [] then url ++ '?' :: query else url
  if fragment ≠ [] then url ++ '#' :: fragment else url

/-- `urlunparse`. -/
def urlunparsePy (scheme netloc path params query fragment : PyStr) : PyStr :=
  let url := if params ≠ [] then path ++ ';' :: params else path
  urlunsplitPy scheme netloc url query fragment

/-! ## `parse_qs` / `urlencode` -/

/-- `parse_qsl(qs, keep_blank_values=True)`: split on `&`, skip empty fields,
split each field at its first `=` (a field without `=` keeps a blank value),
then `+`-to-space and percent-decode both name and value. -/
def parseQsl (qs : PyStr) : List (PyStr × PyStr) :=
  if qs = [] then []
  else
    (pySplitChar '&' qs).filterMap fun field =>
      if field = [] then none
      else
        match splitFirst (· = '=') field with
        | none => some (unquotePlus field, [])
        | some (n, v) => some (unquotePlus n, unquotePlus v)

/-- Append `v` under key `k`, preserving first-occurrence key order (Python
dict insertion order). -/
def groupInsert (k : PyStr) (v : PyStr) :
    List (PyStr × List PyStr) → List (PyStr × List PyStr)
  | [] => [(k, [v])]
  | (k', vs) :: rest =>
    if k' = k then (k', vs ++ [v]) :: rest
    else (k', vs) :: groupInsert k v rest

/-- `parse_qs(qs, keep_blank_values=True)` as an insertion-ordered
association list. -/
def parseQs (qs : PyStr) : List (PyStr × List PyStr) :=
  (parseQsl qs).foldl (fun acc kv => groupInsert kv.1 kv.2 acc) []

/-- `urlencode(d, doseq=True)` over an insertion-ordered association list. -/
def urlencodeDoseq (l : List (PyStr × List PyStr)) : PyStr :=
  List.intercalate ['&']
    (l.flatMap fun kv => kv.2.map (fun v => quotePlus kv.1 ++ '=' :: quotePlus v))

/-! ## `app/frontier.py` – URL normalisation -/

/-- `_STRIP_PARAMS` prefixes. -/
def trackingPrefixes : List PyStr :=
  [['u','t','m','_'], ['f','b','c','l','i','d'], ['g','c','l','i','d'],
   ['m','c','_'], ['r','e','f'], ['s','o','u','r','c','e'],
   ['c','a','m','p','a','i','g','n']]

/-- ASCII case-insensitive prefix test (`re.match` with `re.IGNORECASE`). -/
def startsWithCI : PyStr → PyStr → Bool
  | [], _ => true
  | _ :: _, [] => false
  | p :: ps, c :: cs => pyLowerChar p = pyLowerChar c && startsWithCI ps cs

/-- `_STRIP_PARAMS.match(k)` as a Boolean. -/
def isTrackingKey (k : PyStr) : Bool :=
  trackingPrefixes.any (fun p => startsWithCI p k)

/-- `re.sub(r"/+", "/", path)`, single pass with a previous-was-slash flag. -/
def collapseGo : PyStr → Bool → PyStr
  | [], _ => []
  | c :: rest, lastSlash =>
    if c = '/' then
      if lastSlash then collapseGo rest true
      else '/' :: collapseGo rest true
    else c :: collapseGo rest false

def collapseSlashes (s : PyStr) : PyStr := collapseGo s false

def httpScheme : PyStr := ['h', 't', 't', 'p']
def httpsScheme : PyStr := ['h', 't', 't', 'p', 's']

/-- `URLFrontier.normalize_url`. -/
def normalize_url (url : PyStr) : Option PyStr :=
  match pyUrlparse? (pyStrip url) with
  | none => none
  | some p =>
    if ¬(p.scheme = httpScheme ∨ p.scheme = httpsScheme) then none
    else if p.netloc = [] then none
    else
      let scheme := pyLower p.scheme
      let netloc := pyLower p.netloc
      let path0 := if p.path = [] then ['/'] else p.path
      let path1 := collapseSlashes path0
      let path := if path1 = [] then ['/'] else path1
      let query :=
        if p.query = [] then []
        else urlencodeDoseq
          ((parseQs p.query).filter (fun kv => !isTrackingKey kv.1))
      some (urlunparsePy scheme netloc path p.params query [])

/-! ## `heapq` (CPython `Lib/heapq.py`), specialised to `QueueEntry`

`QueueEntry` is `@dataclass(order=True)` with `url` marked `compare=False`,
so `<` between entries compares `depth` alone. -/

structure QueueEntry where
  depth : Nat
  url : PyStr
deriving Repr, DecidableEq, Inhabited

/-- Placeholder for out-of-range reads (never reached at valid indices). -/
def dfltEntry : QueueEntry := ⟨0, []⟩

/-- `_siftdown(heap, startpos, pos)` with `newitem` already read out of
`heap[pos]`; fuel-structural (`pos` strictly decreases, so `fuel = pos`
suffices). -/
def siftdownLoop : Nat → List QueueEntry → Nat → Nat → QueueEntry → List QueueEntry
  | 0, heap, _, pos, newitem => heap.set pos newitem
  | fuel + 1, heap, startpos, pos, newitem =>
    if startpos < pos then
      let parentpos := (pos - 1) / 2
      let parent := heap.getD parentpos dfltEntry
      if newitem.depth < parent.depth then
        siftdownLoop fuel (heap.set pos parent) startpos parentpos newitem
      else heap.set pos newitem
    else heap.set pos newitem

def siftdownPy (heap : List QueueEntry) (startpos pos : Nat) : List QueueEntry :=
  siftdownLoop pos heap startpos pos (heap.getD pos dfltEntry)

/-- The descend-to-leaf loop of `_siftup`: moves the smaller child (the right
one on ties) into the hole until the hole has no left child; returns the
final hole position and the shuffled heap.  Fuel-structural (`pos` at least
doubles each iteration, so `fuel = endpos` suffices). -/
def siftupLoop : Nat → List QueueEntry → Nat → Nat → Nat × List QueueEntry
  | 0, heap, pos, _ => (pos, heap)
  | fuel + 1, heap, pos, endpos =>
    let childpos := 2 * pos + 1
    if childpos < endpos then
      let rightpos := childpos + 1
      let chosen :=
        if rightpos < endpos &&
            !((heap.getD childpos dfltEntry).depth < (heap.getD rightpos dfltEntry).depth) then
          rightpos
        else childpos
      siftupLoop fuel (heap.set pos (heap.getD chosen dfltEntry)) chosen endpos
    else (pos, heap)

/-- `_siftup(heap, pos)`: descend the hole to a leaf, place `newitem` there,
then bubble it back up with `_siftdown`. -/
def siftupPy (heap : List QueueEntry) (pos : Nat) : List QueueEntry :=
  let endpos := heap.length
  let newitem := heap.getD pos dfltEntry
  let r := siftupLoop endpos heap pos endpos
  siftdownLoop r.1 (r.2.set r.1 newitem) pos r.1 newitem

/-- `heapq.heappush`. -/
def heappush (heap : List QueueEntry) (item : QueueEntry) : List QueueEntry :=
  siftdownPy (heap ++ [item]) 0 heap.length

/-- `heapq.heappop`: pop the last element; if the heap is still nonempty the
root is returned and the last element sifted down from the root. -/
def heappop? (heap : List QueueEntry) : Option (QueueEntry × List QueueEntry) :=
  match heap.getLast? with
  | none => none
  | some lastelt =>
    let rest := heap.dropLast
    if rest.isEmpty then some (lastelt, [])
    else some (rest.getD 0 dfltEntry, siftupPy (rest.set 0 lastelt) 0)

/-! ## `app/frontier.py` – `URLFrontier` -/

/-- `hashlib.sha256(url).hexdigest()` modelled as an injective key: the
hashed string itself (the code only ever tests hashes for set membership). -/
def urlHash (s : PyStr) : PyStr := s

structure URLFrontier where
  allowed_domains : List PyStr
  max_depth : Nat
  queue : List QueueEntry
  visited : List PyStr
  enqueued : List PyStr
deriving Repr, DecidableEq

/-- `URLFrontier.__init__` (lowercases the allowed domains). -/
def mkFrontier (allowed_domains : List PyStr) (max_depth : Nat) : URLFrontier :=
  ⟨allowed_domains.map pyLower, max_depth, [], [], []⟩

/-- `re.sub(r"^www\.", "", domain)`. -/
def stripWww (d : PyStr) : PyStr :=
  if d.take 4 = ['w', 'w', 'w', '.'] then d.drop 4 else d

/-- `URLFrontier._domain_allowed`. -/
def domain_allowed (f : URLFrontier) (url : PyStr) : Bool :=
  let domain :=
    match pyUrlparse? url with
    | some p => pyLower p.netloc
    | none => []
  let bare := stripWww domain
  f.allowed_domains.contains domain || f.allowed_domains.contains bare

/-- `URLFrontier.add_url`: returns the Boolean result and the new state. -/
def add_url (f : URLFrontier) (url : PyStr) (depth : Nat) : Bool × URLFrontier :=
  match normalize_url url with
  | none => (false, f)
  | some norm =>
    let url_hash := urlHash norm
    if f.max_depth < depth then (false, f)
    else if f.visited.contains url_hash || f.enqueued.contains url_hash then (false, f)
    else if ¬domain_allowed f norm then (false, f)
    else
      (true,
       { f with
         queue := heappush f.queue ⟨depth, norm⟩,
         enqueued := url_hash :: f.enqueued })

/-- The `while self._queue` loop of `get_next`; fuel-structural (each
`heappop` shortens the queue by one, so `fuel = length` suffices). -/
def getNextGo : Nat → URLFrontier → Option (PyStr × Nat) × URLFrontier
  | 0, f => (none, f)
  | fuel + 1, f =>
    match heappop? f.queue with
    | none => (none, f)
    | some (entry, rest) =>
      let f' := { f with queue := rest }
      if f.visited.contains (urlHash entry.url) then getNextGo fuel f'
      else (some (entry.url, entry.depth), f')

/-- `URLFrontier.get_next`. -/
def get_next (f : URLFrontier) : Option (PyStr × Nat) × URLFrontier :=
  getNextGo f.queue.length f

/-- `URLFrontier.mark_visited` (`visited` is a Python set; membership is what
matters, so it is modelled as a list tested with `contains`). -/
def mark_visited (f : URLFrontier) (url : PyStr) : URLFrontier :=
  let norm := (normalize_url url).getD url
  { f with visited := urlHash norm :: f.visited }

/-- One client call on a frontier. -/
inductive FrontierOp where
  | add (url : PyStr) (depth : Nat)
  | next
  | visit (url : PyStr)

def stepOp (f : URLFrontier) : FrontierOp → URLFrontier × Option (PyStr × Nat)
  | .add u d => ((add_url f u d).2, none)
  | .next => ((get_next f).2, (get_next f).1)
  | .visit u => (mark_visited f u, none)

/-- Run a sequence of calls, collecting every value `get_next` returned. -/
def runOps (f : URLFrontier) : List FrontierOp → URLFrontier × List (PyStr × Nat)
  | [] => (f, [])
  | op :: ops =>
    let s := stepOp f op
    let r := runOps s.1 ops
    (r.1, (match s.2 with | none => [] | some o => [o]) ++ r.2)

/-! ## `app/fetcher.py` – `FetchResult` and `_fetch_with_retries` -/

structure FetchResult where
  url : PyStr
  status_code : Nat
  html : PyStr
  headers : List (PyStr × PyStr)
  method : PyStr
  error : Option PyStr
deriving Repr, DecidableEq

/-- Python truthiness of the `error` field (`not self.error` is true both for
`None` and for the empty string). -/
def errTruthy : Option PyStr → Bool
  | none => false
  | some s => !s.isEmpty

/-- `FetchResult.ok`: `200 <= status_code < 400 and self.html and not self.error`. -/
def FetchResult.ok (r : FetchResult) : Bool :=
  (200 ≤ r.status_code && r.status_code < 400) && !r.html.isEmpty && !errTruthy r.error

def staticMethod : PyStr := ['s', 't', 'a', 't', 'i', 'c']

/-- The `for attempt in range(max_retries + 1)` loop of `_fetch_with_retries`.
`outcome i` is what the `i`-th `_fetch_static` call does (returns or raises,
with the exception's message).  Returns the `FetchResult`, the list of
back-off waits performed (in seconds), and the number of attempts made. -/
def fetchRetriesGo (outcome : Nat → Except PyStr FetchResult) (url : PyStr) :
    Nat → Nat → PyStr → FetchResult × List Nat × Nat
  | 0, _, last_error => (⟨url, 0, [], [], staticMethod, some last_error⟩, [], 0)
  | n + 1, attempt, _ =>
    match outcome attempt with
    | .ok r => (r, [], 1)
    | .error e =>
      let wait := min (2 ^ attempt) 30
      let r := fetchRetriesGo outcome url n (attempt + 1) e
      (r.1, wait :: r.2.1, r.2.2 + 1)

/-- `PageFetcher._fetch_with_retries` (with `retries=None`, so
`max_retries = config.max_retries`); `last_error` starts as `""`. -/
def fetch_with_retries (outcome : Nat → Except PyStr FetchResult)
    (max_retries : Nat) (url : PyStr) : FetchResult × List Nat × Nat :=
  fetchRetriesGo outcome url (max_retries + 1) 0 []

/-! ## `app/extractors/text.py` – headings -/

/-- One element of the parsed document, in document order, carrying its tag
name and its `get_text(strip=True)` text. -/
structure SoupNode where
  tag : String
  text : String
deriving Repr, DecidableEq

structure Heading where
  level : Nat
  text : String
deriving Repr, DecidableEq

def headingName (level : Nat) : String := "h" ++ toString level

/-- `soup.find_all(name)` restricted to a flat document model: all elements
with the given tag, in document order. -/
def findAll (soup : List SoupNode) (t : String) : List SoupNode :=
  soup.filter (fun n => n.tag = t)

/-- `TextExtractor._get_headings`: for each level 1..6 in turn, every
matching element with nonempty stripped text. -/
def get_headings (soup : List SoupNode) : List Heading :=
  (List.range' 1 6).flatMap fun level =>
    (findAll soup (headingName level)).filterMap fun n =>
      if n.text ≠ "" then some ⟨level, n.text⟩ else none

def levelOfTag (t : String) : Option Nat :=
  if t = "h1" then some 1
  else if t = "h2" then some 2
  else if t = "h3" then some 3
  else if t = "h4" then some 4
  else if t = "h5" then some 5
  else if t = "h6" then some 6
  else none

/-- Modelled from the spec's words (for comparison with `get_headings`):
"every `<h1>`–`<h6>` with non-empty text, in document order, tagged with
level". -/
def docOrderHeadings (soup : List SoupNode) : List Heading :=
  soup.filterMap fun n =>
    match levelOfTag n.tag with
    | some l => if n.text ≠ "" then some ⟨l, n.text⟩ else none
    | none => none

/-! ## `app/extractors/image.py` – `ImageExtractor` -/

structure ImgTag where
  src : Option String
  dataSrc : Option String
  dataLazySrc : Option String
  alt : Option String
deriving Repr, DecidableEq

/-- Python's `a or b` on optional strings (`None` and `""` are falsy). -/
def pyOrStr (a : Option String) (b : String) : String :=
  match a with
  | some s => if s = "" then b else s
  | none => b

/-- `img.get("src") or img.get("data-src") or img.get("data-lazy-src") or ""`. -/
def imgSrcOf (t : ImgTag) : String :=
  pyOrStr t.src (pyOrStr t.dataSrc (pyOrStr t.dataLazySrc ""))

/-- `img.get("alt", "") or ""`, then `.strip()` (ASCII strip modelled). -/
def imgAltOf (t : ImgTag) : String := (pyOrStr t.alt "").trim

structure ImgRecord where
  image_path : String
  source_page : String
  alt_text : String
  image_url : String
deriving Repr, DecidableEq

/-- Per-job mutable state of one `ImageExtractor` instance. -/
structure ImageExtractorState where
  min_size : Nat
  download : Bool
  seen_hashes : List String
  seen_urls : List String
deriving Repr, DecidableEq

/-- `ImageExtractor.__init__` (the directory bookkeeping is filesystem
side-effect only). -/
def imageExtractorNew (min_size : Nat) (download : Bool) : ImageExtractorState :=
  ⟨min_size, download, [], []⟩

/-- `ImageExtractor._find_image_urls`: `urljoin` is taken as a parameter
(the dedup behaviour under scrutiny does not depend on its definition). -/
def findImageUrlsGo (join : String → String → String) (page_url : String) :
    List ImgTag → List String → List (String × String) × List String
  | [], seen => ([], seen)
  | img :: rest, seen =>
    let src := imgSrcOf img
    if src = "" || src.startsWith "data:" then
      findImageUrlsGo join page_url rest seen
    else
      let abs_url := join page_url src
      if seen.contains abs_url then findImageUrlsGo join page_url rest seen
      else
        let r := findImageUrlsGo join page_url rest (abs_url :: seen)
        ((abs_url, imgAltOf img) :: r.1, r.2)

def find_image_urls (join : String → String → String) (st : ImageExtractorState)
    (imgs : List ImgTag) (page_url : String) :
    List (String × String) × ImageExtractorState :=
  let r := findImageUrlsGo join page_url imgs st.seen_urls
  (r.1, { st with seen_urls := r.2 })

/-- One page to be passed to `ImageExtractor.extract`. -/
structure PageImgs where
  page_url : String
  imgs : List ImgTag

/-- The URL-collection part of `extract` run over successive pages of one
job on one `ImageExtractor` instance. -/
def imageFindRun (join : String → String → String) (st : ImageExtractorState) :
    List PageImgs → List (List (String × String)) × ImageExtractorState
  | [] => ([], st)
  | page :: pages =>
    let r := find_image_urls join st page.imgs page.page_url
    let rest := imageFindRun join r.2 pages
    (r.1 :: rest.1, rest.2)

/-- Environment for one `_process_image` call: the download response and what
PIL reports for it. -/
structure ImgResponse where
  status : Nat
  dataLen : Nat
  width : Nat
  height : Nat
  phash : String
  decode_ok : Bool
deriving Repr, DecidableEq

/-- `ImageExtractor._process_image`.  `hasImagehash` is the module-level
`HAS_IMAGEHASH` flag; `path` abstracts the content-hash file path.  A PIL
failure (`decode_ok = false`) is swallowed and the image kept. -/
def process_image (hasImagehash : Bool) (st : ImageExtractorState)
    (url page_url alt : String) (resp : ImgResponse) (path : String) :
    Option ImgRecord × ImageExtractorState :=
  if ¬st.download then (some ⟨"", page_url, alt, url⟩, st)
  else if resp.status ≠ 200 then (none, st)
  else if resp.dataLen = 0 then (none, st)
  else if hasImagehash ∧ resp.decode_ok then
    if resp.width < st.min_size ∨ resp.height < st.min_size then (none, st)
    else if st.seen_hashes.contains resp.phash then (none, st)
    else
      (some ⟨path, page_url, alt, url⟩,
       { st with seen_hashes := resp.phash :: st.seen_hashes })
  else (some ⟨path, page_url, alt, url⟩, st)

/-! ## `app/extractors/__init__.py` – `ExtractorPipeline` -/

structure TextData where
  url : String
  title : String
  headings : List Heading
  content : String
  meta_description : String
deriving Repr, DecidableEq

/-- `ExtractionResult` (the `text_data` default `{}` is modelled as `none`). -/
structure ExtractionResult where
  text_data : Option TextData
  images : List ImgRecord
  internal_links : List String
  external_links : List String
deriving Repr, DecidableEq

/-- What each extractor call does on this page: returns its payload or
raises with a message. -/
structure PipelineEnv where
  textOutcome : Except String TextData
  imagesOutcome : Except String (List ImgRecord)
  linksOutcome : Except String (List String × List String)

/-- `ExtractorPipeline.run`: the three extractors in sequence, each inside
its own `try`/`except` that logs and leaves the default on failure. -/
def pipelineRun (env : PipelineEnv) : ExtractionResult :=
  let r0 : ExtractionResult := ⟨none, [], [], []⟩
  let r1 :=
    match env.textOutcome with
    | .ok t => { r0 with text_data := some t }
    | .error _ => r0
  let r2 :=
    match env.imagesOutcome with
    | .ok imgs => { r1 with images := imgs }
    | .error _ => r1
  match env.linksOutcome with
  | .ok links => { r2 with internal_links := links.1, external_links := links.2 }
  | .error _ => r2

/-- The part of `CrawlConfig` the claims touch. -/
structure CrawlConfig where
  respect_robots : Bool
  min_image_size : Nat
  page_limit : Nat
deriving Repr

/-- `ExtractorPipeline.__init__` as called by `Crawler.__init__`: it passes
only `output_dir` and `allowed_domains`, so the `ImageExtractor` is built
with its default `min_size=100, download=True` regardless of the job's
`config.min_image_size` / `config.download_images`. -/
def pipelineImageStateOf (_cfg : CrawlConfig) : ImageExtractorState :=
  imageExtractorNew 100 true

/-! ## `app/crawler.py` – the orchestration loop -/

/-- Outcome of the robots stage for one URL: `can_fetch` returned `True`,
returned `False`, or raised (which `_process_url` logs and ignores —
fail-open). -/
inductive RobotsOutcome where
  | allowed
  | blocked
  | errored (msg : String)
deriving Repr, DecidableEq

def robotsBlocked : RobotsOutcome → Bool
  | .blocked => true
  | _ => false

/-- Environment for one `_process_url` call: what each fallible stage does. -/
structure ProcessEnv where
  robots : RobotsOutcome
  fetchOutcome : Except String FetchResult
  parseOutcome : Except String Unit
  extractionOutcome : Except String ExtractionResult

/-- `Crawler._process_url`: robots check (when `respect_robots`), fetch,
`result.ok` test, parse, extraction, then enqueue each discovered internal
link at `depth + 1`.  Returns the success Boolean and the frontier after the
child enqueues. -/
def process_url (cfg : CrawlConfig) (env : ProcessEnv) (f : URLFrontier)
    (depth : Nat) : Bool × URLFrontier :=
  if cfg.respect_robots ∧ robotsBlocked env.robots then (false, f)
  else
    match env.fetchOutcome with
    | .error _ => (false, f)
    | .ok r =>
      if ¬r.ok then (false, f)
      else
        match env.parseOutcome with
        | .error _ => (false, f)
        | .ok _ =>
          match env.extractionOutcome with
          | .error _ => (false, f)
          | .ok ex =>
            (true,
             ex.internal_links.foldl
               (fun fa link => (add_url fa link.toList (depth + 1)).2) f)

structure CrawlState where
  pages_crawled : Nat
  frontier : URLFrontier
deriving Repr

/-- The claim's success condition for one popped URL, as a single Boolean:
robots does not block (fail-open on robots errors per §7), the fetch returns
a result with `ok`, and parse and extraction complete without raising. -/
def processSuccess (cfg : CrawlConfig) (env : ProcessEnv) : Bool :=
  (!(cfg.respect_robots && robotsBlocked env.robots)) &&
  (match env.fetchOutcome with
   | .ok r => r.ok
   | .error _ => false) &&
  (match env.parseOutcome with
   | .ok _ => true
   | .error _ => false) &&
  (match env.extractionOutcome with
   | .ok _ => true
   | .error _ => false)

/-! ## Derived notions used by the statements -/

def entryAt (l : List QueueEntry) (i : Nat) : QueueEntry := l.getD i dfltEntry

/-- The binary-heap ordering invariant `heapq` maintains (every child's key
is at least its parent's; the key is `depth` alone). -/
def IsHeap (l : List QueueEntry) : Prop :=
  ∀ i ∈ List.range l.length,
    0 < i → (entryAt l ((i - 1) / 2)).depth ≤ (entryAt l i).depth

/-- Structural well-formedness of a frontier: every queued URL's hash was
recorded in `enqueued`, and the queue never holds the same URL twice.  It
holds for `mkFrontier` and is preserved by every operation. -/
def FrontierWF (f : URLFrontier) : Prop :=
  (∀ e ∈ f.queue, urlHash e.url ∈ f.enqueued) ∧
    (f.queue.map (fun e => e.url)).Nodup

def isAddOp : FrontierOp → Bool
  | .add _ _ => true
  | _ => false

/-- Flatten a grouped query back to its `(key, value)` pairs in output
order. -/
def ungroup (l : List (PyStr × List PyStr)) : List (PyStr × PyStr) :=
  l.flatMap fun kv => kv.2.map (fun v => (kv.1, v))

/-- One iteration of the `while pages_crawled < page_limit` loop in
`Crawler.crawl`: pop, process, bump the counter on success, and mark the
popped URL visited unconditionally.  `none` when the frontier is exhausted
(the loop breaks). -/
def crawlStep (cfg : CrawlConfig) (env : ProcessEnv) (st : CrawlState) :
    Option CrawlState :=
  match get_next st.frontier with
  | (none, _) => none
  | (some (url, depth), f') =>
    let r := process_url cfg env f' depth
    some
      ⟨(if r.1 then st.pages_crawled + 1 else st.pages_crawled),
       mark_visited r.2 url⟩

/-- No two adjacent slashes: the strings on which `re.sub(r"/+", "/", s)`
is the identity. -/
def noDoubleSlash : PyStr → Bool
  | [] => true
  | [_] => true
  | a :: b :: t => !(a = '/' && b = '/') && noDoubleSlash (b :: t)

/-! # Theorems -/

/-! ## C7 – retry loop of the fetcher -/

theorem range_map_shift {α : Type} (f : Nat → α) (k a : Nat) :
    (List.range (k + 1)).map (fun i => f (a + i)) =
      f a :: (List.range k).map (fun i => f (a + 1 + i)) := by
  rw [List.range_succ_eq_map]
  simp only [List.map_cons, Nat.add_zero, List.map_map]
  refine congrArg _ (List.map_congr_left fun i _ => ?_)
  simp only [Function.comp_apply]
  exact congrArg f (by omega)

theorem fetchRetriesGo_spec (outcome : Nat → Except PyStr FetchResult)
    (url : PyStr) :
    ∀ (n attempt : Nat) (le : PyStr),
      (∃ k, k < n ∧ (∀ i, i < k → ∃ e, outcome (attempt + i) = .error e) ∧
        ∃ v, outcome (attempt + k) = .ok v ∧
          fetchRetriesGo outcome url n attempt le =
            (v, (List.range k).map (fun i => min (2 ^ (attempt + i)) 30), k + 1)) ∨
      ((∀ i, i < n → ∃ e, outcome (attempt + i) = .error e) ∧
        ∃ le', fetchRetriesGo outcome url n attempt le =
            (⟨url, 0, [], [], staticMethod, some le'⟩,
             (List.range n).map (fun i => min (2 ^ (attempt + i)) 30), n) ∧
          (n = 0 → le' = le) ∧
          (0 < n → outcome (attempt + (n - 1)) = .error le')) := by
  intro n
  induction n with
  | zero =>
    intro attempt le
    exact Or.inr ⟨fun i hi => absurd hi (Nat.not_lt_zero i),
      le, by simp [fetchRetriesGo], fun _ => rfl, fun h => absurd h (by omega)⟩
  | succ n ih =>
    intro attempt le
    cases hout : outcome attempt with
    | ok v =>
      refine Or.inl ⟨0, Nat.succ_pos n, fun i hi => absurd hi (Nat.not_lt_zero i),
        v, by simpa using hout, ?_⟩
      simp [fetchRetriesGo, hout]
    | error e =>
      rcases ih (attempt + 1) e with ⟨k, hk, hfail, v, hok, heq⟩ | ⟨hfail, le', heq, hle0, hlast⟩
      · refine Or.inl ⟨k + 1, by omega, ?_, v, ?_, ?_⟩
        · intro i hi
          match i with
          | 0 => exact ⟨e, by simpa using hout⟩
          | j + 1 =>
            obtain ⟨e', he'⟩ := hfail j (by omega)
            exact ⟨e', by rw [show attempt + (j + 1) = attempt + 1 + j by omega]; exact he'⟩
        · rw [show attempt + (k + 1) = attempt + 1 + k by omega]
          exact hok
        · simp only [fetchRetriesGo, hout, heq]
          rw [range_map_shift (fun j => min (2 ^ j) 30) k attempt]
      · refine Or.inr ⟨?_, le', ?_, by omega, ?_⟩
        · intro i hi
          match i with
          | 0 => exact ⟨e, by simpa using hout⟩
          | j + 1 =>
            obtain ⟨e', he'⟩ := hfail j (by omega)
            exact ⟨e', by rw [show attempt + (j + 1) = attempt + 1 + j by omega]; exact he'⟩
        · simp only [fetchRetriesGo, hout, heq]
          rw [range_map_shift (fun j => min (2 ^ j) 30) n attempt]
        · intro _
          rcases Nat.eq_zero_or_pos n with hn | hn
          · subst hn
            rw [hle0 rfl]
            simpa using hout
          · have := hlast hn
            rwa [show attempt + 1 + (n - 1) = attempt + (n + 1 - 1) by omega] at this

/-- C7: `_fetch_with_retries` makes at most `max_retries + 1` attempts at
`_fetch_static`, sleeps `min(2^attempt, 30)` seconds after each attempt that
raised, and never lets an exception escape: when every attempt raises it
returns a `FetchResult` with status 0, empty html, and the last exception's
message as `error`; when attempt `k` is the first to return, its result is
returned after backoffs for attempts `0..k-1`. -/
theorem C7_fetch_with_retries (outcome : Nat → Except PyStr FetchResult)
    (max_retries : Nat) (url : PyStr) :
    ((fetch_with_retries outcome max_retries url).2.2 ≤ max_retries + 1) ∧
    ((∃ k, k ≤ max_retries ∧ (∀ i, i < k → ∃ e, outcome i = .error e) ∧
        ∃ v, outcome k = .ok v ∧
          fetch_with_retries outcome max_retries url =
            (v, (List.range k).map (fun i => min (2 ^ i) 30), k + 1)) ∨
      ((∀ i, i ≤ max_retries → ∃ e, outcome i = .error e) ∧
        ∃ le, outcome max_retries = .error le ∧
          fetch_with_retries outcome max_retries url =
            (⟨url, 0, [], [], staticMethod, some le⟩,
             (List.range (max_retries + 1)).map (fun i => min (2 ^ i) 30),
             max_retries + 1))) := by
  have h := fetchRetriesGo_spec outcome url (max_retries + 1) 0 []
  unfold fetch_with_retries
  rcases h with ⟨k, hk, hfail, v, hok, heq⟩ | ⟨hfail, le', heq, _hle0, hlast⟩
  · constructor
    · rw [heq]
      show k + 1 ≤ max_retries + 1
      omega
    · exact Or.inl ⟨k, by omega, by simpa using hfail, v, by simpa using hok,
        by simpa using heq⟩
  · constructor
    · rw [heq]
    · refine Or.inr ⟨fun i hi => by simpa using hfail i (by omega), le', ?_,
        by simpa using heq⟩
      have := hlast (by omega)
      simpa using this

/-! ## C8 – extractor failure isolation -/

/-- C8: `ExtractorPipeline.run` isolates failures: an extractor that raises
contributes its empty default (`{}` for text, `[]` for images and for both
link lists) while each of the other extractors' results depends only on its
own outcome; the run itself always returns an `ExtractionResult`. -/
theorem C8_pipeline_isolation (env : PipelineEnv) :
    ((∀ e, env.textOutcome = .error e → (pipelineRun env).text_data = none) ∧
     (∀ t, env.textOutcome = .ok t → (pipelineRun env).text_data = some t)) ∧
    ((∀ e, env.imagesOutcome = .error e → (pipelineRun env).images = []) ∧
     (∀ l, env.imagesOutcome = .ok l → (pipelineRun env).images = l)) ∧
    ((∀ e, env.linksOutcome = .error e →
        (pipelineRun env).internal_links = [] ∧
        (pipelineRun env).external_links = []) ∧
     (∀ p, env.linksOutcome = .ok p →
        (pipelineRun env).internal_links = p.1 ∧
        (pipelineRun env).external_links = p.2)) := by
  obtain ⟨t, i, l⟩ := env
  cases t <;> cases i <;> cases l <;>
    simp [pipelineRun]

/-- Witness for C8 at a concrete environment: text extraction raising while
images and links return. -/
theorem C8_pipeline_isolation_witness :
    (pipelineRun ⟨.error "boom", .ok [⟨"p", "s", "a", "u"⟩],
        .ok (["i1"], ["e1"])⟩).text_data = none ∧
    (pipelineRun ⟨.error "boom", .ok [⟨"p", "s", "a", "u"⟩],
        .ok (["i1"], ["e1"])⟩).images = [⟨"p", "s", "a", "u"⟩] ∧
    (pipelineRun ⟨.error "boom", .ok [⟨"p", "s", "a", "u"⟩],
        .ok (["i1"], ["e1"])⟩).internal_links = ["i1"] :=
  ⟨(C8_pipeline_isolation _).1.1 "boom" rfl,
   (C8_pipeline_isolation _).2.1.2 _ rfl,
   ((C8_pipeline_isolation _).2.2.2 _ rfl).1⟩

/-! ## C9 – the configured minimum image size is not wired through -/

/-- C9 (divergence witness): `Crawler.__init__` builds the pipeline without
passing `config.min_image_size`, so the job's `ImageExtractor` keeps the
default `min_size = 100`; with `min_image_size = 300` a downloaded 150×150
image (decoding available and succeeding) is kept, not discarded. -/
theorem C9_min_image_size_not_wired :
    (pipelineImageStateOf ⟨true, 300, 100⟩).min_size = 100 ∧
    150 < (⟨true, 300, 100⟩ : CrawlConfig).min_image_size ∧
    (process_image true (pipelineImageStateOf ⟨true, 300, 100⟩)
        "http://e.com/i.jpg" "http://e.com/" "x"
        ⟨200, 10, 150, 150, "ph", true⟩ "img/p.jpg").1 =
      some ⟨"img/p.jpg", "http://e.com/", "x", "http://e.com/i.jpg"⟩ := by
  refine ⟨rfl, by decide, by decide⟩

/-! ## C10 – job-wide image-URL dedup -/

theorem findImageUrlsGo_spec (join : String → String → String)
    (page_url : String) :
    ∀ (imgs : List ImgTag) (seen : List String),
      ((findImageUrlsGo join page_url imgs seen).1.map Prod.fst).Nodup ∧
      (∀ u ∈ (findImageUrlsGo join page_url imgs seen).1.map Prod.fst,
        u ∉ seen) ∧
      (∀ u ∈ seen, u ∈ (findImageUrlsGo join page_url imgs seen).2) ∧
      (∀ u ∈ (findImageUrlsGo join page_url imgs seen).1.map Prod.fst,
        u ∈ (findImageUrlsGo join page_url imgs seen).2) := by
  intro imgs
  induction imgs with
  | nil => intro seen; simp [findImageUrlsGo]
  | cons img rest ih =>
    intro seen
    by_cases h1 : (imgSrcOf img = "" || (imgSrcOf img).startsWith "data:") = true
    · have hunf : findImageUrlsGo join page_url (img :: rest) seen =
          findImageUrlsGo join page_url rest seen := by
        simp only [findImageUrlsGo, h1, if_true]
      rw [hunf]
      exact ih seen
    · have h1' : (imgSrcOf img = "" || (imgSrcOf img).startsWith "data:") = false :=
        Bool.eq_false_iff.mpr h1
      by_cases h2 : seen.contains (join page_url (imgSrcOf img)) = true
      · have hunf : findImageUrlsGo join page_url (img :: rest) seen =
            findImageUrlsGo join page_url rest seen := by
          simp only [findImageUrlsGo, h1', h2, Bool.false_eq_true, if_false, if_true]
        rw [hunf]
        exact ih seen
      · have h2' : seen.contains (join page_url (imgSrcOf img)) = false :=
          Bool.eq_false_iff.mpr h2
        have hnotmem : join page_url (imgSrcOf img) ∉ seen := fun hc =>
          h2 (List.elem_eq_true_of_mem hc)
        have hunf : findImageUrlsGo join page_url (img :: rest) seen =
            ((join page_url (imgSrcOf img), imgAltOf img) ::
                (findImageUrlsGo join page_url rest
                  (join page_url (imgSrcOf img) :: seen)).1,
              (findImageUrlsGo join page_url rest
                (join page_url (imgSrcOf img) :: seen)).2) := by
          simp only [findImageUrlsGo, h1', h2', Bool.false_eq_true, if_false]
        obtain ⟨ihN, ihNS, ihSS, ihIn⟩ := ih (join page_url (imgSrcOf img) :: seen)
        rw [hunf]
        refine ⟨?_, ?_, ?_, ?_⟩
        · simp only [List.map_cons]
          exact List.nodup_cons.mpr
            ⟨fun hmem => (ihNS _ hmem) (List.mem_cons_self _ _), ihN⟩
        · intro u hu
          simp only [List.map_cons, List.mem_cons] at hu
          rcases hu with rfl | hu
          · exact hnotmem
          · exact fun hc => (ihNS u hu) (List.mem_cons_of_mem _ hc)
        · intro u hu
          exact ihSS u (List.mem_cons_of_mem _ hu)
        · intro u hu
          simp only [List.map_cons, List.mem_cons] at hu
          rcases hu with rfl | hu
          · exact ihSS _ (List.mem_cons_self _ _)
          · exact ihIn u hu

theorem imageFindRun_spec (join : String → String → String) :
    ∀ (pages : List PageImgs) (st : ImageExtractorState),
      ((imageFindRun join st pages).1.flatMap (fun l => l.map Prod.fst)).Nodup ∧
      (∀ u ∈ (imageFindRun join st pages).1.flatMap (fun l => l.map Prod.fst),
        u ∉ st.seen_urls) := by
  intro pages
  induction pages with
  | nil => intro st; simp [imageFindRun]
  | cons page rest ih =>
    intro st
    have hgo := findImageUrlsGo_spec join page.page_url page.imgs st.seen_urls
    have hrest := ih ({ st with
      seen_urls := (findImageUrlsGo join page.page_url page.imgs st.seen_urls).2 })
    simp only [imageFindRun, find_image_urls, List.flatMap_cons, List.nodup_append] at *
    refine ⟨⟨hgo.1, hrest.1, ?_⟩, ?_⟩
    · intro u hu hu'
      exact (hrest.2 u hu') (hgo.2.2.2 u hu)
    · intro u hu
      rcases List.mem_append.mp hu with h | h
      · exact hgo.2.1 u h
      · intro hc
        exact (hrest.2 u h) (hgo.2.2.1 u hc)

/-- C10: on one `ImageExtractor` instance (fresh per job, shared across that
job's pages), every absolute image URL is collected — and hence handed to the
download stage — at most once across all `extract` calls: the flattened list
of collected URLs over any page sequence has no duplicates. -/
theorem C10_imageurl_dedup_jobwide (join : String → String → String)
    (min_size : Nat) (download : Bool) (pages : List PageImgs) :
    ((imageFindRun join (imageExtractorNew min_size download) pages).1.flatMap
      (fun l => l.map Prod.fst)).Nodup :=
  (imageFindRun_spec join pages (imageExtractorNew min_size download)).1

/-! ## List/`heapq` helper lemmas -/

theorem entryAt_set_ne (l : List QueueEntry) (i j : Nat) (a : QueueEntry)
    (hij : i ≠ j) : entryAt (l.set i a) j = entryAt l j := by
  simp [entryAt, List.getD_eq_getElem?_getD, List.getElem?_set_ne hij]

theorem entryAt_set_self (l : List QueueEntry) (i : Nat) (a : QueueEntry)
    (hi : i < l.length) : entryAt (l.set i a) i = a := by
  simp [entryAt, List.getD_eq_getElem?_getD, List.getElem?_set_self, hi]

theorem take_entryAt_drop (l : List QueueEntry) (n : Nat) (h : n < l.length) :
    l.take n ++ entryAt l n :: l.drop (n + 1) = l := by
  rw [entryAt, List.getD_eq_getElem l dfltEntry h]
  conv_rhs => rw [← List.take_append_drop n l]
  exact congrArg _ (List.drop_eq_getElem_cons h).symm

theorem set_entryAt_self (l : List QueueEntry) (n : Nat) (h : n < l.length) :
    l.set n (entryAt l n) = l := by
  rw [List.set_eq_take_cons_drop _ h]
  exact take_entryAt_drop l n h

/-- Consing the displaced entry onto `l.set n a` is a permutation of consing
`a` onto `l`. -/
theorem set_perm (l : List QueueEntry) (n : Nat) (a : QueueEntry)
    (h : n < l.length) : (entryAt l n :: l.set n a).Perm (a :: l) := by
  conv_lhs => rw [List.set_eq_take_cons_drop _ h]
  conv_rhs => rw [← take_entryAt_drop l n h]
  refine List.Perm.trans (List.Perm.cons _ List.perm_middle) ?_
  refine List.Perm.trans (List.Perm.swap a (entryAt l n) _) ?_
  exact List.Perm.cons _ List.perm_middle.symm

/-- Writing the displaced entry `l[i]` at `j` and then `c` at `i` permutes to
writing `c` at `j` directly. -/
theorem set_set_perm (l : List QueueEntry) (i j : Nat) (c : QueueEntry)
    (hij : i ≠ j) (hi : i < l.length) (hj : j < l.length) :
    ((l.set j (entryAt l i)).set i c).Perm (l.set j c) := by
  have hAl : (l.set j (entryAt l i)).length = l.length := List.length_set l j _
  have h1 : (entryAt l i :: (l.set j (entryAt l i)).set i c).Perm
      (c :: l.set j (entryAt l i)) := by
    have := set_perm (l.set j (entryAt l i)) i c (by omega)
    rwa [entryAt_set_ne l j i _ (Ne.symm hij)] at this
  have h2 : (entryAt l j :: l.set j (entryAt l i)).Perm (entryAt l i :: l) :=
    set_perm l j (entryAt l i) hj
  have h3 : (entryAt l j :: l.set j c).Perm (c :: l) := set_perm l j c hj
  have chain : (entryAt l j :: entryAt l i :: (l.set j (entryAt l i)).set i c).Perm
      (entryAt l j :: entryAt l i :: l.set j c) := by
    refine List.Perm.trans (List.Perm.cons _ h1) ?_
    refine List.Perm.trans (List.Perm.swap c (entryAt l j) _) ?_
    refine List.Perm.trans (List.Perm.cons c h2) ?_
    refine List.Perm.trans (List.Perm.swap (entryAt l i) c _) ?_
    refine List.Perm.trans (List.Perm.cons _ h3.symm) ?_
    exact List.Perm.swap _ _ _
  exact (chain.cons_inv).cons_inv

theorem siftdownLoop_perm :
    ∀ (fuel : Nat) (heap : List QueueEntry) (startpos pos : Nat)
      (newitem : QueueEntry), pos < heap.length →
      (siftdownLoop fuel heap startpos pos newitem).Perm (heap.set pos newitem) := by
  intro fuel
  induction fuel with
  | zero => intro heap startpos pos newitem _; exact List.Perm.refl _
  | succ fuel ih =>
    intro heap startpos pos newitem hpos
    rw [siftdownLoop]
    by_cases hlt : startpos < pos
    · rw [if_pos hlt]
      by_cases hcmp : newitem.depth < (heap.getD ((pos - 1) / 2) dfltEntry).depth
      · rw [if_pos hcmp]
        have hpp : (pos - 1) / 2 < pos := by omega
        have hpp' : (pos - 1) / 2 < heap.length := by omega
        have := ih (heap.set pos (heap.getD ((pos - 1) / 2) dfltEntry))
          startpos ((pos - 1) / 2) newitem (by rwa [List.length_set])
        refine this.trans ?_
        have := set_set_perm heap ((pos - 1) / 2) pos newitem (by omega) hpp' hpos
        exact this
      · rw [if_neg hcmp]
    · rw [if_neg hlt]

theorem siftupLoop_spec :
    ∀ (fuel : Nat) (heap : List QueueEntry) (pos : Nat),
      pos < heap.length → heap.length - pos ≤ fuel →
      (siftupLoop fuel heap pos heap.length).1 < heap.length ∧
      (siftupLoop fuel heap pos heap.length).2.length = heap.length ∧
      heap.length ≤ 2 * (siftupLoop fuel heap pos heap.length).1 + 1 ∧
      ∀ X, ((siftupLoop fuel heap pos heap.length).2.set
          (siftupLoop fuel heap pos heap.length).1 X).Perm (heap.set pos X) := by
  intro fuel
  induction fuel with
  | zero => intro heap pos hpos hfuel; omega
  | succ fuel ih =>
    intro heap pos hpos hfuel
    rw [siftupLoop]
    by_cases hchild : 2 * pos + 1 < heap.length
    · rw [if_pos hchild]
      set chosen :=
        if 2 * pos + 1 + 1 < heap.length &&
            !((heap.getD (2 * pos + 1) dfltEntry).depth <
              (heap.getD (2 * pos + 1 + 1) dfltEntry).depth) then
          2 * pos + 1 + 1
        else 2 * pos + 1 with hchosen
      have hcb : chosen < heap.length ∧ pos < chosen := by
        rw [hchosen]
        split_ifs with h
        · have := (Bool.and_eq_true _ _).mp h
          refine ⟨of_decide_eq_true this.1, by omega⟩
        · exact ⟨hchild, by omega⟩
      have hlen : (heap.set pos (heap.getD chosen dfltEntry)).length = heap.length :=
        List.length_set heap pos _
      have ih' := ih (heap.set pos (heap.getD chosen dfltEntry)) chosen
        (by omega) (by omega)
      rw [hlen] at ih'
      refine ⟨ih'.1, ih'.2.1, ih'.2.2.1, fun X => ?_⟩
      refine (ih'.2.2.2 X).trans ?_
      exact set_set_perm heap chosen pos X (by omega) hcb.1 hpos
    · rw [if_neg hchild]
      exact ⟨hpos, rfl, by omega, fun X => List.Perm.refl _⟩

theorem siftupPy_perm (heap : List QueueEntry) (pos : Nat)
    (h : pos < heap.length) : (siftupPy heap pos).Perm heap := by
  rw [siftupPy]
  have hs := siftupLoop_spec heap.length heap pos h (by omega)
  refine (siftdownLoop_perm _ _ pos _ _ (by
    rw [List.length_set, hs.2.1]
    exact hs.1)).trans ?_
  rw [List.set_set]
  refine (hs.2.2.2 (heap.getD pos dfltEntry)).trans ?_
  rw [show heap.getD pos dfltEntry = entryAt heap pos from rfl]
  rw [set_entryAt_self heap pos h]

theorem heappush_perm (heap : List QueueEntry) (item : QueueEntry) :
    (heappush heap item).Perm (item :: heap) := by
  rw [heappush, siftdownPy]
  have hlen : heap.length < (heap ++ [item]).length := by
    simp
  have hget : (heap ++ [item]).getD heap.length dfltEntry = item := by
    simp [List.getD_eq_getElem?_getD]
  rw [hget]
  refine (siftdownLoop_perm _ _ 0 _ _ hlen).trans ?_
  have hsetid : (heap ++ [item]).set heap.length item = heap ++ [item] := by
    have := set_entryAt_self (heap ++ [item]) heap.length hlen
    rwa [show entryAt (heap ++ [item]) heap.length = item from hget] at this
  rw [hsetid]
  exact List.perm_append_singleton item heap

theorem heappop_perm (heap : List QueueEntry) (x : QueueEntry)
    (rest : List QueueEntry) (h : heappop? heap = some (x, rest)) :
    (x :: rest).Perm heap := by
  cases hlast : heap.getLast? with
  | none =>
    rw [heappop?, hlast] at h
    exact absurd h (by simp)
  | some lastelt =>
    have hne : heap ≠ [] := by
      intro hnil
      rw [hnil] at hlast
      exact absurd hlast (by simp)
    have hsplit : heap.dropLast ++ [lastelt] = heap := by
      have hl := List.dropLast_concat_getLast hne
      rw [List.getLast?_eq_getLast heap hne, Option.some.injEq] at hlast
      rw [hlast] at hl
      exact hl
    by_cases hrest : heap.dropLast.isEmpty = true
    · rw [heappop?, hlast] at h
      simp only [hrest, if_true, Option.some.injEq, Prod.mk.injEq] at h
      have hemp : heap.dropLast = [] := List.isEmpty_iff.mp hrest
      rw [← h.1, ← h.2, ← hsplit, hemp]
      exact List.Perm.refl _
    · rw [heappop?, hlast] at h
      simp only [hrest, Bool.false_eq_true, if_false, Option.some.injEq,
        Prod.mk.injEq] at h
      have hdlen : 0 < heap.dropLast.length := by
        cases hd : heap.dropLast with
        | nil => rw [hd] at hrest; exact absurd rfl hrest
        | cons a t => simp [hd]
      have hperm2 : (siftupPy (heap.dropLast.set 0 lastelt) 0).Perm
          (heap.dropLast.set 0 lastelt) :=
        siftupPy_perm _ 0 (by rw [List.length_set]; omega)
      have hcons : (x :: rest).Perm (x :: heap.dropLast.set 0 lastelt) :=
        List.Perm.cons x (h.2 ▸ hperm2)
      refine hcons.trans ?_
      rw [← h.1]
      refine (set_perm heap.dropLast 0 lastelt hdlen).trans ?_
      conv_rhs => rw [← hsplit]
      exact (List.perm_append_singleton lastelt heap.dropLast).symm

/-! ## Frontier state lemmas -/

theorem getNextGo_succ_none (fuel : Nat) (f : URLFrontier)
    (h : heappop? f.queue = none) :
    getNextGo (fuel + 1) f = (none, f) := by
  rw [getNextGo, h]

theorem getNextGo_succ_some (fuel : Nat) (f : URLFrontier)
    (entry : QueueEntry) (rest : List QueueEntry)
    (h : heappop? f.queue = some (entry, rest)) :
    getNextGo (fuel + 1) f =
      if f.visited.contains (urlHash entry.url) then
        getNextGo fuel { f with queue := rest }
      else (some (entry.url, entry.depth), { f with queue := rest }) := by
  rw [getNextGo, h]

theorem getNextGo_fields : ∀ (fuel : Nat) (f : URLFrontier),
    (getNextGo fuel f).2.visited = f.visited ∧
    (getNextGo fuel f).2.enqueued = f.enqueued ∧
    (getNextGo fuel f).2.allowed_domains = f.allowed_domains ∧
    (getNextGo fuel f).2.max_depth = f.max_depth := by
  intro fuel
  induction fuel with
  | zero => intro f; exact ⟨rfl, rfl, rfl, rfl⟩
  | succ fuel ih =>
    intro f
    cases hpop : heappop? f.queue with
    | none =>
      rw [getNextGo_succ_none fuel f hpop]
      exact ⟨rfl, rfl, rfl, rfl⟩
    | some pr =>
      rw [getNextGo_succ_some fuel f pr.1 pr.2 (by rw [hpop])]
      by_cases hvis : f.visited.contains (urlHash pr.1.url) = true
      · rw [if_pos hvis]
        exact ih _
      · rw [if_neg hvis]
        exact ⟨rfl, rfl, rfl, rfl⟩

theorem getNextGo_some : ∀ (fuel : Nat) (f : URLFrontier) (u : PyStr) (d : Nat)
    (f' : URLFrontier), getNextGo fuel f = (some (u, d), f') →
    (⟨d, u⟩ : QueueEntry) ∈ f.queue ∧ urlHash u ∉ f.visited ∧
    (∀ e ∈ f'.queue, e ∈ f.queue) := by
  intro fuel
  induction fuel with
  | zero =>
    intro f u d f' h
    exact absurd (congrArg Prod.fst h) (by simp [getNextGo])
  | succ fuel ih =>
    intro f u d f' h
    cases hpop : heappop? f.queue with
    | none =>
      rw [getNextGo_succ_none fuel f hpop] at h
      exact absurd (congrArg Prod.fst h) (by simp)
    | some pr =>
      rw [getNextGo_succ_some fuel f pr.1 pr.2 (by rw [hpop])] at h
      have hperm := heappop_perm f.queue pr.1 pr.2 (by rw [hpop])
      by_cases hvis : f.visited.contains (urlHash pr.1.url) = true
      · rw [if_pos hvis] at h
        obtain ⟨hmem, hnv, hsub⟩ := ih _ u d f' h
        refine ⟨hperm.mem_iff.mp (List.mem_cons_of_mem _ hmem), hnv, ?_⟩
        intro e he
        exact hperm.mem_iff.mp (List.mem_cons_of_mem _ (hsub e he))
      · rw [if_neg hvis] at h
        have hu : pr.1.url = u := congrArg (fun o => (o.1.getD ([], 0)).1) h
        have hd : pr.1.depth = d := congrArg (fun o => (o.1.getD ([], 0)).2) h
        have hf' : { f with queue := pr.2 } = f' := congrArg Prod.snd h
        have hentry : (⟨d, u⟩ : QueueEntry) = pr.1 := by
          rw [← hu, ← hd]
        refine ⟨hentry ▸ hperm.mem_iff.mp (List.mem_cons_self _ _), ?_, ?_⟩
        · rw [← hu]
          intro hc
          exact hvis (List.elem_eq_true_of_mem hc)
        · intro e he
          rw [← hf'] at he
          exact hperm.mem_iff.mp (List.mem_cons_of_mem _ he)

theorem get_next_some (f : URLFrontier) (u : PyStr) (d : Nat) (f' : URLFrontier)
    (h : get_next f = (some (u, d), f')) :
    (⟨d, u⟩ : QueueEntry) ∈ f.queue ∧ urlHash u ∉ f.visited ∧
    (∀ e ∈ f'.queue, e ∈ f.queue) :=
  getNextGo_some _ f u d f' h

/-- `add_url` either rejects (returning the state unchanged) or accepts a
URL whose normalized hash was in neither dedup set. -/
theorem add_url_eq (f : URLFrontier) (u : PyStr) (d : Nat) :
    add_url f u d = (false, f) ∨
    (∃ norm, normalize_url u = some norm ∧ urlHash norm ∉ f.visited ∧
      urlHash norm ∉ f.enqueued ∧
      add_url f u d =
        (true, { f with queue := heappush f.queue ⟨d, norm⟩,
                        enqueued := urlHash norm :: f.enqueued })) := by
  cases hn : normalize_url u with
  | none =>
    refine Or.inl ?_
    rw [add_url, hn]
  | some norm =>
    have hunf : add_url f u d =
        if f.max_depth < d then (false, f)
        else if (f.visited.contains (urlHash norm) ||
            f.enqueued.contains (urlHash norm)) = true then (false, f)
        else if ¬domain_allowed f norm = true then (false, f)
        else (true, { f with queue := heappush f.queue ⟨d, norm⟩,
                             enqueued := urlHash norm :: f.enqueued }) := by
      rw [add_url, hn]
    rw [hunf]
    by_cases h1 : f.max_depth < d
    · rw [if_pos h1]
      exact Or.inl rfl
    · rw [if_neg h1]
      by_cases h2 : (f.visited.contains (urlHash norm) ||
          f.enqueued.contains (urlHash norm)) = true
      · rw [if_pos h2]
        exact Or.inl rfl
      · rw [if_neg h2]
        rw [Bool.or_eq_true, not_or] at h2
        by_cases h3 : domain_allowed f norm = true
        · rw [if_neg (not_not_intro h3)]
          exact Or.inr ⟨norm, rfl,
            fun hc => h2.1 (List.elem_eq_true_of_mem hc),
            fun hc => h2.2 (List.elem_eq_true_of_mem hc), rfl⟩
        · rw [if_pos h3]
          exact Or.inl rfl

theorem add_url_state (f : URLFrontier) (u : PyStr) (d : Nat) :
    (add_url f u d).2.visited = f.visited ∧
    (add_url f u d).2.max_depth = f.max_depth ∧
    (add_url f u d).2.allowed_domains = f.allowed_domains ∧
    (∀ h ∈ f.enqueued, h ∈ (add_url f u d).2.enqueued) ∧
    (∀ e ∈ (add_url f u d).2.queue,
      e ∈ f.queue ∨ ∃ norm, normalize_url u = some norm ∧ e = ⟨d, norm⟩ ∧
        urlHash norm ∉ f.enqueued) := by
  rcases add_url_eq f u d with h | ⟨norm, hn, _hv, he, h⟩
  · rw [h]
    exact ⟨rfl, rfl, rfl, fun h hh => hh, fun e he => Or.inl he⟩
  · rw [h]
    refine ⟨rfl, rfl, rfl, fun h hh => List.mem_cons_of_mem _ hh, ?_⟩
    intro e hq
    have hperm := heappush_perm f.queue ⟨d, norm⟩
    rcases List.mem_cons.mp (hperm.mem_iff.mp hq) with heq | hmem
    · exact Or.inr ⟨norm, hn, heq, he⟩
    · exact Or.inl hmem

theorem add_url_reject_visited (f : URLFrontier) (u : PyStr) (d : Nat)
    (norm : PyStr) (h1 : normalize_url u = some norm)
    (h2 : urlHash norm ∈ f.visited) : add_url f u d = (false, f) := by
  rcases add_url_eq f u d with h | ⟨norm', hn', hv', _, _⟩
  · exact h
  · rw [h1, Option.some.injEq] at hn'
    exact absurd (hn' ▸ h2) hv'

theorem stepOp_visited_mono (f : URLFrontier) (op : FrontierOp) :
    ∀ h ∈ f.visited, h ∈ (stepOp f op).1.visited := by
  intro h hh
  cases op with
  | add u d =>
    rw [stepOp]
    rw [(add_url_state f u d).1]
    exact hh
  | next =>
    show h ∈ (get_next f).2.visited
    rw [get_next, (getNextGo_fields _ f).1]
    exact hh
  | visit u =>
    exact List.mem_cons_of_mem _ hh

theorem runOps_visited_mono : ∀ (ops : List FrontierOp) (f : URLFrontier)
    (h : PyStr), h ∈ f.visited → h ∈ (runOps f ops).1.visited := by
  intro ops
  induction ops with
  | nil => intro f h hh; exact hh
  | cons op rest ih =>
    intro f h hh
    exact ih _ h (stepOp_visited_mono f op h hh)

theorem runOps_no_visited_output : ∀ (ops : List FrontierOp) (f : URLFrontier)
    (h : PyStr), h ∈ f.visited →
    ∀ o ∈ (runOps f ops).2, urlHash o.1 ≠ h := by
  intro ops
  induction ops with
  | nil => intro f h _ o ho; exact absurd ho (by simp [runOps])
  | cons op rest ih =>
    intro f h hh o ho
    rw [runOps] at ho
    rcases List.mem_append.mp ho with hhead | htail
    · cases op with
      | add u d => exact absurd hhead (by simp [stepOp])
      | visit u => exact absurd hhead (by simp [stepOp])
      | next =>
        simp only [stepOp] at hhead
        cases hg : (get_next f).1 with
        | none => rw [hg] at hhead; exact absurd hhead (by simp)
        | some o' =>
          rw [hg] at hhead
          have ho' : o = o' := by simpa using hhead
          obtain ⟨u', d'⟩ := o'
          have := (getNextGo_some _ f u' d' (get_next f).2 (by
            rw [get_next] at hg ⊢
            exact Prod.ext hg rfl)).2.1
          rw [ho']
          intro hc
          exact this (hc ▸ hh)
    · exact ih _ h (stepOp_visited_mono f op h hh) o htail

/-! ## C1 – visited URLs are never re-delivered nor re-enqueued -/

/-- C1: for any frontier state and any subsequent sequence of `add_url` /
`get_next` / `mark_visited` calls, once a hash is in the visited set it stays
there, no URL hashing to it is ever returned by `get_next`, and any
`add_url` of a URL normalizing to that hash returns `False` and leaves the
state unchanged. -/
theorem C1_no_redelivery_after_visited (f : URLFrontier)
    (ops : List FrontierOp) (h : PyStr) (hv : h ∈ f.visited) :
    (∀ o ∈ (runOps f ops).2, urlHash o.1 ≠ h) ∧
    h ∈ (runOps f ops).1.visited ∧
    (∀ u d norm, normalize_url u = some norm → urlHash norm = h →
      add_url (runOps f ops).1 u d = (false, (runOps f ops).1)) := by
  refine ⟨runOps_no_visited_output ops f h hv,
    runOps_visited_mono ops f h hv, ?_⟩
  intro u d norm h1 h2
  exact add_url_reject_visited _ u d norm h1
    (h2 ▸ runOps_visited_mono ops f h hv)

/-- Witness for C1: mark `http://e.com/p` visited, then try to re-add and pop
it; nothing with its hash is delivered. -/
theorem C1_no_redelivery_after_visited_witness :
    ("http://e.com/p".toList ∈
      (mark_visited (mkFrontier ["e.com".toList] 3) "http://e.com/p".toList).visited) ∧
    (∀ o ∈ (runOps (mark_visited (mkFrontier ["e.com".toList] 3)
        "http://e.com/p".toList)
        [.add "http://e.com/p".toList 0, .next]).2,
      urlHash o.1 ≠ "http://e.com/p".toList) :=
  ⟨by decide,
   (C1_no_redelivery_after_visited
      (mark_visited (mkFrontier ["e.com".toList] 3) "http://e.com/p".toList)
      [.add "http://e.com/p".toList 0, .next]
      "http://e.com/p".toList (by decide)).1⟩

/-! ## C2 – the orchestration loop -/

theorem getNextGo_queue_sub : ∀ (fuel : Nat) (f : URLFrontier) (e : QueueEntry),
    e ∈ (getNextGo fuel f).2.queue → e ∈ f.queue := by
  intro fuel
  induction fuel with
  | zero => intro f e he; exact he
  | succ fuel ih =>
    intro f e he
    cases hpop : heappop? f.queue with
    | none =>
      rw [getNextGo_succ_none fuel f hpop] at he
      exact he
    | some pr =>
      have hperm := heappop_perm f.queue pr.1 pr.2 (by rw [hpop])
      rw [getNextGo_succ_some fuel f pr.1 pr.2 (by rw [hpop])] at he
      by_cases hvis : f.visited.contains (urlHash pr.1.url) = true
      · rw [if_pos hvis] at he
        exact hperm.mem_iff.mp (List.mem_cons_of_mem _ (ih _ e he))
      · rw [if_neg hvis] at he
        exact hperm.mem_iff.mp (List.mem_cons_of_mem _ he)

theorem getNextGo_consumed : ∀ (fuel : Nat) (f : URLFrontier) (u : PyStr)
    (d : Nat) (f' : URLFrontier),
    (f.queue.map (fun e => e.url)).Nodup →
    getNextGo fuel f = (some (u, d), f') →
    (∀ e ∈ f'.queue, e.url ≠ u) ∧ (f'.queue.map (fun e => e.url)).Nodup := by
  intro fuel
  induction fuel with
  | zero =>
    intro f u d f' hnd h
    exact absurd (congrArg Prod.fst h) (by simp [getNextGo])
  | succ fuel ih =>
    intro f u d f' hnd h
    cases hpop : heappop? f.queue with
    | none =>
      rw [getNextGo_succ_none fuel f hpop] at h
      exact absurd (congrArg Prod.fst h) (by simp)
    | some pr =>
      have hperm := heappop_perm f.queue pr.1 pr.2 (by rw [hpop])
      have hnd' : ((pr.1 :: pr.2).map (fun e => e.url)).Nodup :=
        ((hperm.map (fun e => e.url)).nodup_iff).mpr hnd
      rw [List.map_cons, List.nodup_cons] at hnd'
      rw [getNextGo_succ_some fuel f pr.1 pr.2 (by rw [hpop])] at h
      by_cases hvis : f.visited.contains (urlHash pr.1.url) = true
      · rw [if_pos hvis] at h
        exact ih _ u d f' hnd'.2 h
      · rw [if_neg hvis] at h
        have hu : pr.1.url = u := congrArg (fun o => (o.1.getD ([], 0)).1) h
        have hf' : { f with queue := pr.2 } = f' := congrArg Prod.snd h
        refine ⟨?_, ?_⟩
        · intro e he heq
          rw [← hf'] at he
          apply hnd'.1
          rw [hu, ← heq]
          exact List.mem_map_of_mem _ he
        · rw [← hf']
          exact hnd'.2

/-- Preservation of "`u`'s hash is enqueued and `u` is no longer queued" by
one frontier call, plus: such a call never returns `u`. -/
theorem stepOp_consumed (f : URLFrontier) (op : FrontierOp) (u : PyStr)
    (hp : urlHash u ∈ f.enqueued ∧ ∀ e ∈ f.queue, e.url ≠ u) :
    (urlHash u ∈ (stepOp f op).1.enqueued ∧
      ∀ e ∈ (stepOp f op).1.queue, e.url ≠ u) ∧
    (∀ o, (stepOp f op).2 = some o → o.1 ≠ u) := by
  cases op with
  | add u' d =>
    refine ⟨⟨(add_url_state f u' d).2.2.2.1 _ hp.1, ?_⟩, fun o ho => nomatch ho⟩
    intro e he
    rcases (add_url_state f u' d).2.2.2.2 e he with hmem | ⟨norm, _, hedef, hne⟩
    · exact hp.2 e hmem
    · rw [hedef]
      intro hc
      apply hne
      rw [show norm = u from hc]
      exact hp.1
  | next =>
    constructor
    · constructor
      · show urlHash u ∈ (get_next f).2.enqueued
        rw [get_next, (getNextGo_fields _ f).2.1]
        exact hp.1
      · intro e he
        exact hp.2 e (getNextGo_queue_sub _ f e he)
    · intro o ho
      show o.1 ≠ u
      obtain ⟨u', d'⟩ := o
      have ho' : (get_next f).1 = some (u', d') := ho
      have := (getNextGo_some _ f u' d' (get_next f).2 (Prod.ext ho' rfl)).1
      exact hp.2 _ this
  | visit u' =>
    exact ⟨⟨hp.1, hp.2⟩, fun o ho => nomatch ho⟩

theorem runOps_consumed : ∀ (ops : List FrontierOp) (f : URLFrontier) (u : PyStr),
    (urlHash u ∈ f.enqueued ∧ ∀ e ∈ f.queue, e.url ≠ u) →
    ∀ o ∈ (runOps f ops).2, o.1 ≠ u := by
  intro ops
  induction ops with
  | nil => intro f u _ o ho; exact absurd ho (by simp [runOps])
  | cons op rest ih =>
    intro f u hp o ho
    rw [runOps] at ho
    rcases List.mem_append.mp ho with hhead | htail
    · cases hs : (stepOp f op).2 with
      | none => rw [hs] at hhead; exact absurd hhead (by simp)
      | some o' =>
        rw [hs] at hhead
        have : o = o' := by simpa using hhead
        rw [this]
        exact (stepOp_consumed f op u hp).2 o' hs
    · exact ih _ u (stepOp_consumed f op u hp).1 o htail

theorem foldl_add_url_consumed (depth : Nat) (u : PyStr) :
    ∀ (links : List String) (f : URLFrontier),
    (urlHash u ∈ f.enqueued ∧ ∀ e ∈ f.queue, e.url ≠ u) →
    (urlHash u ∈ (links.foldl
        (fun fa link => (add_url fa link.toList depth).2) f).enqueued ∧
      ∀ e ∈ (links.foldl
        (fun fa link => (add_url fa link.toList depth).2) f).queue, e.url ≠ u) ∧
    (links.foldl (fun fa link => (add_url fa link.toList depth).2) f).visited =
      f.visited := by
  intro links
  induction links with
  | nil => intro f hp; exact ⟨hp, rfl⟩
  | cons link rest ih =>
    intro f hp
    rw [List.foldl_cons]
    have hstep := add_url_state f link.toList depth
    have hp' : urlHash u ∈ (add_url f link.toList depth).2.enqueued ∧
        ∀ e ∈ (add_url f link.toList depth).2.queue, e.url ≠ u := by
      refine ⟨hstep.2.2.2.1 _ hp.1, ?_⟩
      intro e he
      rcases hstep.2.2.2.2 e he with hmem | ⟨norm, _, hedef, hne⟩
      · exact hp.2 e hmem
      · rw [hedef]
        intro hc
        apply hne
        rw [show norm = u from hc]
        exact hp.1
    obtain ⟨hres, hvis⟩ := ih _ hp'
    exact ⟨hres, hvis.trans hstep.1⟩

theorem process_url_cases (cfg : CrawlConfig) (env : ProcessEnv)
    (f : URLFrontier) (depth : Nat) :
    (process_url cfg env f depth = (false, f) ∧ processSuccess cfg env = false) ∨
    (∃ ex, env.extractionOutcome = .ok ex ∧ processSuccess cfg env = true ∧
      process_url cfg env f depth =
        (true, ex.internal_links.foldl
          (fun fa link => (add_url fa link.toList (depth + 1)).2) f)) := by
  obtain ⟨rob, fet, par, ext⟩ := env
  by_cases hr : cfg.respect_robots = true ∧ robotsBlocked rob = true
  · refine Or.inl ⟨?_, by simp [processSuccess, hr.1, hr.2]⟩
    simp only [process_url]
    rw [if_pos hr]
  · have hrb : (!(cfg.respect_robots && robotsBlocked rob)) = true := by
      rcases Decidable.not_and_iff_or_not.mp hr with h | h <;>
        simp [Bool.not_eq_true _ ▸ h]
    cases fet with
    | error e =>
      refine Or.inl ⟨?_, by simp [processSuccess]⟩
      simp only [process_url]
      rw [if_neg hr]
    | ok r =>
      by_cases hok : r.ok = true
      · cases par with
        | error e =>
          refine Or.inl ⟨?_, by simp [processSuccess]⟩
          simp only [process_url]
          rw [if_neg hr, if_neg (by rw [hok]; exact fun hc => hc rfl)]
        | ok pu =>
          cases ext with
          | error e =>
            refine Or.inl ⟨?_, by simp [processSuccess]⟩
            simp only [process_url]
            rw [if_neg hr, if_neg (by rw [hok]; exact fun hc => hc rfl)]
          | ok ex =>
            refine Or.inr ⟨ex, rfl, by simp [processSuccess, hrb, hok], ?_⟩
            simp only [process_url]
            rw [if_neg hr, if_neg (by rw [hok]; exact fun hc => hc rfl)]
      · refine Or.inl ⟨?_, ?_⟩
        · simp only [process_url]
          rw [if_neg hr, if_pos hok]
        · rw [Bool.not_eq_true] at hok
          simp [processSuccess, hok]

theorem process_url_frontier (cfg : CrawlConfig) (env : ProcessEnv)
    (f : URLFrontier) (depth : Nat) (u : PyStr)
    (hp : urlHash u ∈ f.enqueued ∧ ∀ e ∈ f.queue, e.url ≠ u) :
    (urlHash u ∈ (process_url cfg env f depth).2.enqueued ∧
      ∀ e ∈ (process_url cfg env f depth).2.queue, e.url ≠ u) ∧
    (process_url cfg env f depth).1 = processSuccess cfg env := by
  rcases process_url_cases cfg env f depth with ⟨heq, hs⟩ | ⟨ex, _, hs, heq⟩
  · rw [heq, hs]
    exact ⟨hp, rfl⟩
  · rw [heq, hs]
    exact ⟨(foldl_add_url_consumed (depth + 1) u ex.internal_links f hp).1, rfl⟩

theorem foldl_add_url_visited (depth : Nat) :
    ∀ (links : List String) (f : URLFrontier),
    (links.foldl (fun fa link => (add_url fa link.toList depth).2) f).visited =
      f.visited := by
  intro links
  induction links with
  | nil => intro f; rfl
  | cons link rest ih =>
    intro f
    rw [List.foldl_cons]
    exact (ih _).trans (add_url_state f link.toList depth).1

theorem process_url_visited (cfg : CrawlConfig) (env : ProcessEnv)
    (f : URLFrontier) (depth : Nat) :
    (process_url cfg env f depth).2.visited = f.visited := by
  rcases process_url_cases cfg env f depth with ⟨heq, _⟩ | ⟨ex, _, _, heq⟩
  · rw [heq]
  · rw [heq]
    exact foldl_add_url_visited (depth + 1) ex.internal_links f


theorem crawlStep_some (cfg : CrawlConfig) (env : ProcessEnv) (st : CrawlState)
    (url : PyStr) (depth : Nat) (f' : URLFrontier)
    (hpop : get_next st.frontier = (some (url, depth), f')) :
    crawlStep cfg env st =
      some ⟨(if (process_url cfg env f' depth).1 then st.pages_crawled + 1
             else st.pages_crawled),
            mark_visited (process_url cfg env f' depth).2 url⟩ := by
  rw [crawlStep, hpop]

theorem process_url_success (cfg : CrawlConfig) (env : ProcessEnv)
    (f : URLFrontier) (depth : Nat) :
    (process_url cfg env f depth).1 = processSuccess cfg env := by
  rcases process_url_cases cfg env f depth with ⟨heq, hs⟩ | ⟨ex, _, hs, heq⟩ <;>
    rw [heq, hs]

/-- C2: for every popped frontier entry, the pages-crawled counter is
incremented exactly when robots does not block the URL (fail-open on robots
errors), the fetch returns an `ok` result, and parse and extraction complete
without raising; a robots-blocked URL, a raising fetch, or a not-`ok` fetch
never increments it; and in every case the popped URL is marked visited and
is never returned by the frontier again in this job (for any continuation of
frontier calls). -/
theorem C2_quota_and_mark_visited (cfg : CrawlConfig) (env : ProcessEnv)
    (st : CrawlState) (url : PyStr) (depth : Nat) (f' : URLFrontier)
    (hwf : FrontierWF st.frontier)
    (hpop : get_next st.frontier = (some (url, depth), f')) :
    ∃ st', crawlStep cfg env st = some st' ∧
      st'.pages_crawled =
        (if processSuccess cfg env then st.pages_crawled + 1
         else st.pages_crawled) ∧
      (cfg.respect_robots = true → env.robots = .blocked →
        st'.pages_crawled = st.pages_crawled) ∧
      (∀ e, env.fetchOutcome = .error e →
        st'.pages_crawled = st.pages_crawled) ∧
      (∀ r, env.fetchOutcome = .ok r → r.ok = false →
        st'.pages_crawled = st.pages_crawled) ∧
      urlHash ((normalize_url url).getD url) ∈ st'.frontier.visited ∧
      (∀ ops, ∀ o ∈ (runOps st'.frontier ops).2, o.1 ≠ url) := by
  have hent := get_next_some st.frontier url depth f' hpop
  have henq : urlHash url ∈ st.frontier.enqueued := hwf.1 _ hent.1
  have henq' : urlHash url ∈ f'.enqueued := by
    have hsnd : (get_next st.frontier).2 = f' := congrArg Prod.snd hpop
    have : f'.enqueued = st.frontier.enqueued := by
      rw [← hsnd, get_next]
      exact (getNextGo_fields _ st.frontier).2.1
    rw [this]
    exact henq
  have hnq : ∀ e ∈ f'.queue, e.url ≠ url :=
    (getNextGo_consumed _ st.frontier url depth f' hwf.2 hpop).1
  have hp' := process_url_frontier cfg env f' depth url ⟨henq', hnq⟩
  refine ⟨_, crawlStep_some cfg env st url depth f' hpop, ?_, ?_, ?_, ?_, ?_, ?_⟩
  · show (if (process_url cfg env f' depth).1 then st.pages_crawled + 1
        else st.pages_crawled) = _
    rw [process_url_success]
  · intro hresp hrb
    show (if (process_url cfg env f' depth).1 then st.pages_crawled + 1
        else st.pages_crawled) = _
    rw [process_url_success]
    have : processSuccess cfg env = false := by
      simp [processSuccess, hresp, hrb, robotsBlocked]
    rw [this, if_neg (by simp)]
  · intro e he
    show (if (process_url cfg env f' depth).1 then st.pages_crawled + 1
        else st.pages_crawled) = _
    rw [process_url_success]
    have : processSuccess cfg env = false := by
      simp [processSuccess, he]
    rw [this, if_neg (by simp)]
  · intro r hr hnok
    show (if (process_url cfg env f' depth).1 then st.pages_crawled + 1
        else st.pages_crawled) = _
    rw [process_url_success]
    have : processSuccess cfg env = false := by
      simp [processSuccess, hr, hnok]
    rw [this, if_neg (by simp)]
  · exact List.mem_cons_self _ _
  · intro ops o ho
    refine runOps_consumed ops _ url ?_ o ho
    show urlHash url ∈ (process_url cfg env f' depth).2.enqueued ∧
      ∀ e ∈ (process_url cfg env f' depth).2.queue, e.url ≠ url
    exact hp'.1

/-- Witness for C2 at a concrete job: one queued URL, robots allowed, fetch
`ok`, parse and extraction succeeding — the counter reaches 1 and the URL is
marked visited. -/
theorem C2_quota_and_mark_visited_witness :
    (∃ st', crawlStep ⟨true, 100, 10⟩
        ⟨.allowed,
         .ok ⟨"http://e.com/a".toList, 200, ['x'], [], staticMethod, none⟩,
         .ok (), .ok ⟨none, [], [], []⟩⟩
        ⟨0, (add_url (mkFrontier ["e.com".toList] 3)
              "http://e.com/a".toList 0).2⟩ = some st' ∧
      st'.pages_crawled =
        (if processSuccess ⟨true, 100, 10⟩
            ⟨.allowed,
             .ok ⟨"http://e.com/a".toList, 200, ['x'], [], staticMethod, none⟩,
             .ok (), .ok ⟨none, [], [], []⟩⟩ then 0 + 1 else 0) ∧
      (true = true → RobotsOutcome.allowed = .blocked → st'.pages_crawled = 0) ∧
      (∀ e, (Except.ok (⟨"http://e.com/a".toList, 200, ['x'], [], staticMethod,
          none⟩ : FetchResult) : Except String FetchResult) = .error e →
        st'.pages_crawled = 0) ∧
      (∀ r, (Except.ok (⟨"http://e.com/a".toList, 200, ['x'], [], staticMethod,
          none⟩ : FetchResult) : Except String FetchResult) = .ok r →
        r.ok = false → st'.pages_crawled = 0) ∧
      urlHash ((normalize_url "http://e.com/a".toList).getD
        "http://e.com/a".toList) ∈ st'.frontier.visited ∧
      (∀ ops, ∀ o ∈ (runOps st'.frontier ops).2,
        o.1 ≠ "http://e.com/a".toList)) :=
  C2_quota_and_mark_visited ⟨true, 100, 10⟩
    ⟨.allowed,
     .ok ⟨"http://e.com/a".toList, 200, ['x'], [], staticMethod, none⟩,
     .ok (), .ok ⟨none, [], [], []⟩⟩
    ⟨0, (add_url (mkFrontier ["e.com".toList] 3) "http://e.com/a".toList 0).2⟩
    "http://e.com/a".toList 0
    (get_next (add_url (mkFrontier ["e.com".toList] 3)
      "http://e.com/a".toList 0).2).2
    ⟨by decide, by decide⟩ (by decide)

/-! ## C3 – heap ordering -/

theorem entryAt_append_lt (l : List QueueEntry) (x : QueueEntry) (i : Nat)
    (h : i < l.length) : entryAt (l ++ [x]) i = entryAt l i := by
  simp [entryAt, List.getD_eq_getElem?_getD, List.getElem?_append_left h]

theorem entryAt_dropLast (l : List QueueEntry) (i : Nat)
    (h : i < l.length - 1) : entryAt l.dropLast i = entryAt l i := by
  simp only [entryAt, List.getD_eq_getElem?_getD, List.dropLast_eq_take]
  rw [List.getElem?_take_of_lt (by omega)]

theorem isHeap_root_min (l : List QueueEntry) (hh : IsHeap l) :
    ∀ i, i < l.length → (entryAt l 0).depth ≤ (entryAt l i).depth := by
  intro i
  induction i using Nat.strong_induction_on with
  | _ i ih =>
    intro hi
    rcases Nat.eq_zero_or_pos i with h0 | hpos
    · rw [h0]
    · have h1 := ih ((i - 1) / 2) (by omega) (by omega)
      have h2 := hh i (List.mem_range.mpr hi) hpos
      omega

/-- Placing `newitem` at `pos` yields a heap, given: all edges not touching
`pos` are ordered, `newitem` is below the children of `pos`, and above the
parent of `pos` (when it exists). -/
theorem set_isHeap_of (heap : List QueueEntry) (pos : Nat)
    (newitem : QueueEntry) (hpos : pos < heap.length)
    (hQa : ∀ i, 0 < i → i < heap.length → i ≠ pos → (i - 1) / 2 ≠ pos →
      (entryAt heap ((i - 1) / 2)).depth ≤ (entryAt heap i).depth)
    (hQb : ∀ c, 0 < c → c < heap.length → (c - 1) / 2 = pos →
      newitem.depth ≤ (entryAt heap c).depth)
    (hedge : 0 < pos → (entryAt heap ((pos - 1) / 2)).depth ≤ newitem.depth) :
    IsHeap (heap.set pos newitem) := by
  intro i hi hipos
  rw [List.mem_range, List.length_set] at hi
  by_cases hip : i = pos
  · subst hip
    rw [entryAt_set_self _ _ _ hpos,
      entryAt_set_ne _ _ _ _ (by omega : (i - 1) / 2 ≠ i).symm]
    exact hedge hipos
  · by_cases hpp : (i - 1) / 2 = pos
    · rw [entryAt_set_ne _ _ _ _ (Ne.symm hip), hpp, entryAt_set_self _ _ _ hpos]
      exact hQb i hipos hi hpp
    · rw [entryAt_set_ne _ _ _ _ (Ne.symm hip),
        entryAt_set_ne _ _ _ _ (fun hc => hpp hc.symm)]
      exact hQa i hipos hi hip hpp

theorem siftdownLoop_isHeap :
    ∀ (fuel : Nat) (heap : List QueueEntry) (pos : Nat) (newitem : QueueEntry),
      pos < heap.length → pos ≤ fuel →
      (∀ i, 0 < i → i < heap.length → i ≠ pos → (i - 1) / 2 ≠ pos →
        (entryAt heap ((i - 1) / 2)).depth ≤ (entryAt heap i).depth) →
      (∀ c, 0 < c → c < heap.length → (c - 1) / 2 = pos →
        newitem.depth ≤ (entryAt heap c).depth) →
      (0 < pos → ∀ c, 0 < c → c < heap.length → (c - 1) / 2 = pos →
        (entryAt heap ((pos - 1) / 2)).depth ≤ (entryAt heap c).depth) →
      IsHeap (siftdownLoop fuel heap 0 pos newitem) := by
  intro fuel
  induction fuel with
  | zero =>
    intro heap pos newitem hpos hfuel hQa hQb _hQc
    have hp0 : pos = 0 := by omega
    subst hp0
    exact set_isHeap_of heap 0 newitem hpos hQa hQb (fun hc => absurd hc (by omega))
  | succ fuel ih =>
    intro heap pos newitem hpos hfuel hQa hQb hQc
    rw [siftdownLoop]
    by_cases hlt : 0 < pos
    · rw [if_pos hlt]
      set p := (pos - 1) / 2 with hp
      have hpl : p < pos := by omega
      have hppl : p < heap.length := by omega
      by_cases hcmp : newitem.depth < (heap.getD p dfltEntry).depth
      · rw [if_pos hcmp]
        have hparent : heap.getD p dfltEntry = entryAt heap p := rfl
        rw [hparent] at hcmp ⊢
        set heap' := heap.set pos (entryAt heap p) with hheap'
        have hlen' : heap'.length = heap.length := List.length_set heap pos _
        have hat : ∀ j, j ≠ pos → entryAt heap' j = entryAt heap j := by
          intro j hj
          exact entryAt_set_ne heap pos j _ (Ne.symm hj)
        have hatpos : entryAt heap' pos = entryAt heap p :=
          entryAt_set_self heap pos _ hpos
        refine ih heap' p newitem (by omega) (by omega) ?_ ?_ ?_
        · intro i h0i hil hip hpip
          rw [hlen'] at hil
          by_cases hipos : i = pos
          · subst hipos
            exact absurd hp.symm hpip
          · by_cases hpipos : (i - 1) / 2 = pos
            · rw [hat i hipos, hpipos, hatpos]
              exact hQc hlt i h0i hil hpipos
            · rw [hat i hipos, hat _ hpipos]
              exact hQa i h0i hil hipos hpipos
        · intro c h0c hcl hcp
          rw [hlen'] at hcl
          by_cases hcpos : c = pos
          · subst hcpos
            rw [hatpos]
            omega
          · rw [hat c hcpos]
            have hedge : (entryAt heap p).depth ≤ (entryAt heap c).depth := by
              have := hQa c h0c hcl hcpos (by omega)
              rw [hcp] at this
              exact this
            omega
        · intro h0p c h0c hcl hcp
          rw [hlen'] at hcl
          by_cases hcpos : c = pos
          · subst hcpos
            rw [hatpos, hat ((p - 1) / 2) (by omega)]
            exact hQa p h0p (by omega) (by omega) (by omega)
          · rw [hat c hcpos, hat ((p - 1) / 2) (by omega)]
            have h1 : (entryAt heap ((p - 1) / 2)).depth ≤ (entryAt heap p).depth :=
              hQa p h0p (by omega) (by omega) (by omega)
            have h2 : (entryAt heap p).depth ≤ (entryAt heap c).depth := by
              have := hQa c h0c hcl hcpos (by omega)
              rw [hcp] at this
              exact this
            omega
      · rw [if_neg hcmp]
        refine set_isHeap_of heap pos newitem hpos hQa hQb ?_
        intro _
        have hparent : heap.getD p dfltEntry = entryAt heap ((pos - 1) / 2) := rfl
        rw [hparent] at hcmp
        omega
    · rw [if_neg hlt]
      have hp0 : pos = 0 := by omega
      subst hp0
      exact set_isHeap_of heap 0 newitem hpos hQa hQb (fun hc => absurd hc (by omega))

theorem heappush_isHeap (heap : List QueueEntry) (item : QueueEntry)
    (hh : IsHeap heap) : IsHeap (heappush heap item) := by
  rw [heappush, siftdownPy]
  have hlen : heap.length < (heap ++ [item]).length := by simp
  have hget : (heap ++ [item]).getD heap.length dfltEntry = item := by
    simp [List.getD_eq_getElem?_getD]
  rw [hget]
  refine siftdownLoop_isHeap heap.length (heap ++ [item]) heap.length item
    hlen (le_refl _) ?_ ?_ ?_
  · intro i h0i hil hip _
    have hil' : i < heap.length := by
      simp only [List.length_append, List.length_cons, List.length_nil] at hil
      omega
    rw [entryAt_append_lt _ _ _ hil', entryAt_append_lt _ _ _ (by omega)]
    exact hh i (List.mem_range.mpr hil') h0i
  · intro c h0c hcl hcp
    simp only [List.length_append, List.length_cons, List.length_nil] at hcl
    omega
  · intro h0 c h0c hcl hcp
    simp only [List.length_append, List.length_cons, List.length_nil] at hcl
    omega

theorem siftupLoop_isHeapAux :
    ∀ (fuel : Nat) (heap : List QueueEntry) (pos : Nat),
      pos < heap.length → heap.length - pos ≤ fuel →
      (∀ i, 0 < i → i < heap.length → i ≠ pos → (i - 1) / 2 ≠ pos →
        (entryAt heap ((i - 1) / 2)).depth ≤ (entryAt heap i).depth) →
      (0 < pos → ∀ c, 0 < c → c < heap.length → (c - 1) / 2 = pos →
        (entryAt heap ((pos - 1) / 2)).depth ≤ (entryAt heap c).depth) →
      (∀ i, 0 < i → i < heap.length →
          i ≠ (siftupLoop fuel heap pos heap.length).1 →
          (i - 1) / 2 ≠ (siftupLoop fuel heap pos heap.length).1 →
        (entryAt (siftupLoop fuel heap pos heap.length).2 ((i - 1) / 2)).depth ≤
          (entryAt (siftupLoop fuel heap pos heap.length).2 i).depth) := by
  intro fuel
  induction fuel with
  | zero => intro heap pos hpos hfuel _ _; omega
  | succ fuel ih =>
    intro heap pos hpos hfuel hRa hRc
    rw [siftupLoop]
    by_cases hchild : 2 * pos + 1 < heap.length
    · rw [if_pos hchild]
      set chosen :=
        if 2 * pos + 1 + 1 < heap.length &&
            !((heap.getD (2 * pos + 1) dfltEntry).depth <
              (heap.getD (2 * pos + 1 + 1) dfltEntry).depth) then
          2 * pos + 1 + 1
        else 2 * pos + 1 with hchosen
      have hcb : chosen < heap.length ∧ pos < chosen ∧
          ((chosen - 1) / 2 = pos) := by
        rw [hchosen]
        split_ifs with h
        · have := (Bool.and_eq_true _ _).mp h
          exact ⟨of_decide_eq_true this.1, by omega, by omega⟩
        · exact ⟨hchild, by omega, by omega⟩
      have hsel : ∀ s, 0 < s → s < heap.length → (s - 1) / 2 = pos →
          (entryAt heap chosen).depth ≤ (entryAt heap s).depth := by
        intro s h0s hsl hsp
        have hsrange : s = 2 * pos + 1 ∨ s = 2 * pos + 1 + 1 := by omega
        have h1 : (heap.getD (2 * pos + 1) dfltEntry).depth
            = (entryAt heap (2 * pos + 1)).depth := rfl
        have h2 : (heap.getD (2 * pos + 1 + 1) dfltEntry).depth
            = (entryAt heap (2 * pos + 1 + 1)).depth := rfl
        rw [hchosen]
        split_ifs with h
        · have hand := (Bool.and_eq_true _ _).mp h
          have hge : ¬((heap.getD (2 * pos + 1) dfltEntry).depth <
              (heap.getD (2 * pos + 1 + 1) dfltEntry).depth) := by
            have := hand.2
            rw [Bool.not_eq_true'] at this
            exact of_decide_eq_false this
          rcases hsrange with rfl | rfl
          · show (entryAt heap (2 * pos + 1 + 1)).depth ≤ (entryAt heap (2 * pos + 1)).depth
            omega
          · exact le_refl _
        · rcases hsrange with rfl | rfl
          · exact le_refl _
          · rw [Bool.and_eq_true] at h
            push_neg at h
            by_cases h2l : 2 * pos + 1 + 1 < heap.length
            · have hne := h (by exact decide_eq_true h2l)
              have hlt : (heap.getD (2 * pos + 1) dfltEntry).depth <
                  (heap.getD (2 * pos + 1 + 1) dfltEntry).depth := by
                by_contra hnot
                exact hne (by rw [decide_eq_false hnot]; rfl)
              show (entryAt heap (2 * pos + 1)).depth ≤ (entryAt heap (2 * pos + 1 + 1)).depth
              omega
            · omega
      have hlen' : (heap.set pos (heap.getD chosen dfltEntry)).length = heap.length :=
        List.length_set heap pos _
      have hat : ∀ j, j ≠ pos →
          entryAt (heap.set pos (heap.getD chosen dfltEntry)) j = entryAt heap j := by
        intro j hj
        exact entryAt_set_ne heap pos j _ (Ne.symm hj)
      have hatpos : entryAt (heap.set pos (heap.getD chosen dfltEntry)) pos =
          entryAt heap chosen :=
        entryAt_set_self heap pos _ hpos
      have ih' := ih (heap.set pos (heap.getD chosen dfltEntry)) chosen
        (by omega) (by omega) ?_ ?_
      · rw [hlen'] at ih'
        exact ih'
      · intro i h0i hil hic hpic
        rw [hlen'] at hil
        by_cases hipos : i = pos
        · subst hipos
          rcases Nat.eq_zero_or_pos i with h0 | hgt
          · omega
          · rw [hatpos, hat ((i - 1) / 2) (by omega)]
            exact hRc hgt chosen (by omega) hcb.1 hcb.2.2
        · by_cases hpipos : (i - 1) / 2 = pos
          · rw [hat i hipos, hpipos, hatpos]
            exact hsel i h0i hil hpipos
          · rw [hat i hipos, hat _ hpipos]
            exact hRa i h0i hil hipos hpipos
      · intro _ c h0c hcl hcc
        rw [hlen'] at hcl
        have hcpos : c ≠ pos := by omega
        rw [hat c hcpos, hcb.2.2, hatpos]
        have : (c - 1) / 2 = chosen := hcc
        have hedge := hRa c h0c hcl hcpos (by omega)
        rw [this] at hedge
        exact hedge
    · rw [if_neg hchild]
      intro i h0i hil hic hpic
      exact hRa i h0i hil hic hpic

theorem siftupPy_isHeap (heap : List QueueEntry) (hlen : 0 < heap.length)
    (hRa : ∀ i, 0 < i → i < heap.length → i ≠ 0 → (i - 1) / 2 ≠ 0 →
      (entryAt heap ((i - 1) / 2)).depth ≤ (entryAt heap i).depth) :
    IsHeap (siftupPy heap 0) := by
  rw [siftupPy]
  have hs := siftupLoop_spec heap.length heap 0 hlen (by omega)
  have haux := siftupLoop_isHeapAux heap.length heap 0 hlen (by omega) hRa
    (fun hc => absurd hc (by omega))
  set r := siftupLoop heap.length heap 0 heap.length with hr
  have hnochild : heap.length ≤ 2 * r.1 + 1 := hs.2.2.1
  refine siftdownLoop_isHeap r.1 (r.2.set r.1 (heap.getD 0 dfltEntry)) r.1
    (heap.getD 0 dfltEntry) (by rw [List.length_set, hs.2.1]; exact hs.1)
    (le_refl _) ?_ ?_ ?_
  · intro i h0i hil hir hpir
    rw [List.length_set, hs.2.1] at hil
    rw [entryAt_set_ne _ _ _ _ (Ne.symm hir),
      entryAt_set_ne _ _ _ _ (fun hc => hpir hc.symm)]
    exact haux i h0i hil hir hpir
  · intro c h0c hcl hcr
    rw [List.length_set, hs.2.1] at hcl
    omega
  · intro h0r
    rw [List.length_set, hs.2.1] at *
    intro hc
    omega

theorem heappop_isHeap (heap : List QueueEntry) (x : QueueEntry)
    (rest : List QueueEntry) (hh : IsHeap heap)
    (h : heappop? heap = some (x, rest)) :
    IsHeap rest ∧ ∀ y ∈ heap, x.depth ≤ y.depth := by
  cases hlast : heap.getLast? with
  | none =>
    rw [heappop?, hlast] at h
    exact absurd h (by simp)
  | some lastelt =>
    have hne : heap ≠ [] := by
      intro hnil
      rw [hnil] at hlast
      exact absurd hlast (by simp)
    have hsplit : heap.dropLast ++ [lastelt] = heap := by
      have hl := List.dropLast_concat_getLast hne
      rw [List.getLast?_eq_getLast heap hne, Option.some.injEq] at hlast
      rw [hlast] at hl
      exact hl
    by_cases hrest : heap.dropLast.isEmpty = true
    · rw [heappop?, hlast] at h
      simp only [hrest, if_true, Option.some.injEq, Prod.mk.injEq] at h
      have hemp : heap.dropLast = [] := List.isEmpty_iff.mp hrest
      have hheap : heap = [lastelt] := by
        rw [← hsplit, hemp]
        rfl
      constructor
      · rw [← h.2]
        intro i hi _
        rw [List.mem_range] at hi
        simp at hi
      · intro y hy
        rw [hheap, List.mem_singleton] at hy
        rw [← h.1, hy]
    · rw [heappop?, hlast] at h
      simp only [hrest, Bool.false_eq_true, if_false, Option.some.injEq,
        Prod.mk.injEq] at h
      have hdlen : 0 < heap.dropLast.length := by
        cases hd : heap.dropLast with
        | nil => rw [hd] at hrest; exact absurd rfl hrest
        | cons a t => simp [hd]
      have hlenlt : heap.dropLast.length < heap.length := by
        have := congrArg List.length hsplit
        simp only [List.length_append, List.length_cons, List.length_nil] at this
        omega
      have hlend : heap.dropLast.length = heap.length - 1 := List.length_dropLast heap
      constructor
      · rw [← h.2]
        refine siftupPy_isHeap (heap.dropLast.set 0 lastelt)
          (by rw [List.length_set]; exact hdlen) ?_
        intro i h0i hil _ hpi
        rw [List.length_set] at hil
        rw [entryAt_set_ne _ _ _ _ (by omega : (0 : Nat) ≠ i),
          entryAt_set_ne _ _ _ _ (fun hc => hpi hc.symm)]
        rw [entryAt_dropLast _ _ (by omega), entryAt_dropLast _ _ (by omega)]
        exact hh i (List.mem_range.mpr (by omega)) h0i
      · have hx : x = entryAt heap 0 := by
          rw [← h.1]
          show entryAt heap.dropLast 0 = entryAt heap 0
          exact entryAt_dropLast _ _ (by omega)
        intro y hy
        obtain ⟨i, hi, hyi⟩ := List.mem_iff_getElem.mp hy
        have := isHeap_root_min heap hh i hi
        rw [hx]
        have hyent : entryAt heap i = y := by
          rw [entryAt, List.getD_eq_getElem _ _ hi, hyi]
        rw [← hyent]
        exact this

theorem getNextGo_isHeap : ∀ (fuel : Nat) (f : URLFrontier),
    IsHeap f.queue → IsHeap (getNextGo fuel f).2.queue := by
  intro fuel
  induction fuel with
  | zero => intro f hh; exact hh
  | succ fuel ih =>
    intro f hh
    cases hpop : heappop? f.queue with
    | none =>
      rw [getNextGo_succ_none fuel f hpop]
      exact hh
    | some pr =>
      have hpop' : heappop? f.queue = some (pr.1, pr.2) := by rw [hpop]
      have hrest := (heappop_isHeap f.queue pr.1 pr.2 hh hpop').1
      rw [getNextGo_succ_some fuel f pr.1 pr.2 hpop']
      by_cases hvis : f.visited.contains (urlHash pr.1.url) = true
      · rw [if_pos hvis]
        exact ih _ hrest
      · rw [if_neg hvis]
        exact hrest

theorem getNextGo_min : ∀ (fuel : Nat) (f : URLFrontier) (u : PyStr) (d : Nat)
    (f' : URLFrontier), IsHeap f.queue →
    getNextGo fuel f = (some (u, d), f') →
    ∀ e ∈ f'.queue, d ≤ e.depth := by
  intro fuel
  induction fuel with
  | zero =>
    intro f u d f' _ h
    exact absurd (congrArg Prod.fst h) (by simp [getNextGo])
  | succ fuel ih =>
    intro f u d f' hh h
    cases hpop : heappop? f.queue with
    | none =>
      rw [getNextGo_succ_none fuel f hpop] at h
      exact absurd (congrArg Prod.fst h) (by simp)
    | some pr =>
      have hpop' : heappop? f.queue = some (pr.1, pr.2) := by rw [hpop]
      have hpi := heappop_isHeap f.queue pr.1 pr.2 hh hpop'
      rw [getNextGo_succ_some fuel f pr.1 pr.2 hpop'] at h
      by_cases hvis : f.visited.contains (urlHash pr.1.url) = true
      · rw [if_pos hvis] at h
        exact ih _ u d f' hpi.1 h
      · rw [if_neg hvis] at h
        have hd : pr.1.depth = d := congrArg (fun o => (o.1.getD ([], 0)).2) h
        have hf' : { f with queue := pr.2 } = f' := congrArg Prod.snd h
        intro e he
        rw [← hf'] at he
        have hperm := heappop_perm f.queue pr.1 pr.2 hpop'
        have hmem : e ∈ f.queue := hperm.mem_iff.mp (List.mem_cons_of_mem _ he)
        rw [← hd]
        exact hpi.2 e hmem

theorem stepOp_isHeap (f : URLFrontier) (op : FrontierOp) (hh : IsHeap f.queue) :
    IsHeap (stepOp f op).1.queue := by
  cases op with
  | add u d =>
    show IsHeap (add_url f u d).2.queue
    rcases add_url_eq f u d with h | ⟨norm, _, _, _, h⟩
    · rw [h]
      exact hh
    · rw [h]
      exact heappush_isHeap f.queue ⟨d, norm⟩ hh
  | next =>
    show IsHeap (get_next f).2.queue
    rw [get_next]
    exact getNextGo_isHeap _ f hh
  | visit u => exact hh

theorem runOps_isHeap : ∀ (ops : List FrontierOp) (f : URLFrontier),
    IsHeap f.queue → IsHeap (runOps f ops).1.queue := by
  intro ops
  induction ops with
  | nil => intro f hh; exact hh
  | cons op ops ih =>
    intro f hh
    exact ih _ (stepOp_isHeap f op hh)

theorem runOps_noadd_lb : ∀ (ops : List FrontierOp) (f : URLFrontier) (d : Nat),
    IsHeap f.queue → (∀ op ∈ ops, isAddOp op = false) →
    (∀ e ∈ f.queue, d ≤ e.depth) →
    ∀ o ∈ (runOps f ops).2, d ≤ o.2 := by
  intro ops
  induction ops with
  | nil =>
    intro f d _ _ _ o ho
    exact absurd ho (List.not_mem_nil o)
  | cons op ops ih =>
    intro f d hh hna hlb
    have hna' : ∀ o ∈ ops, isAddOp o = false :=
      fun o ho => hna o (List.mem_cons_of_mem _ ho)
    cases op with
    | add u dd =>
      exact absurd (hna _ (List.mem_cons_self _ _)) (by simp [isAddOp])
    | visit u =>
      exact ih (mark_visited f u) d hh hna' hlb
    | next =>
      have hh' : IsHeap (get_next f).2.queue := by
        rw [get_next]
        exact getNextGo_isHeap _ f hh
      have hlb' : ∀ e ∈ (get_next f).2.queue, d ≤ e.depth := by
        intro e he
        rw [get_next] at he
        exact hlb e (getNextGo_queue_sub _ f e he)
      have hrest := ih (get_next f).2 d hh' hna' hlb'
      have hout : (runOps f (FrontierOp.next :: ops)).2 =
          (match (get_next f).1 with | none => [] | some o => [o]) ++
            (runOps (get_next f).2 ops).2 := rfl
      intro o ho
      rw [hout] at ho
      rcases List.mem_append.mp ho with h1 | h2
      · cases hnx : (get_next f).1 with
        | none =>
          rw [hnx] at h1
          exact absurd h1 (List.not_mem_nil o)
        | some pr =>
          rw [hnx] at h1
          have ho' : o = pr := List.mem_singleton.mp h1
          have hg : get_next f = (some (pr.1, pr.2), (get_next f).2) :=
            Prod.ext (by rw [hnx]) rfl
          have hmem := (getNextGo_some f.queue.length f pr.1 pr.2 (get_next f).2 hg).1
          rw [ho']
          exact hlb _ hmem
      · exact hrest o h2

theorem runOps_noadd_sorted : ∀ (ops : List FrontierOp) (f : URLFrontier),
    IsHeap f.queue → (∀ op ∈ ops, isAddOp op = false) →
    List.Pairwise (fun a b : PyStr × Nat => a.2 ≤ b.2) (runOps f ops).2 := by
  intro ops
  induction ops with
  | nil => intro f _ _; exact List.Pairwise.nil
  | cons op ops ih =>
    intro f hh hna
    have hna' : ∀ o ∈ ops, isAddOp o = false :=
      fun o ho => hna o (List.mem_cons_of_mem _ ho)
    cases op with
    | add u d =>
      exact absurd (hna _ (List.mem_cons_self _ _)) (by simp [isAddOp])
    | visit u =>
      exact ih (mark_visited f u) hh hna'
    | next =>
      have hh' : IsHeap (get_next f).2.queue := by
        rw [get_next]
        exact getNextGo_isHeap _ f hh
      have htail := ih (get_next f).2 hh' hna'
      have hout : (runOps f (FrontierOp.next :: ops)).2 =
          (match (get_next f).1 with | none => [] | some o => [o]) ++
            (runOps (get_next f).2 ops).2 := rfl
      rw [hout]
      cases hnx : (get_next f).1 with
      | none => exact htail
      | some pr =>
        show List.Pairwise _ (pr :: (runOps (get_next f).2 ops).2)
        refine List.Pairwise.cons ?_ htail
        intro o ho
        have hg : get_next f = (some (pr.1, pr.2), (get_next f).2) :=
          Prod.ext (by rw [hnx]) rfl
        have hmin := getNextGo_min f.queue.length f pr.1 pr.2 (get_next f).2 hh hg
        exact runOps_noadd_lb ops (get_next f).2 pr.2 hh' hna' hmin o ho

/-- C3 (amended): starting from a fresh frontier and any warm-up call
sequence, a subsequent run of `get_next`/`mark_visited` calls with no
interleaved `add_url` returns entries with non-decreasing depths (each
`get_next` pops a minimum-depth entry of the binary heap the frontier
maintains).  The original claim's FIFO tie-break among equal depths, and
monotonicity across interleaved `add_url` calls, both fail — see the
counterexample. -/
theorem C3_amended (allowed : List PyStr) (maxd : Nat)
    (warm tail : List FrontierOp)
    (hnoadd : ∀ op ∈ tail, isAddOp op = false) :
    List.Pairwise (fun a b : PyStr × Nat => a.2 ≤ b.2)
      (runOps (runOps (mkFrontier allowed maxd) warm).1 tail).2 := by
  refine runOps_noadd_sorted tail (runOps (mkFrontier allowed maxd) warm).1
    (runOps_isHeap warm (mkFrontier allowed maxd) ?_) hnoadd
  intro i hi
  exact absurd hi (by simp [mkFrontier])

/-- Witness for C3 (amended): enqueue three URLs at depths 2, 1, 1, then pop
them all; the returned depths 1, 1, 2 are non-decreasing. -/
theorem C3_amended_witness :
    (∀ op ∈ ([.next, .visit "http://e.com/a".toList, .next, .next] :
        List FrontierOp), isAddOp op = false) ∧
    List.Pairwise (fun a b : PyStr × Nat => a.2 ≤ b.2)
      (runOps (runOps (mkFrontier ["e.com".toList] 3)
          [.add "http://e.com/a".toList 2, .add "http://e.com/b".toList 1,
           .add "http://e.com/c".toList 1]).1
        [.next, .visit "http://e.com/a".toList, .next, .next]).2 :=
  ⟨by decide,
   C3_amended ["e.com".toList] 3
     [.add "http://e.com/a".toList 2, .add "http://e.com/b".toList 1,
      .add "http://e.com/c".toList 1]
     [.next, .visit "http://e.com/a".toList, .next, .next]
     (by decide)⟩

/-- Counterexample to C3 as stated: `/a` is enqueued at depth 1 before `/b`
(also depth 1), yet `get_next` returns `/b` first — equal-depth entries are
not delivered FIFO (the `heapq` shuffle moves the later peer over the hole
first); and an `add_url` between two `get_next` calls makes the returned
depths decrease from 2 to 1, so depths are not non-decreasing over mixed
sequences either. -/
theorem C3_counterexample :
    ((runOps (mkFrontier ["e.com".toList] 3)
        [.add "http://e.com/x".toList 0, .add "http://e.com/a".toList 1,
         .add "http://e.com/b".toList 1, .add "http://e.com/c".toList 1,
         .next, .next, .next, .next]).2 =
      [("http://e.com/x".toList, 0), ("http://e.com/b".toList, 1),
       ("http://e.com/a".toList, 1), ("http://e.com/c".toList, 1)]) ∧
    ((runOps (mkFrontier ["e.com".toList] 3)
        [.add "http://e.com/a".toList 2, .next,
         .add "http://e.com/b".toList 1, .next]).2 =
      [("http://e.com/a".toList, 2), ("http://e.com/b".toList, 1)]) :=
  ⟨by decide, by decide⟩



theorem filterMapConsNone {α β : Type} (f : α → Option β) (a : α) (l : List α)
    (h : f a = none) : List.filterMap f (a :: l) = List.filterMap f l :=
  List.filterMap_cons_none h

theorem filterMapConsSome {α β : Type} (f : α → Option β) (a : α) (b : β) (l : List α)
    (h : f a = some b) : List.filterMap f (a :: l) = b :: List.filterMap f l :=
  List.filterMap_cons_some h

theorem levelOfTag_headingName (l : Nat) (h1 : 1 ≤ l) (h6 : l ≤ 6) :
    levelOfTag (headingName l) = some l := by
  interval_cases l <;> rfl

theorem levelOfTag_some_eq (t : String) (l : Nat) (h : levelOfTag t = some l) :
    t = headingName l ∧ 1 ≤ l ∧ l ≤ 6 := by
  rw [levelOfTag] at h
  split_ifs at h with a1 a2 a3 a4 a5 a6
  · injection h with h'; subst h'; exact ⟨a1, by omega⟩
  · injection h with h'; subst h'; exact ⟨a2, by omega⟩
  · injection h with h'; subst h'; exact ⟨a3, by omega⟩
  · injection h with h'; subst h'; exact ⟨a4, by omega⟩
  · injection h with h'; subst h'; exact ⟨a5, by omega⟩
  · injection h with h'; subst h'; exact ⟨a6, by omega⟩

theorem get_headings_level (l : Nat) (h1 : 1 ≤ l) (h6 : l ≤ 6) :
    ∀ soup : List SoupNode,
      (findAll soup (headingName l)).filterMap
        (fun n => if n.text ≠ "" then some (⟨l, n.text⟩ : Heading) else none)
      = (docOrderHeadings soup).filter (fun h => h.level == l) := by
  intro soup
  induction soup with
  | nil => rfl
  | cons n rest ih =>
    have hL : findAll (n :: rest) (headingName l)
        = if n.tag = headingName l then n :: findAll rest (headingName l)
          else findAll rest (headingName l) := by
      by_cases h : n.tag = headingName l
      · rw [if_pos h]
        simp [findAll, List.filter_cons, h]
      · rw [if_neg h]
        simp [findAll, List.filter_cons, h]
    rw [hL, docOrderHeadings]
    by_cases htag : n.tag = headingName l
    · have hlev : levelOfTag n.tag = some l := by
        rw [htag]
        exact levelOfTag_headingName l h1 h6
      rw [if_pos htag]
      by_cases htext : n.text = ""
      · have hF : (fun m : SoupNode =>
            if m.text ≠ "" then some (⟨l, m.text⟩ : Heading) else none) n = none := by
          show (if n.text ≠ "" then some (⟨l, n.text⟩ : Heading) else none) = none
          rw [if_neg (by simpa using htext)]
        have hG : (fun m : SoupNode => match levelOfTag m.tag with
            | some lv => if m.text ≠ "" then some (⟨lv, m.text⟩ : Heading) else none
            | none => none) n = none := by
          show (match levelOfTag n.tag with
            | some lv => if n.text ≠ "" then some (⟨lv, n.text⟩ : Heading) else none
            | none => none) = none
          rw [hlev]
          show (if n.text ≠ "" then some (⟨l, n.text⟩ : Heading) else none) = none
          rw [if_neg (by simpa using htext)]
        rw [filterMapConsNone _ n (findAll rest (headingName l)) hF,
          filterMapConsNone _ n rest hG]
        exact ih
      · have hF : (fun m : SoupNode =>
            if m.text ≠ "" then some (⟨l, m.text⟩ : Heading) else none) n
              = some ⟨l, n.text⟩ := by
          show (if n.text ≠ "" then some (⟨l, n.text⟩ : Heading) else none)
              = some ⟨l, n.text⟩
          rw [if_pos (by simpa using htext)]
        have hG : (fun m : SoupNode => match levelOfTag m.tag with
            | some lv => if m.text ≠ "" then some (⟨lv, m.text⟩ : Heading) else none
            | none => none) n = some ⟨l, n.text⟩ := by
          show (match levelOfTag n.tag with
            | some lv => if n.text ≠ "" then some (⟨lv, n.text⟩ : Heading) else none
            | none => none) = some ⟨l, n.text⟩
          rw [hlev]
          show (if n.text ≠ "" then some (⟨l, n.text⟩ : Heading) else none)
              = some ⟨l, n.text⟩
          rw [if_pos (by simpa using htext)]
        rw [filterMapConsSome _ n _ (findAll rest (headingName l)) hF,
          filterMapConsSome _ n _ rest hG,
          List.filter_cons, if_pos (by simp : (((⟨l, n.text⟩ : Heading)).level == l) = true)]
        rw [ih]
        rfl
    · rw [if_neg htag]
      cases hlev : levelOfTag n.tag with
      | none =>
        have hG : (fun m : SoupNode => match levelOfTag m.tag with
            | some lv => if m.text ≠ "" then some (⟨lv, m.text⟩ : Heading) else none
            | none => none) n = none := by
          show (match levelOfTag n.tag with
            | some lv => if n.text ≠ "" then some (⟨lv, n.text⟩ : Heading) else none
            | none => none) = none
          rw [hlev]
        rw [filterMapConsNone _ n rest hG]
        exact ih
      | some l' =>
        have hll : l' ≠ l := by
          intro hc
          subst hc
          exact htag (levelOfTag_some_eq n.tag l' hlev).1
        by_cases htext : n.text = ""
        · have hG : (fun m : SoupNode => match levelOfTag m.tag with
              | some lv => if m.text ≠ "" then some (⟨lv, m.text⟩ : Heading) else none
              | none => none) n = none := by
            show (match levelOfTag n.tag with
              | some lv => if n.text ≠ "" then some (⟨lv, n.text⟩ : Heading) else none
              | none => none) = none
            rw [hlev]
            show (if n.text ≠ "" then some (⟨l', n.text⟩ : Heading) else none) = none
            rw [if_neg (by simpa using htext)]
          rw [filterMapConsNone _ n rest hG]
          exact ih
        · have hG : (fun m : SoupNode => match levelOfTag m.tag with
              | some lv => if m.text ≠ "" then some (⟨lv, m.text⟩ : Heading) else none
              | none => none) n = some ⟨l', n.text⟩ := by
            show (match levelOfTag n.tag with
              | some lv => if n.text ≠ "" then some (⟨lv, n.text⟩ : Heading) else none
              | none => none) = some ⟨l', n.text⟩
            rw [hlev]
            show (if n.text ≠ "" then some (⟨l', n.text⟩ : Heading) else none)
                = some ⟨l', n.text⟩
            rw [if_pos (by simpa using htext)]
          rw [filterMapConsSome _ n _ rest hG, List.filter_cons,
            if_neg (by simp [hll] : ¬(((⟨l', n.text⟩ : Heading)).level == l) = true)]
          exact ih

theorem filter_level_sub (xs : List Heading) (l l' : Nat) (hne : l' ≠ l) :
    (xs.filter (fun h => !(h.level == l))).filter (fun h => h.level == l')
      = xs.filter (fun h => h.level == l') := by
  rw [List.filter_filter]
  refine List.filter_congr ?_
  intro h _
  by_cases hh : h.level = l'
  · simp [hh, hne]
  · simp [hh]

theorem flatMap_filter_perm : ∀ (levels : List Nat) (xs : List Heading),
    (∀ h ∈ xs, h.level ∈ levels) → levels.Nodup →
    (levels.flatMap (fun l => xs.filter (fun h => h.level == l))).Perm xs := by
  intro levels
  induction levels with
  | nil =>
    intro xs hmem _
    cases xs with
    | nil => exact List.Perm.refl _
    | cons x t => exact absurd (hmem x (List.mem_cons_self _ _)) (List.not_mem_nil _)
  | cons l ls ih =>
    intro xs hmem hnd
    rw [List.flatMap_cons]
    have hnotin : l ∉ ls := (List.nodup_cons.mp hnd).1
    have hcongr : ls.flatMap (fun l' => xs.filter (fun h => h.level == l'))
        = ls.flatMap (fun l' =>
            (xs.filter (fun h => !(h.level == l))).filter (fun h => h.level == l')) := by
      refine List.flatMap_congr ?_
      intro l' hl'
      exact (filter_level_sub xs l l' (fun hc => hnotin (hc ▸ hl'))).symm
    rw [hcongr]
    have hys : ∀ h ∈ xs.filter (fun h => !(h.level == l)), h.level ∈ ls := by
      intro h hh
      have hmemx := List.mem_of_mem_filter hh
      have hprop := List.of_mem_filter hh
      have hne : h.level ≠ l := by
        intro hc
        rw [hc] at hprop
        simp at hprop
      rcases List.mem_cons.mp (hmem h hmemx) with hc | hc
      · exact absurd hc hne
      · exact hc
    have hperm := ih (xs.filter (fun h => !(h.level == l))) hys (List.nodup_cons.mp hnd).2
    exact (hperm.append_left _).trans (List.filter_append_perm _ xs)

theorem docOrderHeadings_level_mem (soup : List SoupNode) :
    ∀ h ∈ docOrderHeadings soup, h.level ∈ List.range' 1 6 := by
  intro h hh
  rw [docOrderHeadings] at hh
  obtain ⟨n, hn, hf⟩ := List.mem_filterMap.mp hh
  cases hlev : levelOfTag n.tag with
  | none =>
    rw [hlev] at hf
    cases hf
  | some l' =>
    rw [hlev] at hf
    have hf' : (if n.text ≠ "" then some (⟨l', n.text⟩ : Heading) else none) = some h := hf
    by_cases htext : n.text = ""
    · rw [if_neg (by simpa using htext)] at hf'
      cases hf'
    · rw [if_pos (by simpa using htext)] at hf'
      injection hf' with hf''
      obtain ⟨_, hl1, hl6⟩ := levelOfTag_some_eq n.tag l' hlev
      have hlv : h.level = l' := by rw [← hf'']
      rw [hlv]
      exact List.mem_range'_1.mpr (by omega)

/-- C4 (amended): `_get_headings` returns exactly the non-empty-text
`h1`..`h6` elements of the page, each tagged with its level, but grouped by
level (all `h1`s first, then all `h2`s, ...), preserving document order only
within each level: the list equals the level-by-level regrouping of the
document-order list, and is a permutation of it.  The original claim's
"document order regardless of level" fails — see the counterexample. -/
theorem C4_amended (soup : List SoupNode) :
    get_headings soup =
      (List.range' 1 6).flatMap
        (fun l => (docOrderHeadings soup).filter (fun h => h.level == l)) ∧
    (get_headings soup).Perm (docOrderHeadings soup) := by
  have heq : get_headings soup = (List.range' 1 6).flatMap
      (fun l => (docOrderHeadings soup).filter (fun h => h.level == l)) := by
    rw [get_headings]
    refine List.flatMap_congr ?_
    intro l hl
    have hmem := List.mem_range'_1.mp hl
    exact get_headings_level l (by omega) (by omega) soup
  refine ⟨heq, ?_⟩
  rw [heq]
  exact flatMap_filter_perm (List.range' 1 6) (docOrderHeadings soup)
    (docOrderHeadings_level_mem soup) (by decide)

/-- Counterexample to C4 as stated: a page whose `<h2>A</h2>` precedes
`<h1>B</h1>` yields headings `[B (level 1), A (level 2)]` — the level-major
loop in `_get_headings` reorders them against document order. -/
theorem C4_counterexample :
    get_headings [⟨"h2", "A"⟩, ⟨"h1", "B"⟩]
        = [⟨1, "B"⟩, ⟨2, "A"⟩] ∧
    docOrderHeadings [⟨"h2", "A"⟩, ⟨"h1", "B"⟩]
        = [⟨2, "A"⟩, ⟨1, "B"⟩] := ⟨rfl, rfl⟩

/-! ## C5 and C6 – URL normalisation (`URLFrontier.normalize_url`)

Supporting development: UTF-8 encode/decode round-trip, `quote_plus` /
`unquote_plus` round-trip, the `parse_qs` / `urlencode(doseq=True)` query
layer, slash collapsing, `str.lower`, and a re-parse lemma showing that
`urlparse` inverts `urlunparse` on the URL shapes `normalize_url`
produces. -/

theorem char_toNat_ofNat (n : Nat) (h1 : n.isValidChar) : (Char.ofNat n).toNat = n := by
  rw [Char.ofNat, dif_pos h1]
  rfl

theorem char_valid_ranges (c : Char) :
    c.toNat < 0xd800 ∨ (0xdfff < c.toNat ∧ c.toNat < 0x110000) := by
  have h := c.valid
  rw [UInt32.isValidChar] at h
  exact h

theorem utf8DecodeGo_encodeChar (c : Char) (bs : List Nat) (fuel : Nat) :
    utf8DecodeGo (fuel + 1) (utf8EncodeChar c ++ bs) = c :: utf8DecodeGo fuel bs := by
  have hv := char_valid_ranges c
  rw [utf8EncodeChar]
  by_cases h1 : c.toNat < 0x80
  · rw [if_pos h1]
    simp only [utf8DecodeGo, List.append_eq, List.cons_append, List.singleton_append,
        List.nil_append]
    rw [if_pos h1, Char.ofNat_toNat]
  · rw [if_neg h1]
    by_cases h2 : c.toNat < 0x800
    · rw [if_pos h2]
      simp only [utf8DecodeGo, List.append_eq, List.cons_append, List.singleton_append,
        List.nil_append]
      rw [if_neg (by omega : ¬(0xC0 + c.toNat / 64 < 0x80))]
      rw [if_pos (by simp only [Bool.and_eq_true, decide_eq_true_eq]; omega :
        (decide (0xC2 ≤ 0xC0 + c.toNat / 64) && decide (0xC0 + c.toNat / 64 ≤ 0xDF)) = true)]
      rw [if_pos (by simp only [isUtf8Cont, Bool.and_eq_true, decide_eq_true_eq]; omega :
        isUtf8Cont (0x80 + c.toNat % 64) = true)]
      rw [show (0xC0 + c.toNat / 64 - 0xC0) * 64 + (0x80 + c.toNat % 64 - 0x80)
          = c.toNat from by omega, Char.ofNat_toNat]
    · rw [if_neg h2]
      by_cases h3 : c.toNat < 0x10000
      · rw [if_pos h3]
        simp only [utf8DecodeGo, List.append_eq, List.cons_append, List.singleton_append,
        List.nil_append]
        rw [if_neg (by omega : ¬(0xE0 + c.toNat / 4096 < 0x80))]
        rw [if_neg (by simp only [Bool.and_eq_true, decide_eq_true_eq]; omega :
          ¬(decide (0xC2 ≤ 0xE0 + c.toNat / 4096) &&
            decide (0xE0 + c.toNat / 4096 ≤ 0xDF)) = true)]
        rw [if_pos (by simp only [Bool.and_eq_true, decide_eq_true_eq]; omega :
          (decide (0xE0 ≤ 0xE0 + c.toNat / 4096) &&
           decide (0xE0 + c.toNat / 4096 ≤ 0xEF)) = true)]
        rw [if_pos ?hc2]
        case hc2 =>
          by_cases hE : 0xE0 + c.toNat / 4096 = 0xE0
          · rw [if_pos hE]
            simp only [Bool.and_eq_true, decide_eq_true_eq]
            omega
          · rw [if_neg hE]
            by_cases hD : 0xE0 + c.toNat / 4096 = 0xED
            · rw [if_pos hD]
              simp only [Bool.and_eq_true, decide_eq_true_eq]
              omega
            · rw [if_neg hD]
              simp only [isUtf8Cont, Bool.and_eq_true, decide_eq_true_eq]
              omega
        rw [if_pos (by simp only [isUtf8Cont, Bool.and_eq_true, decide_eq_true_eq]; omega :
          isUtf8Cont (0x80 + c.toNat % 64) = true)]
        rw [show (0xE0 + c.toNat / 4096 - 0xE0) * 4096 +
            (0x80 + c.toNat / 64 % 64 - 0x80) * 64 + (0x80 + c.toNat % 64 - 0x80)
            = c.toNat from by omega, Char.ofNat_toNat]
      · rw [if_neg h3]
        simp only [utf8DecodeGo, List.append_eq, List.cons_append, List.singleton_append,
        List.nil_append]
        rw [if_neg (by omega : ¬(0xF0 + c.toNat / 262144 < 0x80))]
        rw [if_neg (by simp only [Bool.and_eq_true, decide_eq_true_eq]; omega :
          ¬(decide (0xC2 ≤ 0xF0 + c.toNat / 262144) &&
            decide (0xF0 + c.toNat / 262144 ≤ 0xDF)) = true)]
        rw [if_neg (by simp only [Bool.and_eq_true, decide_eq_true_eq]; omega :
          ¬(decide (0xE0 ≤ 0xF0 + c.toNat / 262144) &&
            decide (0xF0 + c.toNat / 262144 ≤ 0xEF)) = true)]
        rw [if_pos (by simp only [Bool.and_eq_true, decide_eq_true_eq]; omega :
          (decide (0xF0 ≤ 0xF0 + c.toNat / 262144) &&
           decide (0xF0 + c.toNat / 262144 ≤ 0xF4)) = true)]
        rw [if_pos ?hc4]
        case hc4 =>
          by_cases hE : 0xF0 + c.toNat / 262144 = 0xF0
          · rw [if_pos hE]
            simp only [Bool.and_eq_true, decide_eq_true_eq]
            omega
          · rw [if_neg hE]
            by_cases hD : 0xF0 + c.toNat / 262144 = 0xF4
            · rw [if_pos hD]
              simp only [Bool.and_eq_true, decide_eq_true_eq]
              omega
            · rw [if_neg hD]
              simp only [isUtf8Cont, Bool.and_eq_true, decide_eq_true_eq]
              omega
        rw [if_pos (by simp only [isUtf8Cont, Bool.and_eq_true, decide_eq_true_eq]; omega :
          isUtf8Cont (0x80 + c.toNat / 64 % 64) = true)]
        rw [if_pos (by simp only [isUtf8Cont, Bool.and_eq_true, decide_eq_true_eq]; omega :
          isUtf8Cont (0x80 + c.toNat % 64) = true)]
        rw [show (0xF0 + c.toNat / 262144 - 0xF0) * 262144 +
            (0x80 + c.toNat / 4096 % 64 - 0x80) * 4096 +
            (0x80 + c.toNat / 64 % 64 - 0x80) * 64 + (0x80 + c.toNat % 64 - 0x80)
            = c.toNat from by omega, Char.ofNat_toNat]

theorem utf8DecodeGo_encode : ∀ (s : PyStr) (fuel : Nat), s.length ≤ fuel →
    utf8DecodeGo fuel (utf8Encode s) = s := by
  intro s
  induction s with
  | nil =>
    intro fuel _
    cases fuel with
    | zero => rfl
    | succ fuel => rfl
  | cons c t ih =>
    intro fuel hf
    cases fuel with
    | zero => exact absurd hf (by simp)
    | succ fuel =>
      show utf8DecodeGo (fuel + 1) (utf8EncodeChar c ++ utf8Encode t) = c :: t
      rw [utf8DecodeGo_encodeChar]
      rw [ih fuel (by simpa using Nat.lt_succ_iff.mp (Nat.lt_of_lt_of_le (Nat.lt_succ_self _) hf))]

theorem utf8EncodeChar_length_pos (c : Char) : 0 < (utf8EncodeChar c).length := by
  rw [utf8EncodeChar]
  split_ifs <;> simp

theorem utf8Encode_length_ge (s : PyStr) : s.length ≤ (utf8Encode s).length := by
  induction s with
  | nil => simp [utf8Encode]
  | cons c t ih =>
    show (c :: t).length ≤ (utf8EncodeChar c ++ utf8Encode t).length
    rw [List.length_append, List.length_cons]
    have := utf8EncodeChar_length_pos c
    omega

theorem utf8_roundtrip (s : PyStr) : utf8DecodeReplace (utf8Encode s) = s := by
  rw [utf8DecodeReplace]
  exact utf8DecodeGo_encode s _ (utf8Encode_length_ge s)

theorem hexVal_hexDigitUpper (n : Nat) (h : n < 16) :
    hexVal? (hexDigitUpper n) = some n := by
  interval_cases n <;> decide

theorem hexDigitUpper_ne_plus (n : Nat) (h : n < 16) : hexDigitUpper n ≠ '+' := by
  interval_cases n <;> decide

theorem utf8EncodeChar_lt_256 (c : Char) : ∀ b ∈ utf8EncodeChar c, b < 256 := by
  have hv := char_valid_ranges c
  intro b hb
  rw [utf8EncodeChar] at hb
  split_ifs at hb with h1 h2 h3 <;>
    simp only [List.mem_cons, List.not_mem_nil, or_false] at hb <;>
    omega

theorem utf8Encode_lt_256 (s : PyStr) : ∀ b ∈ utf8Encode s, b < 256 := by
  induction s with
  | nil => intro b hb; exact absurd hb (List.not_mem_nil b)
  | cons c t ih =>
    intro b hb
    rcases List.mem_append.mp hb with h | h
    · exact utf8EncodeChar_lt_256 c b h
    · exact ih b h

theorem unquoteGo_quoted : ∀ (bv : List Nat) (acc : List Nat) (fuel : Nat),
    (∀ b ∈ bv, b < 256) →
    ((bv.flatMap quotePlusByte).map (fun c => if c = '+' then ' ' else c)).length ≤ fuel →
    unquoteGo fuel acc ((bv.flatMap quotePlusByte).map (fun c => if c = '+' then ' ' else c))
      = utf8DecodeReplace (acc.reverse ++ bv) := by
  intro bv
  induction bv with
  | nil =>
    intro acc fuel _ _
    rw [List.append_nil]
    simp only [List.flatMap_nil, List.map_nil]
    cases fuel with
    | zero =>
      show utf8DecodeReplace acc.reverse ++ [] = utf8DecodeReplace acc.reverse
      exact List.append_nil _
    | succ f => rfl
  | cons b bv ih =>
    intro acc fuel hlt hf
    have hb : b < 256 := hlt b (List.mem_cons_self _ _)
    have hbv : ∀ x ∈ bv, x < 256 := fun x hx => hlt x (List.mem_cons_of_mem _ hx)
    rw [List.flatMap_cons, List.map_append] at hf ⊢
    rw [List.length_append] at hf
    by_cases h32 : b = 32
    · subst h32
      have hqp : (quotePlusByte 32).map (fun c => if c = '+' then ' ' else c)
          = [' '] := rfl
      rw [hqp] at hf ⊢
      cases fuel with
      | zero => exact absurd hf (by simp)
      | succ f =>
        simp only [List.append_eq, List.cons_append, List.singleton_append,
            List.nil_append, unquoteGo]
        rw [if_neg (by decide : ¬(' ' = '%'))]
        rw [if_pos (by decide : (' ').toNat < 0x80)]
        show unquoteGo f (32 :: acc) _ = _
        rw [ih (32 :: acc) f hbv (by simp at hf ⊢; omega)]
        rw [List.reverse_cons, List.append_assoc, List.singleton_append]
    · by_cases hsafe : isSafeByte b = true
      · have hne43 : b ≠ 43 := by
          intro hc
          subst hc
          exact absurd hsafe (by decide)
        have hne37 : b ≠ 37 := by
          intro hc
          subst hc
          exact absurd hsafe (by decide)
        have hrange : b < 128 := by
          simp only [isSafeByte, Bool.or_eq_true, Bool.and_eq_true,
            decide_eq_true_eq] at hsafe
          omega
        have htn : (Char.ofNat b).toNat = b :=
          char_toNat_ofNat b (Or.inl (by omega))
        have hqp : (quotePlusByte b).map (fun c => if c = '+' then ' ' else c)
            = [Char.ofNat b] := by
          rw [quotePlusByte, if_neg h32, if_pos hsafe]
          show [if Char.ofNat b = '+' then ' ' else Char.ofNat b] = [Char.ofNat b]
          rw [if_neg (fun hc => hne43 (by rw [← htn, hc]; rfl))]
        rw [hqp] at hf ⊢
        cases fuel with
        | zero => exact absurd hf (by simp)
        | succ f =>
          simp only [List.append_eq, List.cons_append, List.singleton_append,
            List.nil_append, unquoteGo]
          rw [if_neg (fun hc => hne37 (by rw [← htn, hc]; rfl))]
          rw [htn, if_pos (by omega : b < 0x80)]
          rw [ih (b :: acc) f hbv (by simp at hf ⊢; omega)]
          rw [List.reverse_cons, List.append_assoc, List.singleton_append]
      · have hqp : (quotePlusByte b).map (fun c => if c = '+' then ' ' else c)
            = ['%', hexDigitUpper (b / 16), hexDigitUpper (b % 16)] := by
          rw [quotePlusByte, if_neg h32, if_neg (by simpa using hsafe)]
          show [if '%' = '+' then ' ' else '%',
                if hexDigitUpper (b / 16) = '+' then ' ' else hexDigitUpper (b / 16),
                if hexDigitUpper (b % 16) = '+' then ' ' else hexDigitUpper (b % 16)]
              = _
          rw [if_neg (by decide : ¬('%' = '+')),
            if_neg (hexDigitUpper_ne_plus (b / 16) (by omega)),
            if_neg (hexDigitUpper_ne_plus (b % 16) (by omega))]
        rw [hqp] at hf ⊢
        cases fuel with
        | zero => exact absurd hf (by simp)
        | succ f =>
          simp only [List.append_eq, List.cons_append, List.singleton_append,
            List.nil_append, unquoteGo]
          rw [if_pos trivial]
          rw [hexVal_hexDigitUpper (b / 16) (by omega),
            hexVal_hexDigitUpper (b % 16) (by omega)]
          show unquoteGo f ((b / 16 * 16 + b % 16) :: acc) _ = _
          rw [show b / 16 * 16 + b % 16 = b from by omega]
          rw [ih (b :: acc) f hbv (by simp at hf ⊢; omega)]
          rw [List.reverse_cons, List.append_assoc, List.singleton_append]

theorem unquotePlus_quotePlus (s : PyStr) : unquotePlus (quotePlus s) = s := by
  rw [unquotePlus, quotePlus, pyUnquote]
  rw [unquoteGo_quoted (utf8Encode s) [] _ (utf8Encode_lt_256 s) (le_refl _)]
  rw [List.reverse_nil, List.nil_append]
  exact utf8_roundtrip s

theorem splitFirst_none (p : Char → Bool) :
    ∀ s : PyStr, (∀ x ∈ s, p x = false) → splitFirst p s = none := by
  intro s
  induction s with
  | nil => intro _; rfl
  | cons c rest ih =>
    intro h
    rw [splitFirst]
    rw [if_neg (by rw [h c (List.mem_cons_self _ _)]; simp)]
    rw [ih (fun x hx => h x (List.mem_cons_of_mem _ hx))]

theorem splitFirst_append (p : Char → Bool) (c0 : Char) :
    ∀ (a b : PyStr), (∀ x ∈ a, p x = false) → p c0 = true →
    splitFirst p (a ++ c0 :: b) = some (a, b) := by
  intro a
  induction a with
  | nil =>
    intro b _ hc
    rw [List.nil_append, splitFirst, if_pos hc]
  | cons c rest ih =>
    intro b h hc
    rw [List.cons_append, splitFirst]
    rw [if_neg (by rw [h c (List.mem_cons_self _ _)]; simp)]
    rw [ih b (fun x hx => h x (List.mem_cons_of_mem _ hx)) hc]

theorem splitFirst_eq_some (p : Char → Bool) :
    ∀ (s a b : PyStr), splitFirst p s = some (a, b) →
    ∃ c0, p c0 = true ∧ (∀ x ∈ a, p x = false) ∧ s = a ++ c0 :: b := by
  intro s
  induction s with
  | nil =>
    intro a b h
    exact absurd h (by rw [splitFirst]; simp)
  | cons c rest ih =>
    intro a b h
    rw [splitFirst] at h
    by_cases hc : p c = true
    · rw [if_pos hc, Option.some.injEq, Prod.mk.injEq] at h
      refine ⟨c, hc, ?_, ?_⟩
      · rw [← h.1]
        intro x hx
        exact absurd hx (List.not_mem_nil x)
      · rw [← h.1, ← h.2, List.nil_append]
    · rw [if_neg hc] at h
      cases hrec : splitFirst p rest with
      | none => rw [hrec] at h; exact absurd h (by simp)
      | some pr =>
        rw [hrec] at h
        rw [Option.some.injEq, Prod.mk.injEq] at h
        obtain ⟨c0, hc0, ha, hs⟩ := ih pr.1 pr.2 (by rw [hrec])
        refine ⟨c0, hc0, ?_, ?_⟩
        · rw [← h.1]
          intro x hx
          rcases List.mem_cons.mp hx with rfl | hx
          · rw [Bool.eq_false_iff]; exact hc
          · exact ha x hx
        · rw [← h.1, ← h.2, List.cons_append, hs]

theorem takeWhile_append_all (q : Char → Bool) :
    ∀ (a b : PyStr), (∀ x ∈ a, q x = true) →
    (a ++ b).takeWhile q = a ++ b.takeWhile q := by
  intro a
  induction a with
  | nil => intro b _; rw [List.nil_append, List.nil_append]
  | cons c rest ih =>
    intro b h
    rw [List.cons_append, List.takeWhile_cons, h c (List.mem_cons_self _ _)]
    rw [ih b (fun x hx => h x (List.mem_cons_of_mem _ hx))]
    rfl

theorem dropWhile_append_all (q : Char → Bool) :
    ∀ (a b : PyStr), (∀ x ∈ a, q x = true) →
    (a ++ b).dropWhile q = b.dropWhile q := by
  intro a
  induction a with
  | nil => intro b _; rw [List.nil_append]
  | cons c rest ih =>
    intro b h
    rw [List.cons_append, List.dropWhile_cons, h c (List.mem_cons_self _ _)]
    rw [ih b (fun x hx => h x (List.mem_cons_of_mem _ hx))]
    rfl

theorem takeWhile_head_false (q : Char → Bool) (c : Char) (b : PyStr)
    (hc : q c = false) : (c :: b).takeWhile q = [] := by
  rw [List.takeWhile_cons, hc]
  rfl

theorem dropWhile_head_false (q : Char → Bool) (c : Char) (b : PyStr)
    (hc : q c = false) : (c :: b).dropWhile q = c :: b := by
  rw [List.dropWhile_cons, hc]
  rfl

theorem takeWhile_all (q : Char → Bool) :
    ∀ (a : PyStr), (∀ x ∈ a, q x = true) → a.takeWhile q = a := by
  intro a
  induction a with
  | nil => intro _; rfl
  | cons c rest ih =>
    intro h
    rw [List.takeWhile_cons, h c (List.mem_cons_self _ _)]
    rw [ih (fun x hx => h x (List.mem_cons_of_mem _ hx))]
    rfl

theorem pySplitChar_no_sep (sep : Char) :
    ∀ (f : PyStr), (∀ x ∈ f, x ≠ sep) → pySplitChar sep f = [f] := by
  intro f
  induction f with
  | nil => intro _; rfl
  | cons c rest ih =>
    intro h
    rw [pySplitChar]
    rw [if_neg (h c (List.mem_cons_self _ _))]
    rw [ih (fun x hx => h x (List.mem_cons_of_mem _ hx))]

theorem pySplitChar_append (sep : Char) :
    ∀ (f rest : PyStr), (∀ x ∈ f, x ≠ sep) →
    pySplitChar sep (f ++ sep :: rest) = f :: pySplitChar sep rest := by
  intro f
  induction f with
  | nil =>
    intro rest _
    rw [List.nil_append, pySplitChar, if_pos rfl]
  | cons c frest ih =>
    intro rest h
    rw [List.cons_append, pySplitChar]
    rw [if_neg (h c (List.mem_cons_self _ _))]
    rw [ih rest (fun x hx => h x (List.mem_cons_of_mem _ hx))]

/-- No two adjacent slashes (the shape `collapseSlashes` guarantees). -/
theorem noDoubleSlash_cons_of (c : Char) (t : PyStr) (ht : noDoubleSlash t = true)
    (hcd : c = '/' → t.head? ≠ some '/') : noDoubleSlash (c :: t) = true := by
  cases t with
  | nil => rfl
  | cons d t' =>
    show (!(decide (c = '/') && decide (d = '/')) && noDoubleSlash (d :: t')) = true
    rw [ht, Bool.and_true]
    by_cases hc : c = '/'
    · have hd : d ≠ '/' := by
        intro hdc
        exact hcd hc (by rw [hdc]; rfl)
      simp [hc, hd]
    · simp [hc]

theorem noDoubleSlash_cons_elim (c : Char) (t : PyStr)
    (h : noDoubleSlash (c :: t) = true) :
    noDoubleSlash t = true ∧ (c = '/' → t.head? ≠ some '/') := by
  cases t with
  | nil => exact ⟨rfl, fun _ => by simp⟩
  | cons d t' =>
    have h' : (!(decide (c = '/') && decide (d = '/')) && noDoubleSlash (d :: t')) = true := h
    rw [Bool.and_eq_true] at h'
    refine ⟨h'.2, ?_⟩
    intro hc hd
    have hd' : d = '/' := by
      rw [List.head?_cons, Option.some.injEq] at hd
      exact hd
    have hcon := h'.1
    rw [hc, hd'] at hcon
    simp at hcon

theorem collapseGo_noop : ∀ (s : PyStr), noDoubleSlash s = true →
    collapseGo s false = s ∧ (s.head? ≠ some '/' → collapseGo s true = s) := by
  intro s
  induction s with
  | nil => exact fun _ => ⟨rfl, fun _ => rfl⟩
  | cons c t ih =>
    intro h
    obtain ⟨ht, hcd⟩ := noDoubleSlash_cons_elim c t h
    obtain ⟨ih1, ih2⟩ := ih ht
    constructor
    · rw [collapseGo]
      by_cases hc : c = '/'
      · rw [if_pos hc]
        show '/' :: collapseGo t true = c :: t
        rw [ih2 (hcd hc), hc]
      · rw [if_neg hc, ih1]
    · intro hhead
      have hc : c ≠ '/' := by
        intro hcc
        exact hhead (by rw [hcc]; rfl)
      rw [collapseGo, if_neg hc, ih1]

theorem collapseGo_ne_nil (c : Char) (t : PyStr) :
    collapseGo (c :: t) false ≠ [] := by
  rw [collapseGo]
  by_cases hc : c = '/'
  · rw [if_pos hc]
    simp
  · rw [if_neg hc]
    simp

theorem noDoubleSlash_collapseGo : ∀ (s : PyStr),
    (noDoubleSlash (collapseGo s false) = true) ∧
    (noDoubleSlash (collapseGo s true) = true ∧
      (collapseGo s true).head? ≠ some '/') := by
  intro s
  induction s with
  | nil => exact ⟨rfl, rfl, by simp [collapseGo]⟩
  | cons c t ih =>
    obtain ⟨ih1, ih2, ih3⟩ := ih
    by_cases hc : c = '/'
    · refine ⟨?_, ?_, ?_⟩
      · rw [collapseGo, if_pos hc]
        show noDoubleSlash ('/' :: collapseGo t true) = true
        exact noDoubleSlash_cons_of _ _ ih2 (fun _ => ih3)
      · rw [collapseGo, if_pos hc]
        exact ih2
      · rw [collapseGo, if_pos hc]
        exact ih3
    · have hstep : ∀ b : Bool, collapseGo (c :: t) b = c :: collapseGo t false := by
        intro b
        rw [collapseGo, if_neg hc]
      have hnds : noDoubleSlash (c :: collapseGo t false) = true := by
        refine noDoubleSlash_cons_of _ _ ih1 ?_
        intro hcc
        exact absurd hcc hc
      refine ⟨by rw [hstep]; exact hnds, by rw [hstep]; exact hnds, ?_⟩
      rw [hstep]
      intro hh
      rw [List.head?_cons, Option.some.injEq] at hh
      exact hc hh

theorem collapseSlashes_idem (s : PyStr) :
    collapseSlashes (collapseSlashes s) = collapseSlashes s :=
  (collapseGo_noop (collapseSlashes s) (noDoubleSlash_collapseGo s).1).1

theorem noDoubleSlash_append_left (a b : PyStr)
    (h : noDoubleSlash (a ++ b) = true) : noDoubleSlash a = true := by
  induction a with
  | nil => rfl
  | cons c t ih =>
    rw [List.cons_append] at h
    obtain ⟨ht, hcd⟩ := noDoubleSlash_cons_elim c (t ++ b) h
    refine noDoubleSlash_cons_of c t (ih ht) ?_
    intro hc hh
    apply hcd hc
    cases t with
    | nil => exact absurd hh (by simp)
    | cons d t' =>
      rw [List.head?_cons, Option.some.injEq] at hh
      rw [List.cons_append, List.head?_cons, Option.some.injEq]
      exact hh

theorem noDoubleSlash_append (a b : PyStr) (ha : noDoubleSlash a = true)
    (hb : noDoubleSlash b = true)
    (hab : ¬(a.getLast? = some '/' ∧ b.head? = some '/')) :
    noDoubleSlash (a ++ b) = true := by
  induction a with
  | nil => exact hb
  | cons c t ih =>
    obtain ⟨ht, hcd⟩ := noDoubleSlash_cons_elim c t ha
    rw [List.cons_append]
    refine noDoubleSlash_cons_of c (t ++ b) ?_ ?_
    · refine ih ht ?_
      intro hcon
      apply hab
      refine ⟨?_, hcon.2⟩
      cases t with
      | nil => exact absurd hcon.1 (by simp)
      | cons d t' =>
        rw [List.getLast?_cons_cons]
        exact hcon.1
    · intro hc
      cases t with
      | nil =>
        rw [List.nil_append]
        intro hh
        exact hab ⟨by rw [hc]; rfl, hh⟩
      | cons d t' =>
        rw [List.cons_append]
        intro hh
        rw [List.head?_cons, Option.some.injEq] at hh
        exact hcd hc (by rw [List.head?_cons, hh])

theorem noDoubleSlash_of_no_slash (l : PyStr) (h : ∀ x ∈ l, x ≠ '/') :
    noDoubleSlash l = true := by
  induction l with
  | nil => rfl
  | cons c t ih =>
    refine noDoubleSlash_cons_of c t (ih (fun x hx => h x (List.mem_cons_of_mem _ hx))) ?_
    intro hc
    exact absurd hc (h c (List.mem_cons_self _ _))

theorem getLast?_collapseGo : ∀ (s : PyStr) (f : Bool) (c : Char),
    s.getLast? = some c →
    (collapseGo s f).getLast? = some c ∨ (c = '/' ∧ collapseGo s f = []) := by
  intro s
  induction s with
  | nil => intro f c h; exact absurd h (by simp)
  | cons x t ih =>
    intro f c h
    cases t with
    | nil =>
      have hx' : x = c := by
        rw [List.getLast?_singleton, Option.some.injEq] at h
        exact h
      subst hx'
      rw [collapseGo]
      by_cases hx : x = '/'
      · rw [if_pos hx]
        cases f with
        | true => exact Or.inr ⟨hx, rfl⟩
        | false =>
          left
          rw [hx]
          rfl
      · rw [if_neg hx]
        left
        rfl
    | cons y t' =>
      have hlast : (y :: t').getLast? = some c := by
        rw [List.getLast?_cons_cons] at h
        exact h
      rw [collapseGo]
      by_cases hx : x = '/'
      · rw [if_pos hx]
        cases f with
        | true => exact ih true c hlast
        | false =>
          rcases ih true c hlast with hl | ⟨hc, hnil⟩
          · left
            cases hcg : collapseGo (y :: t') true with
            | nil => rw [hcg] at hl; exact absurd hl (by simp)
            | cons a b =>
              rw [hcg] at hl
              show List.getLast? ('/' :: a :: b) = some c
              rw [List.getLast?_cons_cons]
              exact hl
          · left
            rw [hnil, hc]
            rfl
      · rw [if_neg hx]
        rcases ih false c hlast with hl | ⟨hc, hnil⟩
        · left
          cases hcg : collapseGo (y :: t') false with
          | nil => rw [hcg] at hl; exact absurd hl (by simp)
          | cons a b =>
            rw [hcg] at hl
            rw [List.getLast?_cons_cons]
            exact hl
        · exact absurd hnil (collapseGo_ne_nil y t')

theorem isSafeByte_hexDigitUpper (n : Nat) (h : n < 16) :
    isSafeByte (hexDigitUpper n).toNat = true := by
  interval_cases n <;> decide

theorem quotePlus_class (s : PyStr) : ∀ ch ∈ quotePlus s,
    ch = '+' ∨ ch = '%' ∨ isSafeByte ch.toNat = true := by
  intro ch hch
  rw [quotePlus] at hch
  obtain ⟨b, hb, hmem⟩ := List.mem_flatMap.mp hch
  have hb256 := utf8Encode_lt_256 s b hb
  rw [quotePlusByte] at hmem
  split_ifs at hmem with h32 hsafe
  · left
    exact List.mem_singleton.mp hmem
  · right; right
    have hrange : b < 128 := by
      simp only [isSafeByte, Bool.or_eq_true, Bool.and_eq_true,
        decide_eq_true_eq] at hsafe
      omega
    rw [List.mem_singleton.mp hmem]
    rw [char_toNat_ofNat b (Or.inl (by omega))]
    exact hsafe
  · simp only [List.mem_cons, List.not_mem_nil, or_false] at hmem
    rcases hmem with rfl | rfl | rfl
    · right; left; rfl
    · right; right
      exact isSafeByte_hexDigitUpper (b / 16) (by omega)
    · right; right
      exact isSafeByte_hexDigitUpper (b % 16) (by omega)

theorem quotePlus_no_char (s : PyStr) (c0 : Char)
    (h1 : ¬c0 = '+') (h2 : ¬c0 = '%') (h3 : isSafeByte c0.toNat = false) :
    ∀ ch ∈ quotePlus s, ch ≠ c0 := by
  intro ch hch hc
  subst hc
  rcases quotePlus_class s ch hch with h | h | h
  · exact h1 h
  · exact h2 h
  · rw [h3] at h
    cases h

theorem quotePlus_no_tcl (s : PyStr) : ∀ ch ∈ quotePlus s,
    isTabCrLf ch = false := by
  intro ch hch
  rcases quotePlus_class s ch hch with h | h | h
  · rw [h]; decide
  · rw [h]; decide
  · rw [isTabCrLf]
    by_cases h9 : ch = '\t'
    · rw [h9] at h; exact absurd h (by decide)
    · by_cases h13 : ch = '\r'
      · rw [h13] at h; exact absurd h (by decide)
      · by_cases h10 : ch = '\n'
        · rw [h10] at h; exact absurd h (by decide)
        · simp [h9, h13, h10]

theorem field_ne_nil (k v : PyStr) : quotePlus k ++ '=' :: quotePlus v ≠ [] := by
  intro h
  rw [List.append_eq_nil] at h
  cases h.2

theorem field_no_amp (k v : PyStr) :
    ∀ ch ∈ quotePlus k ++ '=' :: quotePlus v, ch ≠ '&' := by
  intro ch hch
  rcases List.mem_append.mp hch with h | h
  · exact quotePlus_no_char k '&' (by decide) (by decide) (by decide) ch h
  · rcases List.mem_cons.mp h with rfl | h
    · decide
    · exact quotePlus_no_char v '&' (by decide) (by decide) (by decide) ch h

theorem intercalate_split (sep : Char) :
    ∀ (fields : List PyStr), fields ≠ [] →
    (∀ f ∈ fields, ∀ x ∈ f, x ≠ sep) →
    pySplitChar sep (List.intercalate [sep] fields) = fields := by
  intro fields
  induction fields with
  | nil => intro h _; exact absurd rfl h
  | cons f rest ih =>
    intro _ h
    cases rest with
    | nil =>
      have hone : List.intercalate [sep] [f] = f := by
        simp [List.intercalate, List.intersperse]
      rw [hone]
      exact pySplitChar_no_sep sep f (h f (List.mem_cons_self _ _))
    | cons g t =>
      have hstep : List.intercalate [sep] (f :: g :: t)
          = f ++ sep :: List.intercalate [sep] (g :: t) := by
        simp [List.intercalate, List.intersperse]
      rw [hstep]
      rw [pySplitChar_append sep f _ (h f (List.mem_cons_self _ _))]
      rw [ih (by simp) (fun x hx => h x (List.mem_cons_of_mem _ hx))]

theorem parseQsl_field (k v : PyStr) :
    (fun (field : PyStr) =>
      if field = [] then (none : Option (PyStr × PyStr))
      else match splitFirst (· = '=') field with
        | none => some (unquotePlus field, [])
        | some (n, v) => some (unquotePlus n, unquotePlus v))
      (quotePlus k ++ '=' :: quotePlus v) = some (k, v) := by
  show (if (quotePlus k ++ '=' :: quotePlus v : PyStr) = [] then
        (none : Option (PyStr × PyStr))
      else
        match splitFirst (· = '=') (quotePlus k ++ '=' :: quotePlus v) with
        | none => some (unquotePlus (quotePlus k ++ '=' :: quotePlus v), [])
        | some (n, v) => some (unquotePlus n, unquotePlus v))
      = some (k, v)
  rw [if_neg (field_ne_nil k v)]
  rw [splitFirst_append (· = '=') '=' (quotePlus k) (quotePlus v)
    (fun x hx => by
      have hne := quotePlus_no_char k '=' (by decide) (by decide) (by decide) x hx
      simp [hne])
    (by decide)]
  show some (unquotePlus (quotePlus k), unquotePlus (quotePlus v)) = some (k, v)
  rw [unquotePlus_quotePlus, unquotePlus_quotePlus]

theorem filterMap_fields (G : List (PyStr × List PyStr)) :
    (G.flatMap (fun kv => kv.2.map (fun v => quotePlus kv.1 ++ '=' :: quotePlus v))).filterMap
      (fun (field : PyStr) =>
        if field = [] then (none : Option (PyStr × PyStr))
        else match splitFirst (· = '=') field with
          | none => some (unquotePlus field, [])
          | some (n, v) => some (unquotePlus n, unquotePlus v))
    = ungroup G := by
  induction G with
  | nil => rfl
  | cons kv G' ih =>
    rw [List.flatMap_cons, List.filterMap_append, ih]
    show _ ++ ungroup G' = ungroup (kv :: G')
    rw [ungroup, ungroup, List.flatMap_cons]
    congr 1
    induction kv.2 with
    | nil => rfl
    | cons v vs ihv =>
      rw [List.map_cons, List.map_cons]
      have hstep := filterMapConsSome
        (fun (field : PyStr) =>
          if field = [] then (none : Option (PyStr × PyStr))
          else match splitFirst (· = '=') field with
            | none => some (unquotePlus field, [])
            | some (n, v) => some (unquotePlus n, unquotePlus v))
        (quotePlus kv.1 ++ '=' :: quotePlus v) (kv.1, v)
        (vs.map (fun v => quotePlus kv.1 ++ '=' :: quotePlus v))
        (parseQsl_field kv.1 v)
      rw [hstep, ihv]

theorem parseQsl_urlencode (G : List (PyStr × List PyStr))
    (hne : G ≠ []) (hvals : ∀ kv ∈ G, kv.2 ≠ []) :
    parseQsl (urlencodeDoseq G) = ungroup G := by
  have hfields : ∀ f ∈ G.flatMap
      (fun kv => kv.2.map (fun v => quotePlus kv.1 ++ '=' :: quotePlus v)),
      ∃ k v, f = quotePlus k ++ '=' :: quotePlus v := by
    intro f hf
    obtain ⟨kv, _, hm⟩ := List.mem_flatMap.mp hf
    obtain ⟨v, _, hv⟩ := List.mem_map.mp hm
    exact ⟨kv.1, v, hv.symm⟩
  have hfne : G.flatMap
      (fun kv => kv.2.map (fun v => quotePlus kv.1 ++ '=' :: quotePlus v)) ≠ [] := by
    cases G with
    | nil => exact absurd rfl hne
    | cons kv G' =>
      cases hv : kv.2 with
      | nil => exact absurd hv (hvals kv (List.mem_cons_self _ _))
      | cons v vs =>
        rw [List.flatMap_cons, hv]
        simp
  have hsplit := intercalate_split '&' _ hfne (by
    intro f hf x hx
    obtain ⟨k, v, rfl⟩ := hfields f hf
    exact field_no_amp k v x hx)
  have hqsne : urlencodeDoseq G ≠ [] := by
    rw [urlencodeDoseq]
    cases hfl : G.flatMap
        (fun kv => kv.2.map (fun v => quotePlus kv.1 ++ '=' :: quotePlus v)) with
    | nil => exact absurd hfl hfne
    | cons f rest =>
      obtain ⟨k, v, rfl⟩ := hfields f (by rw [hfl]; exact List.mem_cons_self _ _)
      cases rest with
      | nil =>
        have hone : List.intercalate ['&'] [quotePlus k ++ '=' :: quotePlus v]
            = quotePlus k ++ '=' :: quotePlus v := by
          simp [List.intercalate, List.intersperse]
        rw [hone]
        exact field_ne_nil k v
      | cons g t =>
        have hstep : List.intercalate ['&'] ((quotePlus k ++ '=' :: quotePlus v) :: g :: t)
            = (quotePlus k ++ '=' :: quotePlus v) ++ '&' :: List.intercalate ['&'] (g :: t) := by
          simp [List.intercalate, List.intersperse]
        rw [hstep]
        intro hc
        rw [List.append_eq_nil] at hc
        cases hc.2
  rw [parseQsl, if_neg hqsne, urlencodeDoseq, hsplit]
  exact filterMap_fields G

theorem groupInsert_fresh (k v : PyStr) :
    ∀ (acc : List (PyStr × List PyStr)), (∀ kv ∈ acc, kv.1 ≠ k) →
    groupInsert k v acc = acc ++ [(k, [v])] := by
  intro acc
  induction acc with
  | nil => intro _; rfl
  | cons kv rest ih =>
    intro h
    obtain ⟨k', vs⟩ := kv
    rw [groupInsert]
    rw [if_neg (h (k', vs) (List.mem_cons_self _ _))]
    rw [ih (fun x hx => h x (List.mem_cons_of_mem _ hx))]
    rfl

theorem groupInsert_found (k v : PyStr) :
    ∀ (pre : List (PyStr × List PyStr)) (vs0 : List PyStr),
      (∀ kv ∈ pre, kv.1 ≠ k) →
      groupInsert k v (pre ++ [(k, vs0)]) = pre ++ [(k, vs0 ++ [v])] := by
  intro pre
  induction pre with
  | nil =>
    intro vs0 _
    show groupInsert k v [(k, vs0)] = [(k, vs0 ++ [v])]
    rw [groupInsert, if_pos rfl]
  | cons kv rest ih =>
    intro vs0 h
    obtain ⟨k', vs'⟩ := kv
    rw [List.cons_append, groupInsert]
    rw [if_neg (h (k', vs') (List.mem_cons_self _ _))]
    rw [ih vs0 (fun x hx => h x (List.mem_cons_of_mem _ hx))]
    rfl

theorem vals_fold (k : PyStr) :
    ∀ (vs : List PyStr) (pre : List (PyStr × List PyStr)) (vs0 : List PyStr),
      (∀ kv ∈ pre, kv.1 ≠ k) →
      vs.foldl (fun a v => groupInsert k v a) (pre ++ [(k, vs0)])
        = pre ++ [(k, vs0 ++ vs)] := by
  intro vs
  induction vs with
  | nil =>
    intro pre vs0 _
    rw [List.foldl_nil, List.append_nil]
  | cons v vs ih =>
    intro pre vs0 h
    rw [List.foldl_cons, groupInsert_found k v pre vs0 h, ih pre _ h]
    rw [List.append_assoc, List.singleton_append]

theorem regroup : ∀ (G acc : List (PyStr × List PyStr)),
    ((acc ++ G).map Prod.fst).Nodup → (∀ kv ∈ G, kv.2 ≠ []) →
    (ungroup G).foldl (fun a kv => groupInsert kv.1 kv.2 a) acc = acc ++ G := by
  intro G
  induction G with
  | nil =>
    intro acc _ _
    rw [ungroup, List.flatMap_nil, List.foldl_nil, List.append_nil]
  | cons kv G' ih =>
    intro acc hnd hvals
    obtain ⟨k, vs⟩ := kv
    have hacck : ∀ x ∈ acc, x.1 ≠ k := by
      intro x hx hxk
      rw [List.map_append] at hnd
      have hdisj := List.disjoint_of_nodup_append hnd
      have h1 : k ∈ List.map Prod.fst acc := by
        rw [← hxk]
        exact List.mem_map_of_mem Prod.fst hx
      have h2 : k ∈ List.map Prod.fst ((k, vs) :: G') := by
        rw [List.map_cons]
        exact List.mem_cons_self _ _
      exact hdisj h1 h2
    rw [ungroup, List.flatMap_cons, List.foldl_append]
    have hfold : (List.map (fun v => ((k, vs).1, v)) (k, vs).2).foldl
        (fun a kv => groupInsert kv.1 kv.2 a) acc = acc ++ [(k, vs)] := by
      rw [List.foldl_map]
      cases hvs : vs with
      | nil => exact absurd hvs (hvals (k, vs) (List.mem_cons_self _ _))
      | cons v vs' =>
        show (v :: vs').foldl (fun a v => groupInsert k v a) acc = acc ++ [(k, v :: vs')]
        rw [List.foldl_cons, groupInsert_fresh k v acc hacck]
        exact vals_fold k vs' acc [v] hacck
    rw [hfold]
    have hnd' : (((acc ++ [(k, vs)]) ++ G').map Prod.fst).Nodup := by
      rw [List.append_assoc, List.singleton_append]
      exact hnd
    have hih := ih (acc ++ [(k, vs)]) hnd'
      (fun x hx => hvals x (List.mem_cons_of_mem _ hx))
    have happ : acc ++ [(k, vs)] ++ G' = acc ++ (k, vs) :: G' := by
      rw [List.append_assoc, List.singleton_append]
    rw [← happ]
    exact hih

theorem groupInsert_keys_sub (k v : PyStr) :
    ∀ (acc : List (PyStr × List PyStr)) (x : PyStr),
      x ∈ (groupInsert k v acc).map Prod.fst → x = k ∨ x ∈ acc.map Prod.fst := by
  intro acc
  induction acc with
  | nil =>
    intro x hx
    left
    have hxx : x ∈ [(k, [v])].map Prod.fst := hx
    rw [List.map_cons, List.map_nil] at hxx
    exact List.mem_singleton.mp hxx
  | cons kv rest ih =>
    intro x hx
    obtain ⟨k', vs'⟩ := kv
    rw [groupInsert] at hx
    by_cases hk : k' = k
    · rw [if_pos hk, List.map_cons] at hx
      rcases List.mem_cons.mp hx with rfl | hx
      · right
        rw [List.map_cons]
        exact List.mem_cons_self _ _
      · right
        rw [List.map_cons]
        exact List.mem_cons_of_mem _ hx
    · rw [if_neg hk, List.map_cons] at hx
      rcases List.mem_cons.mp hx with rfl | hx
      · right
        rw [List.map_cons]
        exact List.mem_cons_self _ _
      · rcases ih x hx with rfl | hx
        · left; rfl
        · right
          rw [List.map_cons]
          exact List.mem_cons_of_mem _ hx

theorem groupInsert_wf (k v : PyStr) :
    ∀ (acc : List (PyStr × List PyStr)),
      (acc.map Prod.fst).Nodup → (∀ kv ∈ acc, kv.2 ≠ []) →
      ((groupInsert k v acc).map Prod.fst).Nodup ∧
        (∀ kv ∈ groupInsert k v acc, kv.2 ≠ []) := by
  intro acc
  induction acc with
  | nil =>
    intro _ _
    refine ⟨?_, ?_⟩
    · show ([(k, [v])].map Prod.fst).Nodup
      simp
    · intro kv hkv
      have hkvx : kv ∈ [(k, [v])] := hkv
      rw [List.mem_singleton.mp hkvx]
      simp
  | cons kv0 rest ih =>
    intro hnd hvals
    obtain ⟨k', vs'⟩ := kv0
    rw [List.map_cons, List.nodup_cons] at hnd
    by_cases hk : k' = k
    · rw [groupInsert, if_pos hk]
      refine ⟨?_, ?_⟩
      · rw [List.map_cons, List.nodup_cons]
        exact ⟨hnd.1, hnd.2⟩
      · intro kv hkv
        rcases List.mem_cons.mp hkv with rfl | hkv
        · simp
        · exact hvals kv (List.mem_cons_of_mem _ hkv)
    · rw [groupInsert, if_neg hk]
      obtain ⟨ihn, ihv⟩ := ih hnd.2 (fun x hx => hvals x (List.mem_cons_of_mem _ hx))
      refine ⟨?_, ?_⟩
      · rw [List.map_cons, List.nodup_cons]
        refine ⟨?_, ihn⟩
        intro hmem
        rcases groupInsert_keys_sub k v rest k' hmem with rfl | hmem
        · exact hk rfl
        · exact hnd.1 hmem
      · intro kv hkv
        rcases List.mem_cons.mp hkv with rfl | hkv
        · exact hvals (k', vs') (List.mem_cons_self _ _)
        · exact ihv kv hkv

theorem foldl_groupInsert_wf :
    ∀ (l : List (PyStr × PyStr)) (acc : List (PyStr × List PyStr)),
      (acc.map Prod.fst).Nodup → (∀ kv ∈ acc, kv.2 ≠ []) →
      (((l.foldl (fun a kv => groupInsert kv.1 kv.2 a) acc).map Prod.fst).Nodup ∧
        (∀ kv ∈ l.foldl (fun a kv => groupInsert kv.1 kv.2 a) acc, kv.2 ≠ [])) := by
  intro l
  induction l with
  | nil => intro acc h1 h2; exact ⟨h1, h2⟩
  | cons kv l ih =>
    intro acc h1 h2
    rw [List.foldl_cons]
    obtain ⟨g1, g2⟩ := groupInsert_wf kv.1 kv.2 acc h1 h2
    exact ih _ g1 g2

theorem parseQs_wf (q : PyStr) :
    ((parseQs q).map Prod.fst).Nodup ∧ (∀ kv ∈ parseQs q, kv.2 ≠ []) := by
  rw [parseQs]
  exact foldl_groupInsert_wf (parseQsl q) []
    (by simp) (fun kv hkv => absurd hkv (List.not_mem_nil kv))

theorem grouped_filter_wf (G : List (PyStr × List PyStr))
    (p : PyStr × List PyStr → Bool)
    (hnd : (G.map Prod.fst).Nodup) (hvals : ∀ kv ∈ G, kv.2 ≠ []) :
    (((G.filter p).map Prod.fst).Nodup) ∧ (∀ kv ∈ G.filter p, kv.2 ≠ []) := by
  constructor
  · exact List.Nodup.sublist (List.Sublist.map Prod.fst (List.filter_sublist G)) hnd
  · intro kv hkv
    exact hvals kv (List.mem_of_mem_filter hkv)

theorem ungroup_groupInsert_perm (k v : PyStr) :
    ∀ (acc : List (PyStr × List PyStr)),
      (ungroup (groupInsert k v acc)).Perm ((k, v) :: ungroup acc) := by
  intro acc
  induction acc with
  | nil =>
    show (ungroup [(k, [v])]).Perm ((k, v) :: ungroup [])
    rw [ungroup, ungroup]
    simp
  | cons kv rest ih =>
    obtain ⟨k', vs'⟩ := kv
    rw [groupInsert]
    by_cases hk : k' = k
    · rw [if_pos hk, hk]
      rw [ungroup, ungroup, List.flatMap_cons, List.flatMap_cons]
      show ((vs' ++ [v]).map (fun w => (k, w)) ++ _).Perm _
      rw [List.map_append, List.map_cons, List.map_nil, List.append_assoc,
        List.singleton_append]
      exact List.perm_middle
    · rw [if_neg hk]
      rw [ungroup, ungroup, List.flatMap_cons, List.flatMap_cons]
      refine List.Perm.trans (List.Perm.append_left _ ?_) List.perm_middle
      exact ih

theorem ungroup_foldl_perm :
    ∀ (l : List (PyStr × PyStr)) (acc : List (PyStr × List PyStr)),
      (ungroup (l.foldl (fun a kv => groupInsert kv.1 kv.2 a) acc)).Perm
        (ungroup acc ++ l) := by
  intro l
  induction l with
  | nil =>
    intro acc
    rw [List.foldl_nil, List.append_nil]
  | cons kv l ih =>
    intro acc
    rw [List.foldl_cons]
    refine (ih _).trans ?_
    refine List.Perm.trans
      (List.Perm.append_right l (ungroup_groupInsert_perm kv.1 kv.2 acc)) ?_
    rw [List.cons_append]
    exact List.perm_middle.symm

theorem ungroup_parseQs_perm (q : PyStr) :
    (ungroup (parseQs q)).Perm (parseQsl q) := by
  rw [parseQs]
  refine (ungroup_foldl_perm (parseQsl q) []).trans ?_
  rw [ungroup, List.flatMap_nil, List.nil_append]

theorem filter_const_key (p : PyStr → Bool) (k : PyStr) :
    ∀ (vs : List PyStr),
      (vs.map (fun w => (k, w))).filter (fun kv => p kv.1)
        = if p k = true then vs.map (fun w => (k, w)) else [] := by
  intro vs
  induction vs with
  | nil =>
    by_cases hp : p k = true
    · simp [hp]
    · simp [hp]
  | cons w ws ih =>
    rw [List.map_cons, List.filter_cons]
    by_cases hp : p k = true
    · rw [if_pos hp] at ih
      rw [ih, if_pos hp, if_pos hp]
    · rw [if_neg hp] at ih
      rw [ih, if_neg hp, if_neg hp]

theorem ungroup_filter_key (p : PyStr → Bool) :
    ∀ (G : List (PyStr × List PyStr)),
      ungroup (G.filter (fun kv => p kv.1)) = (ungroup G).filter (fun kv => p kv.1) := by
  intro G
  induction G with
  | nil => rfl
  | cons kv G' ih =>
    obtain ⟨k, vs⟩ := kv
    rw [List.filter_cons]
    by_cases hp : p k = true
    · rw [if_pos hp]
      rw [ungroup, ungroup, List.flatMap_cons, List.flatMap_cons,
        List.filter_append]
      rw [show ((k, vs).2.map (fun w => ((k, vs).1, w))).filter (fun kv => p kv.1)
          = vs.map (fun w => (k, w)) from by
        rw [filter_const_key p k vs, if_pos hp]]
      rw [show ((G'.filter (fun kv => p kv.1)).flatMap
            (fun kv => kv.2.map (fun w => (kv.1, w))))
          = (ungroup G').filter (fun kv => p kv.1) from ih]
      rfl
    · rw [if_neg hp]
      rw [ungroup, ungroup, List.flatMap_cons, List.filter_append]
      rw [show ((k, vs).2.map (fun w => ((k, vs).1, w))).filter (fun kv => p kv.1)
          = ([] : List (PyStr × PyStr)) from by
        rw [filter_const_key p k vs, if_neg hp]]
      rw [List.nil_append]
      exact ih

theorem isAsciiUpperCh_iff (c : Char) :
    isAsciiUpperCh c = true ↔ (65 ≤ c.toNat ∧ c.toNat ≤ 90) := by
  rw [isAsciiUpperCh, Bool.and_eq_true, decide_eq_true_eq, decide_eq_true_eq]
  exact Iff.rfl

theorem pyLowerChar_eq (c : Char) :
    (isAsciiUpperCh c = true ∧ pyLowerChar c = Char.ofNat (c.toNat + 32)) ∨
    (isAsciiUpperCh c = false ∧ pyLowerChar c = c) := by
  by_cases h : isAsciiUpperCh c = true
  · left
    exact ⟨h, by rw [pyLowerChar, if_pos h]⟩
  · right
    exact ⟨Bool.not_eq_true _ ▸ Bool.eq_false_iff.mpr h, by rw [pyLowerChar, if_neg h]⟩

theorem pyLowerChar_toNat (c : Char) (h : isAsciiUpperCh c = true) :
    (pyLowerChar c).toNat = c.toNat + 32 := by
  rw [pyLowerChar, if_pos h]
  have hr := (isAsciiUpperCh_iff c).mp h
  exact char_toNat_ofNat _ (Or.inl (by omega))

theorem pyLowerChar_idem (c : Char) : pyLowerChar (pyLowerChar c) = pyLowerChar c := by
  by_cases h : isAsciiUpperCh c = true
  · have ht := pyLowerChar_toNat c h
    have hr := (isAsciiUpperCh_iff c).mp h
    have hnot : isAsciiUpperCh (pyLowerChar c) = false := by
      rw [Bool.eq_false_iff]
      intro hc
      have := (isAsciiUpperCh_iff _).mp hc
      omega
    rw [pyLowerChar, if_neg (by rw [hnot]; simp)]
  · have he : pyLowerChar c = c := by rw [pyLowerChar, if_neg h]
    rw [he, he]

theorem pyLower_idem (s : PyStr) : pyLower (pyLower s) = pyLower s := by
  rw [pyLower, pyLower, List.map_map]
  refine List.map_congr_left ?_
  intro c _
  exact pyLowerChar_idem c

theorem pyLowerChar_ne_special (c d : Char)
    (hd : d.toNat < 65 ∨ (90 < d.toNat ∧ d.toNat < 97) ∨ 122 < d.toNat)
    (hc : c ≠ d) : pyLowerChar c ≠ d := by
  by_cases h : isAsciiUpperCh c = true
  · have ht := pyLowerChar_toNat c h
    have hr := (isAsciiUpperCh_iff c).mp h
    intro he
    rw [← he] at hd
    omega
  · rw [pyLowerChar, if_neg h]
    exact hc

theorem pyLowerChar_eq_special (c d : Char)
    (hd : d.toNat < 65 ∨ (90 < d.toNat ∧ d.toNat < 97) ∨ 122 < d.toNat) :
    pyLowerChar c = d ↔ c = d := by
  constructor
  · intro h
    by_contra hc
    exact pyLowerChar_ne_special c d hd hc h
  · intro h
    subst h
    by_cases hu : isAsciiUpperCh c = true
    · have hr := (isAsciiUpperCh_iff c).mp hu
      exact absurd hr (by omega)
    · rw [pyLowerChar, if_neg hu]

theorem mem_pyLower_special (s : PyStr) (d : Char)
    (hd : d.toNat < 65 ∨ (90 < d.toNat ∧ d.toNat < 97) ∨ 122 < d.toNat) :
    d ∈ pyLower s ↔ d ∈ s := by
  rw [pyLower]
  constructor
  · intro h
    obtain ⟨c, hc, hcd⟩ := List.mem_map.mp h
    rw [← (pyLowerChar_eq_special c d hd).mp hcd]
    exact (pyLowerChar_eq_special c d hd).mp hcd ▸ hc
  · intro h
    refine List.mem_map.mpr ⟨d, h, ?_⟩
    exact (pyLowerChar_eq_special d d hd).mpr rfl

theorem query_idem (q : PyStr)
    (hnd : ((parseQs q).map Prod.fst).Nodup)
    (hvals : ∀ kv ∈ parseQs q, kv.2 ≠ [])
    (hne : (parseQs q).filter (fun kv => !isTrackingKey kv.1) ≠ []) :
    parseQs (urlencodeDoseq ((parseQs q).filter (fun kv => !isTrackingKey kv.1)))
      = (parseQs q).filter (fun kv => !isTrackingKey kv.1) := by
  obtain ⟨gnd, gvals⟩ := grouped_filter_wf (parseQs q) (fun kv => !isTrackingKey kv.1) hnd hvals
  rw [parseQs,
    parseQsl_urlencode
      ((parseQs q).filter (fun kv : PyStr × List PyStr => !isTrackingKey kv.1))
      hne gvals]
  have h0 : (([] ++ (parseQs q).filter
      (fun kv : PyStr × List PyStr => !isTrackingKey kv.1)).map
      Prod.fst).Nodup := by
    rw [List.nil_append]
    exact gnd
  rw [regroup
      ((parseQs q).filter (fun kv : PyStr × List PyStr => !isTrackingKey kv.1))
      [] h0 gvals,
    List.nil_append]

theorem filter_tracking_stable (G : List (PyStr × List PyStr)) :
    (G.filter (fun kv => !isTrackingKey kv.1)).filter (fun kv => !isTrackingKey kv.1)
      = G.filter (fun kv => !isTrackingKey kv.1) := by
  refine List.filter_eq_self.mpr ?_
  intro kv hkv
  exact @List.of_mem_filter _ (fun kv => !isTrackingKey kv.1) kv G hkv

theorem splitFirst_eq_none (p : Char → Bool) :
    ∀ s : PyStr, splitFirst p s = none → ∀ x ∈ s, p x = false := by
  intro s
  induction s with
  | nil => intro _ x hx; exact absurd hx (List.not_mem_nil x)
  | cons c rest ih =>
    intro h x hx
    rw [splitFirst] at h
    by_cases hc : p c = true
    · rw [if_pos hc] at h
      cases h
    · rw [if_neg hc] at h
      rcases List.mem_cons.mp hx with rfl | hx
      · exact Bool.eq_false_iff.mpr hc
      · cases hrec : splitFirst p rest with
        | none => exact ih hrec x hx
        | some pr =>
          rw [hrec] at h
          cases h

theorem splitFirst_append_ge (p : Char → Bool) (c0 : Char) (hc : p c0 = true) :
    ∀ (x y : PyStr), ∃ a b, splitFirst p (x ++ c0 :: y) = some (a, b) ∧
      y.length ≤ b.length := by
  intro x
  induction x with
  | nil =>
    intro y
    refine ⟨[], y, ?_, le_refl _⟩
    rw [List.nil_append, splitFirst, if_pos hc]
  | cons d x' ih =>
    intro y
    by_cases hd : p d = true
    · refine ⟨[], x' ++ c0 :: y, ?_, ?_⟩
      · rw [List.cons_append, splitFirst, if_pos hd]
      · rw [List.length_append, List.length_cons]
        omega
    · obtain ⟨a, b, hs, hl⟩ := ih y
      refine ⟨d :: a, b, ?_, hl⟩
      rw [List.cons_append, splitFirst, if_neg hd, hs]

theorem takeWhile_eq_nil_cases (q : Char → Bool) (l : PyStr)
    (h : l.takeWhile q = []) : l = [] ∨ ∃ c t, l = c :: t ∧ q c = false := by
  cases l with
  | nil => exact Or.inl rfl
  | cons c t =>
    right
    refine ⟨c, t, rfl, ?_⟩
    by_cases hc : q c = true
    · rw [List.takeWhile_cons, hc] at h
      cases h
    · exact Bool.eq_false_iff.mpr hc

theorem revseg_decomp (url : PyStr) :
    url.take (url.length - ((url.reverse.takeWhile (· ≠ '/')).reverse).length)
      ++ (url.reverse.takeWhile (· ≠ '/')).reverse = url := by
  have hsplit : url = (url.reverse.dropWhile (· ≠ '/')).reverse
      ++ (url.reverse.takeWhile (· ≠ '/')).reverse := by
    have h1 : url.reverse.takeWhile (· ≠ '/') ++ url.reverse.dropWhile (· ≠ '/')
        = url.reverse := List.takeWhile_append_dropWhile _ _
    have h2 := congrArg List.reverse h1
    rw [List.reverse_append, List.reverse_reverse] at h2
    exact h2.symm
  have hlen : url.length - ((url.reverse.takeWhile (· ≠ '/')).reverse).length
      = ((url.reverse.dropWhile (· ≠ '/')).reverse).length := by
    have := congrArg List.length hsplit
    rw [List.length_append] at this
    omega
  rw [hlen]
  generalize hT : (url.reverse.takeWhile (· ≠ '/')).reverse = T at hsplit ⊢
  generalize hD : (url.reverse.dropWhile (· ≠ '/')).reverse = D at hsplit ⊢
  rw [hsplit, List.take_left]

theorem lastSeg_getLast (url : PyStr)
    (h : (url.reverse.takeWhile (· ≠ '/')).reverse ≠ []) :
    ((url.reverse.takeWhile (· ≠ '/')).reverse).getLast? = url.getLast? := by
  rw [← List.head?_reverse, List.reverse_reverse, ← List.head?_reverse]
  have hT : url.reverse.takeWhile (· ≠ '/') ≠ [] := by
    intro hc
    rw [hc] at h
    simp at h
  cases hr : url.reverse with
  | nil =>
    rw [hr] at hT
    exact absurd rfl hT
  | cons c t =>
    rw [hr, List.takeWhile_cons] at hT
    rw [List.takeWhile_cons]
    by_cases hc : c = '/'
    · rw [if_neg (show ¬(decide (c ≠ '/') = true) from by simp [hc])] at hT
      exact absurd rfl hT
    · rw [if_pos (show decide (c ≠ '/') = true from by simp [hc])]
      rfl

theorem collapseGo_mem : ∀ (s : PyStr) (f : Bool) (c : Char),
    c ∈ collapseGo s f → c ∈ s := by
  intro s
  induction s with
  | nil => intro f c h; exact absurd h (by simp [collapseGo] at h)
  | cons d t ih =>
    intro f c h
    rw [collapseGo] at h
    by_cases hd : d = '/'
    · rw [if_pos hd] at h
      cases f with
      | true => exact List.mem_cons_of_mem _ (ih true c h)
      | false =>
        rcases List.mem_cons.mp h with rfl | h
        · rw [hd]; exact List.mem_cons_self _ _
        · exact List.mem_cons_of_mem _ (ih true c h)
    · rw [if_neg hd] at h
      rcases List.mem_cons.mp h with rfl | h
      · exact List.mem_cons_self _ _
      · exact List.mem_cons_of_mem _ (ih false c h)

theorem splitParamsPy_props (url : PyStr) :
    (splitParamsPy url = (url, []) ∧ (splitParamsPy url).2 = []) ∨
    (url = (splitParamsPy url).1 ++ ';' :: (splitParamsPy url).2 ∧
      (∀ x ∈ (splitParamsPy url).1, x ∈ url) ∧
      (∀ x ∈ (splitParamsPy url).2, x ∈ url)) := by
  simp only [splitParamsPy]
  by_cases hsl : url.contains '/' = true
  · rw [if_pos hsl]
    cases hsp : splitFirst (· = ';') (url.reverse.takeWhile (· ≠ '/')).reverse with
    | none => exact Or.inl ⟨rfl, rfl⟩
    | some pr =>
      right
      obtain ⟨c0, hc0, _, hseg⟩ := splitFirst_eq_some _ _ pr.1 pr.2 (by rw [hsp])
      have hc0' : c0 = ';' := by
        rw [decide_eq_true_eq] at hc0
        exact hc0
      subst hc0'
      have hurl := revseg_decomp url
      constructor
      · show url = url.take _ ++ pr.1 ++ ';' :: pr.2
        rw [List.append_assoc, ← hseg]
        exact hurl.symm
      constructor
      · intro x hx
        show x ∈ url
        rcases List.mem_append.mp hx with hx | hx
        · rw [← hurl]
          exact List.mem_append.mpr (Or.inl hx)
        · rw [← hurl]
          refine List.mem_append.mpr (Or.inr ?_)
          rw [hseg]
          exact List.mem_append.mpr (Or.inl hx)
      · intro x hx
        rw [← hurl]
        refine List.mem_append.mpr (Or.inr ?_)
        rw [hseg]
        exact List.mem_append.mpr (Or.inr (List.mem_cons_of_mem _ hx))
  · rw [if_neg hsl]
    cases hsp : splitFirst (· = ';') url with
    | none => exact Or.inl ⟨rfl, rfl⟩
    | some pr =>
      right
      obtain ⟨c0, hc0, _, hseg⟩ := splitFirst_eq_some _ _ pr.1 pr.2 (by rw [hsp])
      have hc0' : c0 = ';' := by
        rw [decide_eq_true_eq] at hc0
        exact hc0
      subst hc0'
      refine ⟨hseg, ?_, ?_⟩
      · intro x hx
        rw [hseg]
        exact List.mem_append.mpr (Or.inl hx)
      · intro x hx
        rw [hseg]
        exact List.mem_append.mpr (Or.inr (List.mem_cons_of_mem _ hx))

theorem dropWhile_nil_or_head (q : Char → Bool) :
    ∀ l : PyStr, l.dropWhile q = [] ∨
      ∃ c t, l.dropWhile q = c :: t ∧ q c = false := by
  intro l
  induction l with
  | nil => exact Or.inl rfl
  | cons c t ih =>
    rw [List.dropWhile_cons]
    by_cases hc : q c = true
    · rw [if_pos hc]
      exact ih
    · rw [if_neg hc]
      exact Or.inr ⟨c, t, rfl, Bool.eq_false_iff.mpr hc⟩

theorem head_take (k : Nat) (l : PyStr) (hk : 0 < k) :
    (l.take k).head? = l.head? := by
  cases l with
  | nil => rw [List.take_nil]
  | cons c t =>
    cases k with
    | zero => exact absurd hk (by omega)
    | succ k => rfl

theorem splitPair_facts (sep : Char) (r : PyStr) (a b : PyStr)
    (h : (match splitFirst (· = sep) r with
          | none => (r, ([] : PyStr))
          | some (a, b) => (a, b)) = (a, b)) :
    (∀ c ∈ a, ¬(c = sep)) ∧ (∀ c ∈ a, c ∈ r) ∧ (∀ c ∈ b, c ∈ r) ∧
    (a ≠ [] → a.head? = r.head?) := by
  cases hs : splitFirst (· = sep) r with
  | none =>
    rw [hs] at h
    have h' : (r, ([] : PyStr)) = (a, b) := h
    rw [Prod.mk.injEq] at h'
    obtain ⟨rfl, rfl⟩ := h'
    refine ⟨?_, fun c hc => hc, fun c hc => absurd hc (List.not_mem_nil c),
      fun _ => rfl⟩
    intro c hc
    have hcc := splitFirst_eq_none _ r hs c hc
    exact of_decide_eq_false hcc
  | some pr =>
    obtain ⟨a0, b0⟩ := pr
    rw [hs] at h
    have h' : (a0, b0) = (a, b) := h
    rw [Prod.mk.injEq] at h'
    obtain ⟨rfl, rfl⟩ := h'
    obtain ⟨c0, hc0, hfree, hdec⟩ := splitFirst_eq_some _ r a0 b0 hs
    have hc0' : c0 = sep := of_decide_eq_true hc0
    subst hc0'
    refine ⟨?_, ?_, ?_, ?_⟩
    · intro c hc
      exact of_decide_eq_false (hfree c hc)
    · intro c hc
      rw [hdec]
      exact List.mem_append.mpr (Or.inl hc)
    · intro c hc
      rw [hdec]
      exact List.mem_append.mpr (Or.inr (List.mem_cons_of_mem _ hc))
    · intro hane
      rw [hdec]
      exact (List.head?_append_of_ne_nil a0 hane).symm

theorem take_pre_eq (url : PyStr) :
    url.take (url.length - ((url.reverse.takeWhile (· ≠ '/')).reverse).length)
      = (url.reverse.dropWhile (· ≠ '/')).reverse := by
  have h1 : url.reverse.takeWhile (· ≠ '/') ++ url.reverse.dropWhile (· ≠ '/')
      = url.reverse := List.takeWhile_append_dropWhile _ _
  have h2 := congrArg List.reverse h1
  rw [List.reverse_append, List.reverse_reverse] at h2
  have hlen : url.length - ((url.reverse.takeWhile (· ≠ '/')).reverse).length
      = ((url.reverse.dropWhile (· ≠ '/')).reverse).length := by
    have h3 := congrArg List.length h2
    rw [List.length_append] at h3
    omega
  rw [hlen]
  generalize hT : (url.reverse.takeWhile (· ≠ '/')).reverse = T at h2
  generalize hD : (url.reverse.dropWhile (· ≠ '/')).reverse = D at h2 ⊢
  rw [← h2, List.take_left]

theorem splitParamsPy_cases (url : PyStr) :
    (splitParamsPy url = (url, []) ∧ url.getLast? ≠ some ';') ∨
    (url = (splitParamsPy url).1 ++ ';' :: (splitParamsPy url).2 ∧
     (∀ c ∈ (splitParamsPy url).1, c ∈ url) ∧
     (∀ c ∈ (splitParamsPy url).2, c ∈ url ∧ c ≠ '/') ∧
     ((splitParamsPy url).2 = [] → (splitParamsPy url).1.getLast? ≠ some ';') ∧
     ((splitParamsPy url).1 ≠ [] → (splitParamsPy url).1.head? = url.head?)) := by
  simp only [splitParamsPy]
  by_cases hsl : url.contains '/' = true
  · rw [if_pos hsl]
    cases hsp : splitFirst (· = ';') (url.reverse.takeWhile (· ≠ '/')).reverse with
    | none =>
      left
      refine ⟨rfl, ?_⟩
      intro hlast
      have hne : url ≠ [] := by
        intro hc
        rw [hc] at hlast
        cases hlast
      by_cases hseg : (url.reverse.takeWhile (· ≠ '/')).reverse = []
      · have hTnil := hseg
        rw [List.reverse_eq_nil_iff] at hTnil
        rcases takeWhile_eq_nil_cases _ _ hTnil with hrev | ⟨c, t, hrev, hcq⟩
        · rw [List.reverse_eq_nil_iff] at hrev
          exact hne hrev
        · have hc : c = '/' := by
            rw [decide_eq_false_iff_not] at hcq
            simpa using hcq
          have hlast' : url.getLast? = some c := by
            rw [← List.head?_reverse, hrev]
            rfl
          rw [hlast', Option.some.injEq] at hlast
          rw [hc] at hlast
          cases hlast
      · have hfree := splitFirst_eq_none _ _ hsp
        have hlast' := lastSeg_getLast url hseg
        rw [hlast] at hlast'
        have hmem := List.mem_of_mem_getLast? hlast'
        have := hfree ';' hmem
        simp at this
    | some pr =>
      obtain ⟨a0, b0⟩ := pr
      right
      obtain ⟨c0, hc0, hfree, hdec⟩ := splitFirst_eq_some _ _ a0 b0 hsp
      have hc0' : c0 = ';' := of_decide_eq_true hc0
      subst hc0'
      have hurl := revseg_decomp url
      have hP1 : (url.take
          (url.length - ((url.reverse.takeWhile (· ≠ '/')).reverse).length) ++ a0)
          ++ ';' :: b0 = url := by
        rw [List.append_assoc, ← hdec]
        exact hurl
      refine ⟨?_, ?_, ?_, ?_, ?_⟩
      · exact hP1.symm
      · intro c hc
        rw [← hP1]
        rcases List.mem_append.mp hc with hc | hc
        · exact List.mem_append.mpr (Or.inl (List.mem_append.mpr (Or.inl hc)))
        · exact List.mem_append.mpr (Or.inl (List.mem_append.mpr (Or.inr hc)))
      · intro c hc
        constructor
        · rw [← hP1]
          exact List.mem_append.mpr (Or.inr (List.mem_cons_of_mem _ hc))
        · have hcseg : c ∈ (url.reverse.takeWhile (· ≠ '/')).reverse := by
            rw [hdec]
            exact List.mem_append.mpr (Or.inr (List.mem_cons_of_mem _ hc))
          rw [List.mem_reverse] at hcseg
          have := List.mem_takeWhile_imp hcseg
          rw [decide_eq_true_eq] at this
          exact this
      · intro hb0
        subst hb0
        show (url.take _ ++ a0).getLast? ≠ some ';'
        by_cases ha0 : a0 = []
        · subst ha0
          rw [List.append_nil]
          intro hlast
          have hpre := take_pre_eq url
          rw [hpre] at hlast
          rw [← List.head?_reverse, List.reverse_reverse] at hlast
          rcases dropWhile_nil_or_head (· ≠ '/') url.reverse with hd | ⟨c, t, hd, hcq⟩
          · rw [hd] at hlast
            cases hlast
          · rw [hd] at hlast
            have hc : c = '/' := by
              rw [decide_eq_false_iff_not] at hcq
              simpa using hcq
            rw [List.head?_cons, Option.some.injEq] at hlast
            rw [hc] at hlast
            cases hlast
        · rw [List.getLast?_append_of_ne_nil _ ha0]
          intro hlast
          have hmem := List.mem_of_mem_getLast? hlast
          have := hfree ';' hmem
          simp at this
      · intro hne
        have hne' : url.take
            (url.length - ((url.reverse.takeWhile (· ≠ '/')).reverse).length)
            ++ a0 ≠ [] := hne
        show (url.take
            (url.length - ((url.reverse.takeWhile (· ≠ '/')).reverse).length)
            ++ a0).head? = url.head?
        by_cases hpre : url.take
            (url.length - ((url.reverse.takeWhile (· ≠ '/')).reverse).length) = []
        · rw [hpre, List.nil_append]
          rw [hpre, List.nil_append] at hne'
          have hsegle : ((url.reverse.takeWhile (· ≠ '/')).reverse).head? = url.head? := by
            conv_rhs => rw [← hurl, hpre, List.nil_append]
          rw [← hsegle, hdec]
          exact (List.head?_append_of_ne_nil a0 hne').symm
        · rw [List.head?_append_of_ne_nil _ hpre]
          have hk : 0 < url.length - ((url.reverse.takeWhile (· ≠ '/')).reverse).length := by
            by_contra hk0
            apply hpre
            have : url.length - ((url.reverse.takeWhile (· ≠ '/')).reverse).length = 0 := by
              omega
            rw [this, List.take_zero]
          exact head_take _ _ hk
  · rw [if_neg hsl]
    have hnos : ∀ c ∈ url, c ≠ '/' := by
      intro c hc hcc
      subst hcc
      exact hsl (List.elem_iff.mpr hc)
    cases hsp : splitFirst (· = ';') url with
    | none =>
      left
      refine ⟨rfl, ?_⟩
      intro hlast
      have hmem := List.mem_of_mem_getLast? hlast
      have hff := splitFirst_eq_none _ url hsp ';' hmem
      simp at hff
    | some pr =>
      obtain ⟨a0, b0⟩ := pr
      right
      obtain ⟨c0, hc0, hfree, hdec⟩ := splitFirst_eq_some _ url a0 b0 hsp
      have hc0x : c0 = ';' := of_decide_eq_true hc0
      subst hc0x
      refine ⟨hdec, ?_, ?_, ?_, ?_⟩
      · intro c hc
        rw [hdec]
        exact List.mem_append.mpr (Or.inl hc)
      · intro c hc
        have hcu : c ∈ url := by
          rw [hdec]
          exact List.mem_append.mpr (Or.inr (List.mem_cons_of_mem _ hc))
        exact ⟨hcu, hnos c hcu⟩
      · intro hb0
        subst hb0
        show a0.getLast? ≠ some ';'
        intro hlast
        have hmem := List.mem_of_mem_getLast? hlast
        have hff := hfree ';' hmem
        simp at hff
      · intro hne
        conv_rhs => rw [hdec]
        exact (List.head?_append_of_ne_nil a0 hne).symm

theorem splitScheme_rest_mem (y s r : PyStr) (h : splitScheme y = (s, r)) :
    ∀ c ∈ r, c ∈ y := by
  rw [splitScheme] at h
  cases hs : splitFirst (· = ':') y with
  | none =>
    rw [hs] at h
    have h' : (([] : PyStr), y) = (s, r) := h
    rw [Prod.mk.injEq] at h'
    obtain ⟨_, rfl⟩ := h'
    exact fun c hc => hc
  | some pr =>
    obtain ⟨before, after⟩ := pr
    rw [hs] at h
    obtain ⟨c0, _, _, hdec⟩ := splitFirst_eq_some _ y before after hs
    cases before with
    | nil =>
      have h' : (([] : PyStr), y) = (s, r) := h
      rw [Prod.mk.injEq] at h'
      obtain ⟨_, rfl⟩ := h'
      exact fun c hc => hc
    | cons b0 bs =>
      have h2 : (if (isAsciiAlphaCh b0 && (b0 :: bs).all isSchemeChar) = true
          then (pyLower (b0 :: bs), after) else (([] : PyStr), y)) = (s, r) := h
      by_cases hcond : (isAsciiAlphaCh b0 && (b0 :: bs).all isSchemeChar) = true
      · rw [if_pos hcond] at h2
        rw [Prod.mk.injEq] at h2
        obtain ⟨_, rfl⟩ := h2
        intro c hc
        rw [hdec]
        exact List.mem_append.mpr (Or.inr (List.mem_cons_of_mem _ hc))
      · rw [if_neg hcond] at h2
        rw [Prod.mk.injEq] at h2
        obtain ⟨_, rfl⟩ := h2
        exact fun c hc => hc

theorem pyUrlparse_facts (x : PyStr) (p : PyParse)
    (h : pyUrlparse? x = some p) (hnl : p.netloc ≠ [])
    (husp : usesParams.contains p.scheme = true) :
    (∀ c ∈ p.netloc, isNetlocDelim c = false ∧ isTabCrLf c = false) ∧
    (((p.netloc.contains '[' && !(p.netloc.contains ']')) ||
      (p.netloc.contains ']' && !(p.netloc.contains '['))) = false) ∧
    (∀ c ∈ p.path, ¬(c = '?') ∧ ¬(c = '#') ∧ isTabCrLf c = false) ∧
    (∀ c ∈ p.params, ¬(c = '?') ∧ ¬(c = '#') ∧ ¬(c = '/') ∧ isTabCrLf c = false) ∧
    (p.path = [] ∨ p.path.head? = some '/') ∧
    (p.params = [] → p.path.getLast? ≠ some ';') := by
  have hu_tcl : ∀ c ∈ removeTabCrLf (lstripC0 x), isTabCrLf c = false := by
    intro c hc
    have hf := List.of_mem_filter hc
    rwa [Bool.not_eq_true'] at hf
  rw [pyUrlparse?] at h
  split at h
  next scheme rest1 hss =>
  split at h
  next netloc rest2 hsl =>
  split at h
  · exact absurd h (by simp)
  next hbr =>
  split at h
  next rest3 frag hfr =>
  split at h
  next path0 q hq =>
  split at h
  next path par hpp =>
  have hp : (⟨scheme, netloc, path, par, q, frag⟩ : PyParse) = p :=
    (Option.some.injEq _ _).mp h
  subst hp
  have hnl' : netloc ≠ [] := hnl
  have husp' : usesParams.contains scheme = true := husp
  have hr1mem : ∀ c ∈ rest1, c ∈ removeTabCrLf (lstripC0 x) :=
    splitScheme_rest_mem _ _ _ hss
  have hnlsplit : netloc = (rest1.drop 2).takeWhile (fun c => !(isNetlocDelim c)) ∧
      rest2 = (rest1.drop 2).dropWhile (fun c => !(isNetlocDelim c)) := by
    by_cases hc : rest1.take 2 = ['/', '/']
    · rw [if_pos hc, splitNetloc, Prod.mk.injEq] at hsl
      exact ⟨hsl.1.symm, hsl.2.symm⟩
    · rw [if_neg hc, Prod.mk.injEq] at hsl
      exact absurd hsl.1.symm hnl'
  have hnl_delim : ∀ c ∈ netloc, isNetlocDelim c = false := by
    intro c hc
    rw [hnlsplit.1] at hc
    have := List.mem_takeWhile_imp hc
    rwa [Bool.not_eq_true'] at this
  have hnl_mem : ∀ c ∈ netloc, c ∈ removeTabCrLf (lstripC0 x) := by
    intro c hc
    rw [hnlsplit.1] at hc
    have h1 : c ∈ rest1.drop 2 := (List.takeWhile_sublist _).subset hc
    exact hr1mem c ((List.drop_sublist _ _).subset h1)
  have hr2mem : ∀ c ∈ rest2, c ∈ removeTabCrLf (lstripC0 x) := by
    intro c hc
    rw [hnlsplit.2] at hc
    have h1 : c ∈ rest1.drop 2 := (List.dropWhile_sublist _).subset hc
    exact hr1mem c ((List.drop_sublist _ _).subset h1)
  obtain ⟨hr3_nohash, hr3mem0, _, hr3head⟩ := splitPair_facts '#' rest2 rest3 frag hfr
  have hr3mem : ∀ c ∈ rest3, c ∈ removeTabCrLf (lstripC0 x) :=
    fun c hc => hr2mem c (hr3mem0 c hc)
  obtain ⟨hp0_noq, hp0mem0, _, hp0head⟩ := splitPair_facts '?' rest3 path0 q hq
  have hp0mem : ∀ c ∈ path0, c ∈ removeTabCrLf (lstripC0 x) :=
    fun c hc => hr3mem c (hp0mem0 c hc)
  have hp0_nohash : ∀ c ∈ path0, ¬(c = '#') :=
    fun c hc => hr3_nohash c (hp0mem0 c hc)
  have hp0_facts : ∀ c ∈ path0, ¬(c = '?') ∧ ¬(c = '#') ∧ isTabCrLf c = false :=
    fun c hc => ⟨hp0_noq c hc, hp0_nohash c hc, hu_tcl c (hp0mem c hc)⟩
  have hp0_head : path0 = [] ∨ path0.head? = some '/' := by
    by_cases hp0nil : path0 = []
    · exact Or.inl hp0nil
    · right
      have hr3nil : rest3 ≠ [] := by
        intro hc
        apply hp0nil
        rcases hp0mem0 with _
        cases hpn : path0 with
        | nil => rfl
        | cons a t =>
          exact absurd (hp0mem0 a (by rw [hpn]; exact List.mem_cons_self _ _))
            (by rw [hc]; exact List.not_mem_nil a)
      have hh1 : path0.head? = rest3.head? := hp0head hp0nil
      have hh2 : rest3.head? = rest2.head? := hr3head hr3nil
      rcases dropWhile_nil_or_head (fun c => !(isNetlocDelim c)) (rest1.drop 2)
        with hd | ⟨c, t, hd, hcq⟩
      · have : rest2 = [] := by rw [hnlsplit.2, hd]
        rw [this] at hh2
        rw [hh2] at hh1
        cases hpn : path0 with
        | nil => exact absurd hpn hp0nil
        | cons a t =>
          rw [hpn] at hh1
          cases hh1
      · have hr2 : rest2 = c :: t := by rw [hnlsplit.2, hd]
        have hdelim : isNetlocDelim c = true := by
          rwa [Bool.not_eq_false'] at hcq
        have hcp0 : c ∈ path0 := by
          apply List.mem_of_mem_head?
          rw [hh1, hh2, hr2]
          rfl
        have hcfacts := hp0_facts c hcp0
        have hcslash : c = '/' := by
          rw [isNetlocDelim, Bool.or_eq_true, Bool.or_eq_true] at hdelim
          rcases hdelim with (hh | hh) | hh
          · exact of_decide_eq_true hh
          · exact absurd (of_decide_eq_true hh) hcfacts.1
          · exact absurd (of_decide_eq_true hh) hcfacts.2.1
        rw [hh1, hh2, hr2, hcslash]
        rfl
  have hpath0ne : path0.contains ';' = false → ∀ c ∈ path0, c ≠ ';' := by
    intro hcf c hc hcc
    subst hcc
    have hcc2 : path0.contains ';' = true := List.elem_iff.mpr hc
    rw [hcc2] at hcf
    cases hcf
  by_cases hcond : (usesParams.contains scheme && path0.contains ';') = true
  · have hpp' : splitParamsPy path0 = (path, par) := by
      have h2 : (if (usesParams.contains scheme && path0.contains ';') = true
          then splitParamsPy path0 else (path0, ([] : PyStr))) = (path, par) := hpp
      rwa [if_pos hcond] at h2
    rcases splitParamsPy_cases path0 with ⟨heq, hlast⟩ | ⟨hdec, hm1, hm2, hlastp, hheadp⟩
    · rw [hpp'] at heq
      rw [Prod.mk.injEq] at heq
      obtain ⟨rfl, rfl⟩ := heq
      refine ⟨fun c hc => ⟨hnl_delim c hc, hu_tcl c (hnl_mem c hc)⟩,
        Bool.eq_false_iff.mpr hbr, hp0_facts, ?_, hp0_head, ?_⟩
      · intro c hc
        exact absurd hc (List.not_mem_nil c)
      · intro _
        exact hlast
    · rw [hpp'] at hdec hm1 hm2 hlastp hheadp
      refine ⟨fun c hc => ⟨hnl_delim c hc, hu_tcl c (hnl_mem c hc)⟩,
        Bool.eq_false_iff.mpr hbr, ?_, ?_, ?_, ?_⟩
      · intro c hc
        exact hp0_facts c (hm1 c hc)
      · intro c hc
        obtain ⟨hcp0, hcs⟩ := hm2 c hc
        obtain ⟨h1, h2, h3⟩ := hp0_facts c hcp0
        exact ⟨h1, h2, hcs, h3⟩
      · by_cases hpnil : path = []
        · exact Or.inl hpnil
        · right
          rw [hheadp hpnil]
          have hp0ne : path0 ≠ [] := by
            intro hc
            rw [hc] at hdec
            exact absurd hdec.symm (by simp)
          rcases hp0_head with hc | hc
          · exact absurd hc hp0ne
          · exact hc
      · intro hpar
        exact hlastp hpar
  · have hpp' : (path0, ([] : PyStr)) = (path, par) := by
      have h2 : (if (usesParams.contains scheme && path0.contains ';') = true
          then splitParamsPy path0 else (path0, ([] : PyStr))) = (path, par) := hpp
      rwa [if_neg hcond] at h2
    rw [Prod.mk.injEq] at hpp'
    obtain ⟨rfl, rfl⟩ := hpp'
    have hnosemi : path0.contains ';' = false := by
      by_cases hcc : path0.contains ';' = true
      · rw [husp', hcc] at hcond
        exact absurd rfl hcond
      · exact Bool.eq_false_iff.mpr hcc
    refine ⟨fun c hc => ⟨hnl_delim c hc, hu_tcl c (hnl_mem c hc)⟩,
      Bool.eq_false_iff.mpr hbr, hp0_facts, ?_, hp0_head, ?_⟩
    · intro c hc
      exact absurd hc (List.not_mem_nil c)
    · intro _
      intro hlast
      exact hpath0ne hnosemi ';' (List.mem_of_mem_getLast? hlast) rfl

theorem mem_intercalate_amp (c : Char) :
    ∀ L : List PyStr, c ∈ List.intercalate ['&'] L → c = '&' ∨ ∃ x ∈ L, c ∈ x := by
  intro L
  induction L with
  | nil =>
    intro h
    rw [show List.intercalate ['&'] [] = [] from by simp [List.intercalate]] at h
    exact absurd h (List.not_mem_nil c)
  | cons f rest ih =>
    cases rest with
    | nil =>
      intro h
      rw [show List.intercalate ['&'] [f] = f from by
        simp [List.intercalate, List.intersperse]] at h
      exact Or.inr ⟨f, List.mem_cons_self _ _, h⟩
    | cons g tl =>
      intro h
      rw [show List.intercalate ['&'] (f :: g :: tl)
          = f ++ '&' :: List.intercalate ['&'] (g :: tl) from by
        simp [List.intercalate, List.intersperse]] at h
      rcases List.mem_append.mp h with h | h
      · exact Or.inr ⟨f, List.mem_cons_self _ _, h⟩
      · rcases List.mem_cons.mp h with h | h
        · exact Or.inl h
        · rcases ih h with h | ⟨x, hx, hcx⟩
          · exact Or.inl h
          · exact Or.inr ⟨x, List.mem_cons_of_mem _ hx, hcx⟩

theorem urlencode_char_facts (G : List (PyStr × List PyStr)) :
    ∀ c ∈ urlencodeDoseq G, ¬(c = '#') ∧ isTabCrLf c = false := by
  intro c hc
  rw [urlencodeDoseq] at hc
  rcases mem_intercalate_amp c _ hc with h | ⟨x, hx, hcx⟩
  · subst h
    exact ⟨by decide, by decide⟩
  · obtain ⟨kv, _, hx2⟩ := List.mem_flatMap.mp hx
    obtain ⟨v, _, hx3⟩ := List.mem_map.mp hx2
    subst hx3
    rcases List.mem_append.mp hcx with h | h
    · exact ⟨quotePlus_no_char kv.1 '#' (by decide) (by decide) (by decide) c h,
        quotePlus_no_tcl kv.1 c h⟩
    · rcases List.mem_cons.mp h with rfl | h
      · exact ⟨by decide, by decide⟩
      · exact ⟨quotePlus_no_char v '#' (by decide) (by decide) (by decide) c h,
          quotePlus_no_tcl v c h⟩

theorem pyLowerChar_netloc_facts (d : Char)
    (h1 : isNetlocDelim d = false) (h2 : isTabCrLf d = false) :
    isNetlocDelim (pyLowerChar d) = false ∧ isTabCrLf (pyLowerChar d) = false := by
  rw [isNetlocDelim] at h1
  rw [isTabCrLf] at h2
  simp only [Bool.or_eq_false_iff, decide_eq_false_iff_not] at h1 h2
  rw [isNetlocDelim, isTabCrLf]
  simp only [Bool.or_eq_false_iff, decide_eq_false_iff_not]
  exact ⟨⟨⟨pyLowerChar_ne_special d '/' (by decide) h1.1.1,
    pyLowerChar_ne_special d '?' (by decide) h1.1.2⟩,
    pyLowerChar_ne_special d '#' (by decide) h1.2⟩,
    ⟨⟨pyLowerChar_ne_special d '\t' (by decide) h2.1.1,
      pyLowerChar_ne_special d '\r' (by decide) h2.1.2⟩,
      pyLowerChar_ne_special d '\n' (by decide) h2.2⟩⟩

theorem contains_pyLower_special (s : PyStr) (d : Char)
    (hd : d.toNat < 65 ∨ (90 < d.toNat ∧ d.toNat < 97) ∨ 122 < d.toNat) :
    (pyLower s).contains d = s.contains d := by
  cases h : s.contains d with
  | false =>
    rw [Bool.eq_false_iff]
    intro hc
    have hm : d ∈ pyLower s := List.elem_iff.mp hc
    have hm2 := (mem_pyLower_special s d hd).mp hm
    have h2 : s.contains d = true := List.elem_iff.mpr hm2
    rw [h] at h2
    cases h2
  | true =>
    have hm : d ∈ s := List.elem_iff.mp h
    have h3 : d ∈ pyLower s := (mem_pyLower_special s d hd).mpr hm
    exact List.elem_iff.mpr h3

theorem splitParamsPy_snd_ne (path params : PyStr)
    (hslash : '/' ∈ path)
    (hpf : ∀ c ∈ params, c ≠ '/')
    (hne : params ≠ []) :
    (splitParamsPy (path ++ ';' :: params)).2 ≠ [] := by
  have hcon : (path ++ ';' :: params).contains '/' = true :=
    List.elem_iff.mpr (List.mem_append.mpr (Or.inl hslash))
  simp only [splitParamsPy]
  rw [if_pos hcon]
  have hrev2 : (path ++ ';' :: params).reverse
      = (params.reverse ++ [';']) ++ path.reverse := by
    rw [List.reverse_append, List.reverse_cons]
  rw [hrev2]
  have htw : ((params.reverse ++ [';']) ++ path.reverse).takeWhile (· ≠ '/')
      = (params.reverse ++ [';']) ++ path.reverse.takeWhile (· ≠ '/') := by
    refine takeWhile_append_all _ _ _ ?_
    intro x hx
    rcases List.mem_append.mp hx with hx | hx
    · exact decide_eq_true (hpf x (List.mem_reverse.mp hx))
    · rcases List.mem_cons.mp hx with rfl | hx
      · decide
      · exact absurd hx (List.not_mem_nil x)
  rw [htw]
  have hseg : ((params.reverse ++ [';']) ++ path.reverse.takeWhile (· ≠ '/')).reverse
      = (path.reverse.takeWhile (· ≠ '/')).reverse ++ ';' :: params := by
    rw [List.reverse_append, List.reverse_append, List.reverse_reverse]
    rfl
  rw [hseg]
  obtain ⟨a, b, hsp, hlen⟩ := splitFirst_append_ge (· = ';') ';' (by decide)
    (path.reverse.takeWhile (· ≠ '/')).reverse params
  rw [hsp]
  show b ≠ []
  intro hb
  rw [hb] at hlen
  cases params with
  | nil => exact hne rfl
  | cons x xs => simp at hlen

theorem splitScheme_http (scheme rest : PyStr)
    (hs : scheme = httpScheme ∨ scheme = httpsScheme) :
    splitScheme (scheme ++ ':' :: rest) = (scheme, rest) := by
  have hcol : ∀ x ∈ scheme, ((· = ':') x : Bool) = false := by
    rcases hs with rfl | rfl <;> decide
  have hsp := splitFirst_append (· = ':') ':' scheme rest hcol (by decide)
  rw [splitScheme, hsp]
  rcases hs with rfl | rfl <;> rfl

theorem params_split_result (scheme urlp : PyStr)
    (hu0 : urlp.head? = some '/')
    (hnds : noDoubleSlash urlp = true)
    (hgood : (splitParamsPy urlp).2 = [] → splitParamsPy urlp = (urlp, [])) :
    ∃ a b : PyStr,
      (if (usesParams.contains scheme && urlp.contains ';') = true
        then splitParamsPy urlp else (urlp, [])) = (a, b) ∧
      (if b ≠ [] then a ++ ';' :: b else a) = urlp ∧
      a ≠ [] ∧ collapseSlashes a = a := by
  have hune : urlp ≠ [] := by
    intro hc
    rw [hc] at hu0
    exact absurd hu0 (by simp)
  by_cases hcond : (usesParams.contains scheme && urlp.contains ';') = true
  · rw [if_pos hcond]
    by_cases hb2 : (splitParamsPy urlp).2 = []
    · refine ⟨urlp, [], hgood hb2, ?_, hune, (collapseGo_noop urlp hnds).1⟩
      rw [if_neg (fun hcc => hcc rfl)]
    · rcases splitParamsPy_cases urlp with ⟨heq, _⟩ | ⟨hdec, _, _, _, _⟩
      · rw [heq] at hb2
        exact absurd rfl hb2
      · refine ⟨(splitParamsPy urlp).1, (splitParamsPy urlp).2, Prod.mk.eta.symm,
          ?_, ?_, ?_⟩
        · rw [if_pos hb2]
          exact hdec.symm
        · intro hc
          rw [hc, List.nil_append] at hdec
          rw [hdec, List.head?_cons, Option.some.injEq] at hu0
          exact absurd hu0 (by decide)
        · refine (collapseGo_noop _ ?_).1
          refine noDoubleSlash_append_left _ (';' :: (splitParamsPy urlp).2) ?_
          rw [← hdec]
          exact hnds
  · rw [if_neg hcond]
    refine ⟨urlp, [], rfl, ?_, hune, (collapseGo_noop urlp hnds).1⟩
    rw [if_neg (fun hcc => hcc rfl)]

theorem pyReparse (scheme netloc urlp query : PyStr)
    (hsch : scheme = httpScheme ∨ scheme = httpsScheme)
    (hn : netloc ≠ [])
    (hnf : ∀ c ∈ netloc, isNetlocDelim c = false ∧ isTabCrLf c = false)
    (hbr : ((netloc.contains '[' && !(netloc.contains ']')) ||
            (netloc.contains ']' && !(netloc.contains '['))) = false)
    (hu0 : urlp.head? = some '/')
    (huf : ∀ c ∈ urlp, ¬(c = '?') ∧ ¬(c = '#') ∧ isTabCrLf c = false)
    (hqf : ∀ c ∈ query, ¬(c = '#') ∧ isTabCrLf c = false)
    (hnds : noDoubleSlash urlp = true)
    (hgood : (splitParamsPy urlp).2 = [] → splitParamsPy urlp = (urlp, [])) :
    ∃ a b : PyStr,
      pyUrlparse? (urlunsplitPy scheme netloc urlp query []) =
        some ⟨scheme, netloc, a, b, query, []⟩ ∧
      (if b ≠ [] then a ++ ';' :: b else a) = urlp ∧
      a ≠ [] ∧ collapseSlashes a = a := by
  obtain ⟨t, rfl⟩ : ∃ t, urlp = '/' :: t := by
    cases urlp with
    | nil => exact absurd hu0 (by simp)
    | cons c t =>
      rw [List.head?_cons, Option.some.injEq] at hu0
      exact ⟨t, by rw [hu0]⟩
  obtain ⟨st, hscheme⟩ : ∃ st, scheme = 'h' :: st := by
    rcases hsch with rfl | rfl
    · exact ⟨_, rfl⟩
    · exact ⟨_, rfl⟩
  have hsne : scheme ≠ [] := by
    rw [hscheme]
    intro h
    cases h
  obtain ⟨qt, hqt⟩ : ∃ qt : PyStr, qt = if query = [] then [] else '?' :: query :=
    ⟨_, rfl⟩
  have hstf : ∀ c ∈ scheme, isTabCrLf c = false := by
    rcases hsch with rfl | rfl <;> decide
  have hqtf : ∀ c ∈ qt, ¬(c = '#') ∧ isTabCrLf c = false := by
    intro c hc
    by_cases hq : query = []
    · rw [hqt, if_pos hq] at hc
      exact absurd hc (List.not_mem_nil c)
    · rw [hqt, if_neg hq] at hc
      rcases List.mem_cons.mp hc with rfl | hc
      · exact ⟨by decide, by decide⟩
      · exact hqf c hc
  have hun : urlunsplitPy scheme netloc ('/' :: t) query [] =
      scheme ++ ':' :: '/' :: '/' :: (netloc ++ '/' :: (t ++ qt)) := by
    simp only [urlunsplitPy]
    rw [if_neg (fun h => h rfl)]
    rw [if_pos (Or.inl hn)]
    rw [if_neg (fun h : ('/' :: t : PyStr) ≠ [] ∧ ('/' :: t : PyStr).take 1 ≠ ['/'] => h.2 rfl)]
    rw [if_pos hsne]
    by_cases hq : query = []
    · rw [if_neg (fun h => h hq), hqt, if_pos hq, List.append_nil]
    · rw [if_pos hq, hqt, if_neg hq]
      simp only [List.append_assoc, List.cons_append]
  have hNstrip : lstripC0 (scheme ++ ':' :: '/' :: '/' :: (netloc ++ '/' :: (t ++ qt)))
      = scheme ++ ':' :: '/' :: '/' :: (netloc ++ '/' :: (t ++ qt)) := by
    rw [hscheme, List.cons_append]
    exact dropWhile_head_false _ _ _ (by decide)
  have hNtcl : removeTabCrLf (scheme ++ ':' :: '/' :: '/' :: (netloc ++ '/' :: (t ++ qt)))
      = scheme ++ ':' :: '/' :: '/' :: (netloc ++ '/' :: (t ++ qt)) := by
    refine List.filter_eq_self.mpr ?_
    intro c hc
    rcases List.mem_append.mp hc with hc | hc
    · rw [hstf c hc]
      rfl
    · rcases List.mem_cons.mp hc with rfl | hc
      · decide
      · rcases List.mem_cons.mp hc with rfl | hc
        · decide
        · rcases List.mem_cons.mp hc with rfl | hc
          · decide
          · rcases List.mem_append.mp hc with hc | hc
            · rw [(hnf c hc).2]
              rfl
            · rcases List.mem_cons.mp hc with rfl | hc
              · decide
              · rcases List.mem_append.mp hc with hc | hc
                · rw [(huf c (List.mem_cons_of_mem _ hc)).2.2]
                  rfl
                · rw [(hqtf c hc).2]
                  rfl
  have hsplitS : splitScheme (scheme ++ ':' :: '/' :: '/' :: (netloc ++ '/' :: (t ++ qt)))
      = (scheme, '/' :: '/' :: (netloc ++ '/' :: (t ++ qt))) :=
    splitScheme_http scheme _ hsch
  have hTW : (netloc ++ '/' :: (t ++ qt)).takeWhile (fun c => !(isNetlocDelim c))
      = netloc := by
    rw [takeWhile_append_all _ netloc _ (fun x hx => by rw [(hnf x hx).1]; rfl)]
    rw [takeWhile_head_false _ '/' _ (by decide)]
    exact List.append_nil netloc
  have hDW : (netloc ++ '/' :: (t ++ qt)).dropWhile (fun c => !(isNetlocDelim c))
      = '/' :: (t ++ qt) := by
    rw [dropWhile_append_all _ netloc _ (fun x hx => by rw [(hnf x hx).1]; rfl)]
    exact dropWhile_head_false _ '/' _ (by decide)
  have hsharp : splitFirst (· = '#') ('/' :: (t ++ qt)) = none := by
    refine splitFirst_none _ _ ?_
    intro x hx
    rcases List.mem_cons.mp hx with rfl | hx
    · decide
    · rcases List.mem_append.mp hx with hx | hx
      · exact decide_eq_false (huf x (List.mem_cons_of_mem _ hx)).2.1
      · exact decide_eq_false (hqtf x hx).1
  have hqspl : (match splitFirst (· = '?') ('/' :: (t ++ qt)) with
      | none => ('/' :: (t ++ qt), ([] : List Char))
      | some (a, b) => (a, b)) = ('/' :: t, query) := by
    by_cases hq : query = []
    · have hqt0 : qt = [] := by rw [hqt, if_pos hq]
      rw [hqt0, List.append_nil]
      rw [splitFirst_none _ ('/' :: t) (fun x hx => by
        rcases List.mem_cons.mp hx with rfl | hx
        · decide
        · exact decide_eq_false (huf x (List.mem_cons_of_mem _ hx)).1)]
      rw [hq]
    · have hqt1 : qt = '?' :: query := by rw [hqt, if_neg hq]
      rw [hqt1]
      rw [show ('/' : Char) :: (t ++ '?' :: query) = ('/' :: t) ++ '?' :: query from rfl]
      rw [splitFirst_append _ '?' ('/' :: t) query (fun x hx => by
        rcases List.mem_cons.mp hx with rfl | hx
        · decide
        · exact decide_eq_false (huf x (List.mem_cons_of_mem _ hx)).1) (by decide)]
  obtain ⟨a, b, hab, hrejoin, hane, hacol⟩ :=
    params_split_result scheme ('/' :: t) rfl hnds hgood
  refine ⟨a, b, ?_, hrejoin, hane, hacol⟩
  cases hp2 : pyUrlparse? (urlunsplitPy scheme netloc ('/' :: t) query []) with
  | none =>
    exfalso
    rw [hun, pyUrlparse?] at hp2
    split at hp2
    next scheme' rest1 hss =>
    rw [hNstrip, hNtcl, hsplitS, Prod.mk.injEq] at hss
    obtain ⟨h1, h2⟩ := hss
    subst h1
    subst h2
    split at hp2
    next netloc' rest2' hsl =>
    rw [if_pos (show List.take 2 ('/' :: '/' :: (netloc ++ '/' :: (t ++ qt)))
        = ['/', '/'] from rfl)] at hsl
    rw [show List.drop 2 ('/' :: '/' :: (netloc ++ '/' :: (t ++ qt)))
        = netloc ++ '/' :: (t ++ qt) from rfl] at hsl
    rw [splitNetloc, hTW, hDW, Prod.mk.injEq] at hsl
    obtain ⟨h1, h2⟩ := hsl
    subst h1
    subst h2
    split at hp2
    next hbrt =>
      rw [hbr] at hbrt
      exact absurd hbrt (by decide)
    next hbrf =>
    split at hp2
    next rest3 frag hfr =>
    split at hp2
    next path0 q' hq2 =>
    split at hp2
    next path' par' hpp =>
    exact Option.noConfusion hp2
  | some p =>
    have hp3 := hp2
    rw [hun, pyUrlparse?] at hp3
    split at hp3
    next scheme' rest1 hss =>
    rw [hNstrip, hNtcl, hsplitS, Prod.mk.injEq] at hss
    obtain ⟨h1, h2⟩ := hss
    subst h1
    subst h2
    split at hp3
    next netloc' rest2' hsl =>
    rw [if_pos (show List.take 2 ('/' :: '/' :: (netloc ++ '/' :: (t ++ qt)))
        = ['/', '/'] from rfl)] at hsl
    rw [show List.drop 2 ('/' :: '/' :: (netloc ++ '/' :: (t ++ qt)))
        = netloc ++ '/' :: (t ++ qt) from rfl] at hsl
    rw [splitNetloc, hTW, hDW, Prod.mk.injEq] at hsl
    obtain ⟨h1, h2⟩ := hsl
    subst h1
    subst h2
    split at hp3
    next => exact Option.noConfusion hp3
    next hbrf =>
    split at hp3
    next rest3 frag hfr =>
    rw [hsharp] at hfr
    have hfr' : ('/' :: (t ++ qt), ([] : List Char)) = (rest3, frag) := hfr
    rw [Prod.mk.injEq] at hfr'
    obtain ⟨h1, h2⟩ := hfr'
    subst h1
    subst h2
    split at hp3
    next path0 q' hq2 =>
    rw [hqspl] at hq2
    rw [Prod.mk.injEq] at hq2
    obtain ⟨h1, h2⟩ := hq2
    subst h1
    subst h2
    split at hp3
    next path' par' hpp =>
    rw [hab, Prod.mk.injEq] at hpp
    obtain ⟨h1, h2⟩ := hpp
    subst h1
    subst h2
    have hpeq : p = ⟨scheme, netloc, a, b, query, []⟩ :=
      ((Option.some.injEq _ _).mp hp3).symm
    rw [hpeq]

/-- C5 (corrected): `normalize_url` is idempotent on every successful output
that is already stripped: if `normalize_url u = some n` and Python
`n.strip()` returns `n` unchanged, then `normalize_url n = some n`.  The
strip-fixedness hypothesis cannot be dropped (see `C5_counterexample`): a
fragment can shield trailing whitespace in the path on the first pass, and
the second pass then strips it. -/
theorem C5_amended (u n : PyStr)
    (h1 : normalize_url u = some n) (h2 : pyStrip n = n) :
    normalize_url n = some n := by
  simp only [normalize_url] at h1
  split at h1
  next hnone => exact Option.noConfusion h1
  next p hp =>
  by_cases hsch0 : p.scheme = httpScheme ∨ p.scheme = httpsScheme
  case neg =>
    rw [if_pos hsch0] at h1
    exact Option.noConfusion h1
  rw [if_neg (not_not_intro hsch0)] at h1
  by_cases hnl0 : p.netloc = []
  case pos =>
    rw [if_pos hnl0] at h1
    exact Option.noConfusion h1
  rw [if_neg hnl0] at h1
  have husp : usesParams.contains p.scheme = true := by
    rcases hsch0 with h | h <;> rw [h] <;> decide
  have pfacts := pyUrlparse_facts (pyStrip u) p hp hnl0 husp
  have hplow : pyLower p.scheme = p.scheme := by
    rcases hsch0 with h | h <;> rw [h] <;> decide
  have hsch1 : pyLower p.scheme = httpScheme ∨ pyLower p.scheme = httpsScheme := by
    rw [hplow]
    exact hsch0
  have hn2 : pyLower p.netloc ≠ [] := by
    intro h
    rw [pyLower] at h
    exact hnl0 (List.map_eq_nil_iff.mp h)
  have hnf2 : ∀ c ∈ pyLower p.netloc, isNetlocDelim c = false ∧ isTabCrLf c = false := by
    intro c hc
    rw [pyLower] at hc
    obtain ⟨d, hd, rfl⟩ := List.mem_map.mp hc
    exact pyLowerChar_netloc_facts d (pfacts.1 d hd).1 (pfacts.1 d hd).2
  have hbr2 : (((pyLower p.netloc).contains '[' && !((pyLower p.netloc).contains ']')) ||
      ((pyLower p.netloc).contains ']' && !((pyLower p.netloc).contains '['))) = false := by
    rw [contains_pyLower_special p.netloc '[' (by decide),
      contains_pyLower_special p.netloc ']' (by decide)]
    exact pfacts.2.1
  obtain ⟨pth, hpth⟩ : ∃ pth : PyStr,
      pth = if collapseSlashes (if p.path = [] then ['/'] else p.path) = [] then ['/']
        else collapseSlashes (if p.path = [] then ['/'] else p.path) := ⟨_, rfl⟩
  obtain ⟨qn, hqn⟩ : ∃ qn : PyStr,
      qn = if p.query = [] then [] else
        urlencodeDoseq ((parseQs p.query).filter (fun kv => !isTrackingKey kv.1)) := ⟨_, rfl⟩
  have hpthfacts : pth.head? = some '/' ∧ noDoubleSlash pth = true ∧
      (∀ c ∈ pth, ¬(c = '?') ∧ ¬(c = '#') ∧ isTabCrLf c = false) ∧
      (p.params = [] → pth.getLast? ≠ some ';') := by
    by_cases hpe : p.path = []
    · have hpv : pth = ['/'] := by
        rw [hpth, if_pos hpe]
        decide
      rw [hpv]
      refine ⟨rfl, by decide, ?_, ?_⟩
      · intro c hc
        rcases List.mem_cons.mp hc with rfl | hc
        · exact ⟨by decide, by decide, by decide⟩
        · exact absurd hc (List.not_mem_nil c)
      · intro _ h
        rw [show (['/'] : PyStr).getLast? = some '/' from rfl, Option.some.injEq] at h
        exact absurd h (by decide)
    · rcases pfacts.2.2.2.2.1 with hc | hhead
      · exact absurd hc hpe
      obtain ⟨pt, hpt⟩ : ∃ pt, p.path = '/' :: pt := by
        cases hP : p.path with
        | nil => exact absurd hP hpe
        | cons c tt =>
          rw [hP, List.head?_cons, Option.some.injEq] at hhead
          exact ⟨tt, by rw [hhead]⟩
      have hcol1 : collapseSlashes p.path = '/' :: collapseGo pt true := by
        rw [hpt, collapseSlashes, collapseGo, if_pos rfl]
        rfl
      have hcne : collapseSlashes p.path ≠ [] := by
        rw [hcol1]
        intro h
        cases h
      have hpv : pth = collapseSlashes p.path := by
        rw [hpth, if_neg hpe, if_neg hcne]
      refine ⟨?_, ?_, ?_, ?_⟩
      · rw [hpv, hcol1]
        rfl
      · rw [hpv]
        exact (noDoubleSlash_collapseGo p.path).1
      · intro c hc
        rw [hpv] at hc
        exact pfacts.2.2.1 c (collapseGo_mem _ _ _ hc)
      · intro hpar hlast
        rw [hpv, collapseSlashes] at hlast
        obtain ⟨cl, hcl⟩ : ∃ cl, p.path.getLast? = some cl := by
          cases hO : p.path.getLast? with
          | none =>
            rw [List.getLast?_eq_none_iff] at hO
            exact absurd hO hpe
          | some cl => exact ⟨cl, rfl⟩
        rcases getLast?_collapseGo p.path false cl hcl with hl | ⟨_, hnil⟩
        · rw [hlast, Option.some.injEq] at hl
          rw [← hl] at hcl
          exact pfacts.2.2.2.2.2 hpar hcl
        · exact hcne hnil
  obtain ⟨urlp, hurlp⟩ : ∃ urlp : PyStr,
      urlp = if p.params ≠ [] then pth ++ ';' :: p.params else pth := ⟨_, rfl⟩
  obtain ⟨hh, hnds, hchars, hlastf⟩ := hpthfacts
  have hurlpfacts : urlp.head? = some '/' ∧
      (∀ c ∈ urlp, ¬(c = '?') ∧ ¬(c = '#') ∧ isTabCrLf c = false) ∧
      noDoubleSlash urlp = true ∧
      ((splitParamsPy urlp).2 = [] → splitParamsPy urlp = (urlp, [])) := by
    by_cases hpar : p.params = []
    · have hueq : urlp = pth := by rw [hurlp, if_neg (fun h => h hpar)]
      rw [hueq]
      refine ⟨hh, hchars, hnds, ?_⟩
      intro h2nil
      rcases splitParamsPy_cases pth with ⟨heq, _⟩ | ⟨hdec, _, _, _, _⟩
      · exact heq
      · exfalso
        rw [h2nil] at hdec
        exact hlastf hpar (by rw [hdec]; exact List.getLast?_concat _)
    · have hueq : urlp = pth ++ ';' :: p.params := by rw [hurlp, if_pos hpar]
      obtain ⟨ptt, hpt2⟩ : ∃ ptt, pth = '/' :: ptt := by
        cases hP : pth with
        | nil =>
          rw [hP] at hh
          exact absurd hh (by simp)
        | cons c tt =>
          rw [hP, List.head?_cons, Option.some.injEq] at hh
          exact ⟨tt, by rw [hh]⟩
      refine ⟨?_, ?_, ?_, ?_⟩
      · rw [hueq, hpt2]
        rfl
      · intro c hc
        rw [hueq] at hc
        rcases List.mem_append.mp hc with hc | hc
        · exact hchars c hc
        · rcases List.mem_cons.mp hc with rfl | hc
          · exact ⟨by decide, by decide, by decide⟩
          · obtain ⟨f1, f2, _, f4⟩ := pfacts.2.2.2.1 c hc
            exact ⟨f1, f2, f4⟩
      · rw [hueq]
        refine noDoubleSlash_append pth (';' :: p.params) hnds ?_ ?_
        · refine noDoubleSlash_of_no_slash _ ?_
          intro x hx
          rcases List.mem_cons.mp hx with rfl | hx
          · decide
          · exact (pfacts.2.2.2.1 x hx).2.2.1
        · rintro ⟨-, hhd⟩
          rw [List.head?_cons, Option.some.injEq] at hhd
          exact absurd hhd (by decide)
      · intro h2nil
        exfalso
        exact splitParamsPy_snd_ne pth p.params (List.mem_of_mem_head? hh)
          (fun c hc => (pfacts.2.2.2.1 c hc).2.2.1) hpar
          (by rw [← hueq]; exact h2nil)
  obtain ⟨hu0', huf', hnds', hgood'⟩ := hurlpfacts
  have hqf2 : ∀ c ∈ qn, ¬(c = '#') ∧ isTabCrLf c = false := by
    intro c hc
    by_cases hq0 : p.query = []
    · rw [hqn, if_pos hq0] at hc
      exact absurd hc (List.not_mem_nil c)
    · rw [hqn, if_neg hq0] at hc
      exact urlencode_char_facts _ c hc
  have hsome : some (urlunparsePy (pyLower p.scheme) (pyLower p.netloc) pth p.params qn [])
      = some n := by
    rw [hpth, hqn]
    exact h1
  have hneq : n = urlunparsePy (pyLower p.scheme) (pyLower p.netloc) pth p.params qn [] :=
    ((Option.some.injEq _ _).mp hsome).symm
  have hnun : n = urlunsplitPy (pyLower p.scheme) (pyLower p.netloc) urlp qn [] := by
    rw [hneq]
    simp only [urlunparsePy]
    rw [← hurlp]
  obtain ⟨a, b, hparse, hrejoin, hane, hacol⟩ :=
    pyReparse (pyLower p.scheme) (pyLower p.netloc) urlp qn
      hsch1 hn2 hnf2 hbr2 hu0' huf' hqf2 hnds' hgood'
  have hqstable : (if qn = [] then [] else
      urlencodeDoseq ((parseQs qn).filter (fun kv => !isTrackingKey kv.1))) = qn := by
    by_cases hq0 : qn = []
    · rw [if_pos hq0, hq0]
    · rw [if_neg hq0]
      have hpq : p.query ≠ [] := by
        intro hc
        apply hq0
        rw [hqn, if_pos hc]
      have hqn2 : qn = urlencodeDoseq
          ((parseQs p.query).filter (fun kv => !isTrackingKey kv.1)) := by
        rw [hqn, if_neg hpq]
      have hGne : (parseQs p.query).filter (fun kv => !isTrackingKey kv.1) ≠ [] := by
        intro hc
        apply hq0
        rw [hqn2, hc]
        rfl
      obtain ⟨hnd, hvals⟩ := parseQs_wf p.query
      have hqi := query_idem p.query hnd hvals hGne
      rw [hqn2, hqi, filter_tracking_stable (parseQs p.query)]
  simp only [normalize_url]
  rw [h2, hnun, hparse]
  show (if ¬(pyLower p.scheme = httpScheme ∨ pyLower p.scheme = httpsScheme) then none
    else if pyLower p.netloc = [] then (none : Option PyStr)
    else some (urlunparsePy (pyLower (pyLower p.scheme)) (pyLower (pyLower p.netloc))
      (if collapseSlashes (if a = [] then ['/'] else a) = [] then ['/']
       else collapseSlashes (if a = [] then ['/'] else a))
      b
      (if qn = [] then [] else
        urlencodeDoseq ((parseQs qn).filter (fun kv => !isTrackingKey kv.1)))
      []))
    = some (urlunsplitPy (pyLower p.scheme) (pyLower p.netloc) urlp qn [])
  rw [if_neg (not_not_intro hsch1)]
  rw [if_neg hn2]
  rw [pyLower_idem p.scheme, pyLower_idem p.netloc]
  rw [if_neg hane, hacol, if_neg hane]
  rw [hqstable]
  simp only [urlunparsePy]
  rw [hrejoin]

/-- C6 (corrected): for any query string whose non-tracking part is
nonempty, the normalised query (`urlencode` of the filtered `parse_qs`)
parses back to exactly the non-tracking key/value pairs, but grouped by
key — first-occurrence key order with values in original order inside each
key — which is a permutation of, not equal to, the original non-tracking
pair list in query order. -/
theorem C6_amended (q : PyStr)
    (hne : (parseQs q).filter (fun kv => !isTrackingKey kv.1) ≠ []) :
    parseQsl (urlencodeDoseq ((parseQs q).filter (fun kv => !isTrackingKey kv.1)))
      = ungroup ((parseQs q).filter (fun kv => !isTrackingKey kv.1)) ∧
    (ungroup ((parseQs q).filter (fun kv => !isTrackingKey kv.1))).Perm
      ((parseQsl q).filter (fun kv => !isTrackingKey kv.1)) := by
  obtain ⟨hnd, hvals⟩ := parseQs_wf q
  obtain ⟨_, gvals⟩ :=
    grouped_filter_wf (parseQs q) (fun kv => !isTrackingKey kv.1) hnd hvals
  constructor
  · exact parseQsl_urlencode _ hne gvals
  · have hfk : ungroup ((parseQs q).filter (fun kv => !isTrackingKey kv.1))
        = (ungroup (parseQs q)).filter (fun kv => !isTrackingKey kv.1) :=
      ungroup_filter_key (fun k => !isTrackingKey k) (parseQs q)
    rw [hfk]
    exact List.Perm.filter _ (ungroup_parseQs_perm q)

/-- Witness for `C5_amended` at the concrete input `"http://a/"`. -/
theorem C5_amended_witness :
    normalize_url ['h','t','t','p',':','/','/','a','/']
      = some ['h','t','t','p',':','/','/','a','/'] :=
  C5_amended ['h','t','t','p',':','/','/','a','/']
    ['h','t','t','p',':','/','/','a','/'] (by decide) (by decide)

/-- Counterexample to C5 as stated: `normalize_url "http://x/a #f"` returns
`"http://x/a "` (trailing space kept, fragment dropped), but normalising
that result strips the space and yields the different URL `"http://x/a"`,
so `normalize_url` is not idempotent on all accepted inputs. -/
theorem C5_counterexample :
    normalize_url ['h','t','t','p',':','/','/','x','/','a',' ','#','f']
      = some ['h','t','t','p',':','/','/','x','/','a',' '] ∧
    normalize_url ['h','t','t','p',':','/','/','x','/','a',' ']
      = some ['h','t','t','p',':','/','/','x','/','a'] ∧
    (['h','t','t','p',':','/','/','x','/','a',' '] : PyStr)
      ≠ ['h','t','t','p',':','/','/','x','/','a'] :=
  ⟨by decide, by decide, by decide⟩

/-- Witness for `C6_amended` at the concrete query `"a=1&utm_x=2&b=3"`. -/
theorem C6_amended_witness :
    parseQsl (urlencodeDoseq ((parseQs ['a','=','1','&','u','t','m','_','x','=','2','&','b','=','3']).filter
        (fun kv => !isTrackingKey kv.1)))
      = ungroup ((parseQs ['a','=','1','&','u','t','m','_','x','=','2','&','b','=','3']).filter
        (fun kv => !isTrackingKey kv.1)) ∧
    (ungroup ((parseQs ['a','=','1','&','u','t','m','_','x','=','2','&','b','=','3']).filter
        (fun kv => !isTrackingKey kv.1))).Perm
      ((parseQsl ['a','=','1','&','u','t','m','_','x','=','2','&','b','=','3']).filter
        (fun kv => !isTrackingKey kv.1)) :=
  C6_amended ['a','=','1','&','u','t','m','_','x','=','2','&','b','=','3'] (by decide)

/-- Counterexample to C6 as stated: no key of `"a=1&b=2&a=3"` is a tracking
key, yet normalisation reorders the kept parameters to `"a=1&a=3&b=2"`
(grouping by key), so the original relative order of remaining parameters
is not preserved. -/
theorem C6_counterexample :
    normalize_url ['h','t','t','p',':','/','/','e','.','c','o','m','/','p','?','a','=','1','&','b','=','2','&','a','=','3']
      = some ['h','t','t','p',':','/','/','e','.','c','o','m','/','p','?','a','=','1','&','a','=','3','&','b','=','2'] ∧
    isTrackingKey ['a'] = false ∧ isTrackingKey ['b'] = false :=
  ⟨by decide, by decide, by decide⟩

end Crawler
